import Mathlib

/-!
# Union-Find, KMP search and DFS cycle detection

Shallow embeddings of three programs of the repository, each followed further
down by the properties proved about it:
`Algorithm/Graph/Union Find/UnionFindPathCompressionbyRank.cpp` (first),
`Algorithm/String/KMP.cpp` and
`Algorithm/Graph/Detect cycle in an undirected graph (DFS).cpp`.

## Union-Find with path compression and union by rank

* `vector<int>` is a `List Int`; an index is an `Int` (the C++ `int`).
* `v[i]` on a vector does no bounds check.  An access outside the vector is
  undefined in C++; the embedding stops there with `Fault.outOfRange`, keeping
  the object as it is at that moment (a member function mutates the object in
  place, so what was written before the access stays written).
* `find` is recursive in the source.  The embedding carries a recursion budget
  `fuel` and reports `Fault.outOfFuel` when it is used up.
-/

set_option autoImplicit false

/-- Why a call did not return. -/
inductive Fault where
  | outOfRange
  | outOfFuel
  deriving DecidableEq, Repr

/-- Outcome of a call: the returned value, or the fault that stopped it. -/
inductive Res (α : Type) where
  | ok (a : α)
  | fault (f : Fault)
  deriving DecidableEq, Repr

/-- The two public vectors of `class UnionFind`. -/
structure UnionFind where
  parent : List Int
  rank : List Int
  deriving DecidableEq, Repr

/-- Unchecked read `v[i]`: `none` when `i` is outside the vector. -/
def readAt (v : List Int) (i : Int) : Option Int :=
  if 0 ≤ i then v[i.toNat]? else none

/-- Unchecked write `v[i] = a`: `none` when `i` is outside the vector. -/
def writeAt (v : List Int) (i : Int) (a : Int) : Option (List Int) :=
  if 0 ≤ i ∧ i.toNat < v.length then some (v.set i.toNat a) else none

namespace UnionFind

/-- Constructor `UnionFind(int n)` for `n ≥ 0`: `parent.resize(n)`,
`rank.resize(n, 0)`, then `parent[i] = i` for `i = 0 .. n-1`. -/
def new (n : Nat) : UnionFind :=
  { parent := (List.range n).map (fun i : Nat => (i : Int)),
    rank := List.replicate n 0 }

/-- Recursive `find` with path compression:
`if (x == parent[x]) return x; return parent[x] = find(parent[x]);`
The right operand of the assignment is evaluated first, then the store. -/
def find : Nat → UnionFind → Int → Res Int × UnionFind
  | 0, s, _ => (.fault .outOfFuel, s)
  | fuel + 1, s, x =>
    match readAt s.parent x with
    | none => (.fault .outOfRange, s)
    | some p =>
      if x = p then (.ok x, s)
      else
        match find fuel s p with
        | (.ok r, s1) =>
          match writeAt s1.parent x r with
          | none => (.fault .outOfRange, s1)
          | some v => (.ok r, { s1 with parent := v })
        | (.fault f, s1) => (.fault f, s1)

/-- The three-way rank comparison at the end of `Union`, on two distinct roots
`xp`, `yp`. -/
def link (s : UnionFind) (xp yp : Int) : Res Unit × UnionFind :=
  match readAt s.rank xp, readAt s.rank yp with
  | some rx, some ry =>
    if rx > ry then
      match writeAt s.parent yp xp with
      | some v => (.ok (), { s with parent := v })
      | none => (.fault .outOfRange, s)
    else if rx < ry then
      match writeAt s.parent xp yp with
      | some v => (.ok (), { s with parent := v })
      | none => (.fault .outOfRange, s)
    else
      match writeAt s.parent xp yp with
      | some v =>
        match writeAt s.rank yp (ry + 1) with
        | some w => (.ok (), { parent := v, rank := w })
        | none => (.fault .outOfRange, { s with parent := v })
      | none => (.fault .outOfRange, s)
  | _, _ => (.fault .outOfRange, s)

/-- Member `Union(x, y)`: `find(x)`, then `find(y)`, return when the roots are
equal, otherwise link by rank. -/
def Union (fuel : Nat) (s : UnionFind) (x y : Int) : Res Unit × UnionFind :=
  match find fuel s x with
  | (.fault f, s1) => (.fault f, s1)
  | (.ok xp, s1) =>
    match find fuel s1 y with
    | (.fault f, s2) => (.fault f, s2)
    | (.ok yp, s2) =>
      if xp = yp then (.ok (), s2) else link s2 xp yp

end UnionFind

/-- Free function `countConnectedComponents(uf, n)`: counts the `i < n` with
`uf.parent[i] == i`. -/
def countConnectedComponents (uf : UnionFind) (n : Nat) : Res Int :=
  (List.range n).foldl
    (fun (acc : Res Int) (i : Nat) =>
      match acc with
      | .fault f => .fault f
      | .ok count =>
        match readAt uf.parent (i : Int) with
        | none => .fault .outOfRange
        | some p => if p = (i : Int) then .ok (count + 1) else .ok count)
    (.ok 0)

/-- The loop of `main` over an edge list: `uf.Union(edge.first, edge.second)`
for each edge in order. -/
def unionEdges (fuel : Nat) : UnionFind → List (Int × Int) → Res Unit × UnionFind
  | s, [] => (.ok (), s)
  | s, e :: es =>
    match UnionFind.Union fuel s e.1 e.2 with
    | (.ok _, s1) => unionEdges fuel s1 es
    | (.fault f, s1) => (.fault f, s1)

/-- Unchecked read `adjMatrix[i][j]`. -/
def readCell (m : List (List Int)) (i j : Nat) : Option Int :=
  match m[i]? with
  | none => none
  | some row => row[j]?

/-- Inner loop of `findConnectedComponents` for row `i`: columns `js` in order. -/
def scanRow (fuel : Nat) (m : List (List Int)) (i : Nat) :
    UnionFind → List Nat → Res Unit × UnionFind
  | s, [] => (.ok (), s)
  | s, j :: js =>
    match readCell m i j with
    | none => (.fault .outOfRange, s)
    | some c =>
      if c = 1 then
        match UnionFind.Union fuel s (i : Int) (j : Int) with
        | (.ok _, s1) => scanRow fuel m i s1 js
        | (.fault f, s1) => (.fault f, s1)
      else scanRow fuel m i s js

/-- Outer loop of `findConnectedComponents`: rows `is` in order, each over the
columns `0 .. n-1`. -/
def scanRows (fuel : Nat) (m : List (List Int)) (n : Nat) :
    UnionFind → List Nat → Res Unit × UnionFind
  | s, [] => (.ok (), s)
  | s, i :: is =>
    match scanRow fuel m i s (List.range n) with
    | (.ok _, s1) => scanRows fuel m n s1 is
    | (.fault f, s1) => (.fault f, s1)

/-- Free function `findConnectedComponents(adjMatrix)`: `n = adjMatrix.size()`,
a fresh `UnionFind(n)`, `Union(i, j)` for every cell equal to 1 in row-major
order, then `countConnectedComponents(uf, n)`. -/
def findConnectedComponents (fuel : Nat) (adjMatrix : List (List Int)) : Res Int :=
  match scanRows fuel adjMatrix adjMatrix.length (UnionFind.new adjMatrix.length)
      (List.range adjMatrix.length) with
  | (.ok _, s) => countConnectedComponents s adjMatrix.length
  | (.fault f, _) => .fault f


/-! ## Abstract view of a structure -/

/-- Parent of node `i` read as a natural number (`i` itself outside the vector). -/
def par (s : UnionFind) (i : Nat) : Nat :=
  match s.parent[i]? with
  | some p => p.toNat
  | none => i

/-- Rank entry of node `i` (0 outside the vector). -/
def rk (s : UnionFind) (i : Nat) : Int :=
  match s.rank[i]? with
  | some r => r
  | none => 0

/-- The element reached from `x` by following parent links as many times as
there are elements. -/
def root (s : UnionFind) (x : Nat) : Nat := (par s)^[s.parent.length] x

/-- Structural invariant of a structure of size `n`: both vectors have length
`n`, every parent entry is an index in `[0, n)`, and the rank strictly grows
along every parent link that is not a self loop. -/
structure UFInv (n : Nat) (s : UnionFind) : Prop where
  plen : s.parent.length = n
  rlen : s.rank.length = n
  range : ∀ i, i < n → ∃ p : Nat, p < n ∧ s.parent[i]? = some (p : Int)
  rankUp : ∀ i, i < n → par s i ≠ i → rk s i < rk s (par s i)

/-- States reachable from `UnionFind(n)` by `find` and `Union` calls with
indices in `[0, n)` that returned. -/
inductive Reach (n : Nat) : UnionFind → Prop where
  | init : Reach n (UnionFind.new n)
  | find {s s1 : UnionFind} {fuel : Nat} {x r : Int} :
      Reach n s → 0 ≤ x → x < n → UnionFind.find fuel s x = (.ok r, s1) → Reach n s1
  | union {s s1 : UnionFind} {fuel : Nat} {x y : Int} :
      Reach n s → 0 ≤ x → x < n → 0 ≤ y → y < n →
      UnionFind.Union fuel s x y = (.ok (), s1) → Reach n s1

/-- The roots among `0 .. n-1`: the `i` with `parent[i] == i`. -/
def roots (s : UnionFind) (n : Nat) : Finset Nat :=
  (Finset.range n).filter (fun i => s.parent[i]? = some (i : Int))

/-- Structure `s1` is `s` after some path compression: same ranks, and every
parent entry is either unchanged or now points at the old root of its node. -/
structure Compressed (n : Nat) (s s1 : UnionFind) : Prop where
  rank_eq : s1.rank = s.rank
  plen : s1.parent.length = n
  step : ∀ i, i < n →
    s1.parent[i]? = s.parent[i]? ∨ s1.parent[i]? = some ((root s i : Nat) : Int)

/-- Structure `s1` is `s` with the root `c` hung below the root `p`: only
`parent[c]` changes, and only the rank of `p` may change, without shrinking and
ending above the rank of `c`. -/
structure Linked (n : Nat) (s s1 : UnionFind) (c p : Nat) : Prop where
  parent_eq : s1.parent = s.parent.set c (p : Int)
  rlen : s1.rank.length = n
  rank_other : ∀ i, i ≠ p → rk s1 i = rk s i
  rank_parent : rk s p ≤ rk s1 p
  rank_child : rk s c < rk s1 p

/-- The undirected graph on the vertices `0 .. n-1` that has an edge between
`u` and `v` for every listed pair `(u, v)`. -/
def edgeGraph (n : Nat) (edges : List (Int × Int)) : SimpleGraph (Fin n) :=
  SimpleGraph.fromRel (fun u v => ((u.val : Int), (v.val : Int)) ∈ edges)

/-- Every endpoint of every listed edge is an index in `[0, n)`. -/
def EdgesValid (n : Nat) (edges : List (Int × Int)) : Prop :=
  ∀ e ∈ edges, (0 ≤ e.1 ∧ e.1 < n) ∧ (0 ≤ e.2 ∧ e.2 < n)

/-- Following parent links from `y` reaches `r`, and `parent[r] == r`. -/
def LeadsTo (s : UnionFind) (y r : Nat) : Prop :=
  s.parent[r]? = some (r : Int) ∧ ∃ k, (par s)^[k] y = r

/-- Elements `u` and `v` are in the same set: their parent chains end at the
same root. -/
def SameSet (s : UnionFind) (u v : Nat) : Prop :=
  ∃ r, LeadsTo s u r ∧ LeadsTo s v r

/-- The undirected graph on the vertices `0 .. n-1`, `n` the number of rows of
`M`, that has an edge between `i` and `j` whenever `M[i][j] == 1`. -/
def matrixGraph (M : List (List Int)) : SimpleGraph (Fin M.length) :=
  SimpleGraph.fromRel (fun u v => readCell M u.val v.val = some 1)

/-- The pairs `(i, j)`, for the columns `j` of `js` in order, with `M[i][j] == 1`. -/
def rowEdges (M : List (List Int)) (i : Nat) (js : List Nat) : List (Int × Int) :=
  js.filterMap (fun j => if readCell M i j = some 1 then some ((i : Int), (j : Int)) else none)

/-- The pairs `(i, j)` with `M[i][j] == 1` for the rows `i` of `rows` in order,
each row over the columns `0 .. n-1`. -/
def matrixEdges (M : List (List Int)) (n : Nat) (rows : List Nat) : List (Int × Int) :=
  rows.flatMap (fun i => rowEdges M i (List.range n))

/-- Number of parent links from `y` up to its root, counted with a budget of
`fuel` links. -/
def chainLen (s : UnionFind) : Nat → Nat → Nat
  | 0, _ => 0
  | fuel + 1, y => if par s y = y then 0 else chainLen s fuel (par s y) + 1

/-- The elements of `0 .. n-1` whose parent chain ends at `r`. -/
def members (s : UnionFind) (n r : Nat) : Finset Nat :=
  (Finset.range n).filter (fun y => root s y = r)

/-- Height of the tree rooted at `r`: the longest parent chain ending at `r`. -/
def height (s : UnionFind) (n r : Nat) : Nat :=
  (members s n r).sup (fun y => chainLen s n y)

/-- The `n x n` matrix that has 1 exactly at the positions `[u][v]` of the listed
edges and 0 elsewhere (the matrix the specification pairs with an edge list). -/
def edgeMatrix (n : Nat) (edges : List (Int × Int)) : List (List Int) :=
  (List.range n).map (fun i : Nat =>
    (List.range n).map (fun j : Nat => if ((i : Int), (j : Int)) ∈ edges then 1 else 0))

/-- Matrix `M1` has as many rows as `M`, each as long as `M` has rows. -/
def SameShape (M M1 : List (List Int)) : Prop :=
  M1.length = M.length ∧ ∀ row ∈ M1, row.length = M.length

/-! ## Knuth-Morris-Pratt search (`Algorithm/String/KMP.cpp`)

A `string` is a `List Char`.  Every `int` of the two functions is a loop counter
or a length that never goes below zero (`len - 1` and `j - 1` are evaluated only
where `len != 0`, `j != 0` or `j == M`), so they are natural numbers here; the
position pushed into `result` is computed as an integer.  Reads and writes are
unchecked in the source: outside the string or vector the embedding stops with
`Fault.outOfRange`.  The `while` loops carry a budget of iterations. -/

/-- Unchecked write `lps[i] = a`: `none` when `i` is outside the vector. -/
def storeAt (v : List Nat) (i : Nat) (a : Nat) : Option (List Nat) :=
  if i < v.length then some (v.set i a) else none

/-- Unchecked read `lps[k]` at an integer index (`lps[len - 1]`, `lps[j - 1]`):
`none` when `k` is negative or past the end. -/
def loadAt (v : List Nat) (k : Int) : Option Nat :=
  if 0 ≤ k then v[k.toNat]? else none

/-- The `while (i < m)` loop of `computeLPS`, from the state `(i, len, lps)`. -/
def lpsLoop (pattern : List Char) : Nat → Nat → Nat → List Nat → Res (List Nat)
  | 0, _, _, _ => .fault .outOfFuel
  | fuel + 1, i, len, lps =>
    if i < pattern.length then
      match pattern[i]?, pattern[len]? with
      | some a, some b =>
        if a = b then
          match storeAt lps i (len + 1) with
          | some lps1 => lpsLoop pattern fuel (i + 1) (len + 1) lps1
          | none => .fault .outOfRange
        else if len ≠ 0 then
          match loadAt lps ((len : Int) - 1) with
          | some l => lpsLoop pattern fuel i l lps
          | none => .fault .outOfRange
        else
          match storeAt lps i 0 with
          | some lps1 => lpsLoop pattern fuel (i + 1) len lps1
          | none => .fault .outOfRange
      | _, _ => .fault .outOfRange
    else .ok lps

/-- Function `computeLPS(pattern, lps)`: `lps[0] = 0`, then the loop from `i = 1`,
`len = 0`.  The result is the vector `lps` as the call leaves it. -/
def computeLPS (fuel : Nat) (pattern : List Char) (lps : List Nat) : Res (List Nat) :=
  match storeAt lps 0 0 with
  | some lps1 => lpsLoop pattern fuel 1 0 lps1
  | none => .fault .outOfRange

/-- The `while (i < N)` loop of `search`, from the state `(i, j, result)`. -/
def searchLoop (pat txt : List Char) (lps : List Nat) :
    Nat → Nat → Nat → List Int → Res (List Int)
  | 0, _, _, _ => .fault .outOfFuel
  | fuel + 1, i, j, result =>
    if i < txt.length then
      match pat[j]?, txt[i]? with
      | some a, some b =>
        let i1 := if a = b then i + 1 else i
        let j1 := if a = b then j + 1 else j
        if j1 = pat.length then
          match loadAt lps ((j1 : Int) - 1) with
          | some l => searchLoop pat txt lps fuel i1 l (result ++ [(i1 : Int) - (j1 : Int) + 1])
          | none => .fault .outOfRange
        else if i1 < txt.length then
          match pat[j1]?, txt[i1]? with
          | some c, some d =>
            if c ≠ d then
              if j1 ≠ 0 then
                match loadAt lps ((j1 : Int) - 1) with
                | some l => searchLoop pat txt lps fuel i1 l result
                | none => .fault .outOfRange
              else searchLoop pat txt lps fuel (i1 + 1) j1 result
            else searchLoop pat txt lps fuel i1 j1 result
          | _, _ => .fault .outOfRange
        else searchLoop pat txt lps fuel i1 j1 result
      | _, _ => .fault .outOfRange
    else .ok result

/-- Function `search(pat, txt)`: `lps(M, 0)`, `computeLPS(pat, lps)`, then the
loop from `i = 0`, `j = 0` with an empty `result`. -/
def search (fuel : Nat) (pat txt : List Char) : Res (List Int) :=
  match computeLPS fuel pat (List.replicate pat.length 0) with
  | .ok lps => searchLoop pat txt lps fuel 0 0 []
  | .fault f => .fault f

/-- Prefix of length `k` of `p` equals the `k` characters of `t` that end just
before position `i`: `p[a] == t[i - k + a]` for every `a < k`. -/
def Mt (p t : List Char) (i k : Nat) : Prop :=
  k ≤ i ∧ ∀ a, a < k → p[a]? = t[i - k + a]?

/-- Value `l` is the length of the longest proper border of the prefix of length
`L` of `p`, in index form. -/
def IsLps (p : List Char) (L l : Nat) : Prop :=
  l < L ∧ Mt p p L l ∧ ∀ k, k < L → Mt p p L k → k ≤ l

/-- The 0-based positions `s` at which `pat` occurs in `txt`. -/
def occurrences (pat txt : List Char) : List Nat :=
  (List.range (txt.length + 1 - pat.length)).filter (fun s => decide (pat <+: txt.drop s))

/-- The 0-based positions `s` with `s + M <= i` at which `pat` occurs in `txt`:
the occurrences that end at or before position `i`. -/
def occUpTo (pat txt : List Char) (i : Nat) : List Nat :=
  (List.range (i + 1 - pat.length)).filter (fun s => decide (pat <+: txt.drop s))

/-- Number `l` is the length of the longest proper prefix of `w` that is also a
suffix of `w`: `w.take l` is such a prefix, and no proper prefix of `w` that is
a suffix of `w` is longer. -/
def LongestBorder (w : List Char) (l : Nat) : Prop :=
  l < w.length ∧ w.take l <:+ w ∧
    ∀ b : List Char, b <+: w → b <:+ w → b.length < w.length → b.length ≤ l

/-! ## Cycle detection by depth-first search
(`Algorithm/Graph/Detect cycle in an undirected graph (DFS).cpp`)

The array `g` of adjacency vectors is a `List (List Nat)`: a vertex is an index
`0 .. V-1`, so the entries are natural numbers; the argument `parent` is an
`Int`, since `isCyclic` passes `-1`.  `visited` is a `List Bool`.  Accesses
`g[start]` and `visited[w]` are unchecked in the source: outside the array or
vector the embedding stops with `Fault.outOfRange`.  The recursion of
`isCycleUtil` carries a budget of nested calls. -/

/-- Unchecked write `visited[i] = true`: `none` when `i` is outside the vector. -/
def markAt (v : List Bool) (i : Nat) : Option (List Bool) :=
  if i < v.length then some (v.set i true) else none

/-- The `for` loop of `isCycleUtil` over the rest `ws` of `g[start]`, with `rec`
standing for the recursive call `isCycleUtil(g, w, visited, start)`. -/
def cycleLoop (rec : Nat → List Bool → Int → Res (Bool × List Bool)) (start : Nat)
    (parent : Int) : List Nat → List Bool → Res (Bool × List Bool)
  | [], vis => .ok (false, vis)
  | w :: ws, vis =>
    if (w : Int) = parent then cycleLoop rec start parent ws vis
    else
      match vis[w]? with
      | none => .fault .outOfRange
      | some true => .ok (true, vis)
      | some false =>
        match rec w vis (start : Int) with
        | .ok (true, vis1) => .ok (true, vis1)
        | .ok (false, vis1) => cycleLoop rec start parent ws vis1
        | .fault f => .fault f

/-- Function `isCycleUtil(g, start, visited, parent)`: the returned flag and the
vector `visited` as the call leaves it. -/
def isCycleUtil : Nat → List (List Nat) → Nat → List Bool → Int → Res (Bool × List Bool)
  | 0, _, _, _, _ => .fault .outOfFuel
  | fuel + 1, g, start, visited, parent =>
    match markAt visited start with
    | none => .fault .outOfRange
    | some vis1 =>
      match g[start]? with
      | none => .fault .outOfRange
      | some row =>
        cycleLoop (fun w vis p => isCycleUtil fuel g w vis p) start parent row vis1

/-- The `for (i = 0; i < V; i++)` loop of `isCyclic` over the remaining `i`. -/
def cyclicLoop (fuel : Nat) (g : List (List Nat)) : List Nat → List Bool → Res Bool
  | [], _ => .ok false
  | i :: rest, vis =>
    match vis[i]? with
    | none => .fault .outOfRange
    | some true => cyclicLoop fuel g rest vis
    | some false =>
      match isCycleUtil fuel g i vis (-1) with
      | .ok (true, _) => .ok true
      | .ok (false, vis1) => cyclicLoop fuel g rest vis1
      | .fault f => .fault f

/-- Function `isCyclic(g, V)`: `visited(V, false)`, then the loop over `0 .. V-1`. -/
def isCyclic (fuel : Nat) (g : List (List Nat)) (V : Nat) : Res Bool :=
  cyclicLoop fuel g (List.range V) (List.replicate V false)

/-- The adjacency vector `g[u]` (empty outside the array). -/
def nbrs (g : List (List Nat)) (u : Nat) : List Nat :=
  match g[u]? with
  | some row => row
  | none => []

/-- The array `g` holds symmetric adjacency lists of a simple graph on
`0 .. V-1`: `V` lists, and for every `u < V` the entries of `g[u]` are below `V`,
none is `u` itself (no self-loop), each `w` of them has `u` in `g[w]`
(symmetric), and none occurs twice (no parallel edge). -/
def SimpleAdj (g : List (List Nat)) (V : Nat) : Prop :=
  g.length = V ∧
    ∀ u, u < V → (∀ w ∈ nbrs g u, w < V ∧ w ≠ u ∧ u ∈ nbrs g w) ∧ (nbrs g u).Nodup

/-- The conditions of `SimpleAdj`, for every index `u`. -/
structure AdjOK (g : List (List Nat)) (V : Nat) : Prop where
  len : g.length = V
  bound : ∀ u w, w ∈ nbrs g u → w < V
  irrefl : ∀ u w, w ∈ nbrs g u → w ≠ u
  symm : ∀ u w, w ∈ nbrs g u → u ∈ nbrs g w
  nodup : ∀ u, (nbrs g u).Nodup

/-- The undirected graph on `0 .. V-1` with an edge between `u` and `v` when `v`
is in the adjacency list of `u`. -/
def listGraph (g : List (List Nat)) (V : Nat) : SimpleGraph (Fin V) :=
  SimpleGraph.fromRel (fun u v => v.val ∈ nbrs g u.val)

/-- Vertex `x` is marked in `visited`. -/
def On (vis : List Bool) (x : Nat) : Prop := vis[x]? = some true

/-- Number of vertices not yet marked. -/
def unv (vis : List Bool) : Nat := vis.count false

/-- The `parent` argument of a call whose ancestors, nearest first, are `st`:
the nearest ancestor, or `-1` at the top. -/
def parentOf (st : List Nat) : Int :=
  match st with
  | [] => -1
  | a :: _ => (a : Int)

/-- Vertex `x` is finished: all its neighbours are marked, and all but at most
one of them (the one equal to `q`) carry a smaller discovery index than `x`. -/
def Finished (g : List (List Nat)) (vis : List Bool) (d : Nat → Nat) (x : Nat) : Prop :=
  (∀ z ∈ nbrs g x, On vis z) ∧ ∃ q : Int, ∀ z ∈ nbrs g x, (z : Int) ≠ q → d z < d x

/-- Invariant of the search between calls: `st` are the active ancestors, every
other marked vertex is finished, and every marked vertex has a discovery index
above the number of unmarked vertices. -/
structure DfsInv (g : List (List Nat)) (V : Nat) (vis : List Bool) (st : List Nat)
    (d : Nat → Nat) : Prop where
  len : vis.length = V
  stOn : ∀ y ∈ st, On vis y
  fin : ∀ x, On vis x → x ∈ st ∨ Finished g vis d x
  dlow : ∀ x, On vis x → unv vis < d x

/-- What a call on the unmarked vertex `c` that returns `false` has done. -/
def UtilPost (g : List (List Nat)) (V : Nat) (vis vis1 : List Bool) (c : Nat) (st : List Nat)
    (d : Nat → Nat) : Prop :=
  (∀ x, On vis x → On vis1 x) ∧ On vis1 c ∧ unv vis1 < unv vis ∧
  (∀ x, On vis1 x → ¬ On vis x → ∀ z ∈ nbrs g x,
    ¬ On vis z ∨ (x = c ∧ (z : Int) = parentOf st)) ∧
  ∃ d1 : Nat → Nat, (∀ x, On vis x → d1 x = d x) ∧
    (∀ x, On vis1 x → ¬ On vis x → d1 x ≤ unv vis) ∧ DfsInv g V vis1 st d1

/-- Contract of `isCycleUtil` for calls with at most `F` unmarked vertices: the
call returns; `true` only if the graph has a cycle; `false` with `UtilPost`. -/
def UtilSpec (g : List (List Nat)) (V F : Nat)
    (rec : Nat → List Bool → Int → Res (Bool × List Bool)) : Prop :=
  ∀ (c : Nat) (vis : List Bool) (st : List Nat) (d : Nat → Nat),
    DfsInv g V vis st d → vis[c]? = some false →
    List.Chain (fun x y => y ∈ nbrs g x) c st → unv vis ≤ F →
    ∃ (b : Bool) (vis1 : List Bool), rec c vis (parentOf st) = .ok (b, vis1) ∧
      (b = true → ¬ (listGraph g V).IsAcyclic) ∧
      (b = false → UtilPost g V vis vis1 c st d)

/-- Invariant of the `for` loop of `isCycleUtil` at vertex `u`, after the entries
`P` of `g[u]`, relative to the marks `vis1` at the start of the loop. -/
structure LoopInv (g : List (List Nat)) (V : Nat) (u : Nat) (st : List Nat)
    (vis1 vis : List Bool) (d : Nat → Nat) (P : List Nat) : Prop where
  inv : DfsInv g V vis (u :: st) d
  mono : ∀ x, On vis1 x → On vis x
  proc : ∀ z ∈ P, (z : Int) = parentOf st ∨ (On vis z ∧ ¬ On vis1 z)
  newd : ∀ x, On vis x → ¬ On vis1 x → d x < d u
  newQ : ∀ x, On vis x → ¬ On vis1 x → ∀ z ∈ nbrs g x, ¬ On vis1 z ∨ (z = u ∧ x ∈ P)

/-! ## Basic facts -/

theorem readAt_natCast (v : List Int) (i : Nat) : readAt v (i : Int) = v[i]? := by
  simp [readAt]

theorem writeAt_natCast (v : List Int) (i : Nat) (a : Int) (h : i < v.length) :
    writeAt v (i : Int) a = some (v.set i a) := by
  simp [writeAt, h]

theorem UFInv.parent_eq {n : Nat} {s : UnionFind} (h : UFInv n s) {i : Nat} (hi : i < n) :
    s.parent[i]? = some ((par s i : Nat) : Int) := by
  obtain ⟨p, _, hp⟩ := h.range i hi
  simp [par, hp]

theorem UFInv.par_lt {n : Nat} {s : UnionFind} (h : UFInv n s) {i : Nat} (hi : i < n) :
    par s i < n := by
  obtain ⟨p, hpn, hp⟩ := h.range i hi
  simp [par, hp, hpn]

theorem UFInv.iter_lt {n : Nat} {s : UnionFind} (h : UFInv n s) {x : Nat} (hx : x < n) (k : Nat) :
    (par s)^[k] x < n := by
  induction k with
  | zero => simpa using hx
  | succ k ih => rw [Function.iterate_succ_apply']; exact h.par_lt ih

theorem parent_self_iff {n : Nat} {s : UnionFind} (h : UFInv n s) {i : Nat} (hi : i < n) :
    s.parent[i]? = some (i : Int) ↔ par s i = i := by
  rw [h.parent_eq hi]
  simp

theorem iterate_of_fixed (s : UnionFind) {x j : Nat}
    (hfix : par s ((par s)^[j] x) = (par s)^[j] x) (m : Nat) (hm : j ≤ m) :
    (par s)^[m] x = (par s)^[j] x := by
  obtain ⟨d, rfl⟩ := Nat.exists_eq_add_of_le hm
  rw [Nat.add_comm, Function.iterate_add_apply]
  exact Function.iterate_fixed hfix d

theorem UFInv.exists_fixed {n : Nat} {s : UnionFind} (h : UFInv n s) {x : Nat} (hx : x < n) :
    ∃ j, j < n ∧ par s ((par s)^[j] x) = (par s)^[j] x := by
  by_contra hcon
  push_neg at hcon
  have hmono : ∀ j, j ≤ n → ∀ i, i < j →
      rk s ((par s)^[i] x) < rk s ((par s)^[j] x) := by
    intro j
    induction j with
    | zero => intro _ i hi; omega
    | succ j ih =>
      intro hj i hi
      have hstep : rk s ((par s)^[j] x) < rk s ((par s)^[j + 1] x) := by
        rw [Function.iterate_succ_apply']
        exact h.rankUp _ (h.iter_lt hx j) (hcon j (by omega))
      rcases Nat.lt_succ_iff_lt_or_eq.mp hi with h1 | h1
      · exact lt_trans (ih (by omega) i h1) hstep
      · subst h1; exact hstep
  obtain ⟨a, b, hab, heq⟩ := Fintype.exists_ne_map_eq_of_card_lt
    (fun j : Fin (n + 1) => (⟨(par s)^[j.val] x, h.iter_lt hx j.val⟩ : Fin n)) (by simp)
  have heq2 : (par s)^[a.val] x = (par s)^[b.val] x := by
    simpa using congrArg Fin.val heq
  have hne : a.val ≠ b.val := fun hv => hab (Fin.ext hv)
  rcases Nat.lt_or_gt_of_ne hne with hlt | hlt
  · have := hmono b.val (by omega) a.val hlt
    rw [heq2] at this
    exact lt_irrefl _ this
  · have := hmono a.val (by omega) b.val hlt
    rw [heq2] at this
    exact lt_irrefl _ this

theorem UFInv.fixed_of_le {n : Nat} {s : UnionFind} (h : UFInv n s) {x : Nat} (hx : x < n)
    (f : Nat) (hf : n ≤ f + 1) : par s ((par s)^[f] x) = (par s)^[f] x := by
  obtain ⟨j, hj, hfix⟩ := h.exists_fixed hx
  rw [iterate_of_fixed s hfix f (by omega)]
  exact hfix

theorem UFInv.root_eq_iterate {n : Nat} {s : UnionFind} (h : UFInv n s) {x : Nat} (hx : x < n)
    (f : Nat) (hfix : par s ((par s)^[f] x) = (par s)^[f] x) : root s x = (par s)^[f] x := by
  unfold root
  rw [h.plen]
  rcases Nat.le_total f n with hle | hle
  · exact iterate_of_fixed s hfix n hle
  · exact (iterate_of_fixed s (h.fixed_of_le hx n (by omega)) f hle).symm

theorem UFInv.root_lt {n : Nat} {s : UnionFind} (h : UFInv n s) {x : Nat} (hx : x < n) :
    root s x < n := h.iter_lt hx _

theorem UFInv.par_root {n : Nat} {s : UnionFind} (h : UFInv n s) {x : Nat} (hx : x < n) :
    par s (root s x) = root s x := by
  unfold root
  rw [h.plen]
  exact h.fixed_of_le hx n (by omega)

theorem UFInv.root_par {n : Nat} {s : UnionFind} (h : UFInv n s) {x : Nat} (hx : x < n) :
    root s (par s x) = root s x := by
  have h1 : root s (par s x) = (par s)^[n] (par s x) := by unfold root; rw [h.plen]
  have h2 : (par s)^[n] (par s x) = (par s)^[n + 1] x := by
    rw [Function.iterate_succ_apply]
  rw [h1, h2]
  exact (h.root_eq_iterate hx (n + 1) (h.fixed_of_le hx (n + 1) (by omega))).symm

theorem UFInv.root_of_fixed {n : Nat} {s : UnionFind} (h : UFInv n s) {x : Nat} (hx : x < n)
    (hfix : par s x = x) : root s x = x :=
  h.root_eq_iterate hx 0 (by simpa using hfix)

theorem UFInv.root_iterate {n : Nat} {s : UnionFind} (h : UFInv n s) {x : Nat} (hx : x < n)
    (k : Nat) : root s ((par s)^[k] x) = root s x := by
  induction k with
  | zero => rfl
  | succ k ih => rw [Function.iterate_succ_apply', h.root_par (h.iter_lt hx k), ih]

/-! ## What `find` does on a well-formed structure -/

theorem find_run {n : Nat} {s : UnionFind} (h : UFInv n s) :
    ∀ (f x : Nat), x < n → par s ((par s)^[f] x) = (par s)^[f] x →
    ∃ s1, UnionFind.find (f + 1) s (x : Int) = (.ok (((par s)^[f] x : Nat) : Int), s1) ∧
      s1.rank = s.rank ∧ s1.parent.length = n ∧
      (∀ j, s1.parent[(par s)^[j] x]? = some (((par s)^[f] x : Nat) : Int)) ∧
      (∀ i, (∀ j, (par s)^[j] x ≠ i) → s1.parent[i]? = s.parent[i]?) := by
  intro f
  induction f with
  | zero =>
    intro x hx hfix
    simp only [Function.iterate_zero, id_eq] at hfix ⊢
    refine ⟨s, ?_, rfl, h.plen, ?_, fun _ _ => rfl⟩
    · simp [UnionFind.find, readAt_natCast, h.parent_eq hx, hfix]
    · intro j
      rw [Function.iterate_fixed hfix j, h.parent_eq hx, hfix]
  | succ f ih =>
    intro x hx hfix
    by_cases hroot : par s x = x
    · have hit : ∀ j, (par s)^[j] x = x := fun j => Function.iterate_fixed hroot j
      refine ⟨s, ?_, rfl, h.plen, ?_, fun _ _ => rfl⟩
      · rw [hit]
        simp [UnionFind.find, readAt_natCast, h.parent_eq hx, hroot]
      · intro j
        rw [hit, hit, h.parent_eq hx, hroot]
    · have hfix1 : par s ((par s)^[f] (par s x)) = (par s)^[f] (par s x) := by
        simpa [Function.iterate_succ_apply] using hfix
      obtain ⟨s1, hrun, hrank, hlen, hpath, hoff⟩ := ih (par s x) (h.par_lt hx) hfix1
      have hr : (par s)^[f + 1] x = (par s)^[f] (par s x) := Function.iterate_succ_apply _ _ _
      refine ⟨{ s1 with parent := s1.parent.set x (((par s)^[f] (par s x) : Nat) : Int) },
        ?_, hrank, by simp [hlen], ?_, ?_⟩
      · rw [UnionFind.find, readAt_natCast, h.parent_eq hx]
        have hne : ¬ ((x : Int) = ((par s x : Nat) : Int)) := by
          intro he
          exact hroot (Nat.cast_injective he).symm
        simp only [hne, if_false, hrun, hr]
        rw [writeAt_natCast _ _ _ (by omega)]
      · intro j
        rw [hr]
        simp only [List.getElem?_set]
        cases j with
        | zero => simp [hlen, hx]
        | succ j =>
          rw [Function.iterate_succ_apply]
          split
          · simp [hlen, hx]
          · exact hpath j
      · intro i hi
        have hix : x ≠ i := by simpa using hi 0
        simp only [List.getElem?_set, hix, if_false]
        apply hoff
        intro j
        have := hi (j + 1)
        rwa [Function.iterate_succ_apply] at this

theorem find_ok {n : Nat} {s : UnionFind} (h : UFInv n s) {x : Nat} (hx : x < n)
    {fuel : Nat} (hf : n ≤ fuel) :
    ∃ s1, UnionFind.find fuel s (x : Int) = (.ok ((root s x : Nat) : Int), s1) ∧
      Compressed n s s1 ∧
      (∀ j, s1.parent[(par s)^[j] x]? = some ((root s x : Nat) : Int)) ∧
      (∀ i, (∀ j, (par s)^[j] x ≠ i) → s1.parent[i]? = s.parent[i]?) := by
  obtain ⟨f, rfl⟩ : ∃ f, fuel = f + 1 := ⟨fuel - 1, by omega⟩
  have hfix := h.fixed_of_le hx f hf
  obtain ⟨s1, hrun, hrank, hlen, hpath, hoff⟩ := find_run h f x hx hfix
  rw [← h.root_eq_iterate hx f hfix] at hrun hpath
  refine ⟨s1, hrun, ⟨hrank, hlen, ?_⟩, hpath, hoff⟩
  intro i _
  by_cases hon : ∃ j, (par s)^[j] x = i
  · obtain ⟨j, rfl⟩ := hon
    right
    rw [hpath j, h.root_iterate hx j]
  · left
    exact hoff i (fun j hj => hon ⟨j, hj⟩)

theorem root_unique {n : Nat} {s : UnionFind} (h : UFInv n s) (g : Nat → Nat)
    (hstep : ∀ i, i < n → g (par s i) = g i)
    (hfix : ∀ t, t < n → par s t = t → g t = t) :
    ∀ u, u < n → root s u = g u := by
  intro u hu
  have hit : ∀ k, g ((par s)^[k] u) = g u := by
    intro k
    induction k with
    | zero => rfl
    | succ k ih => rw [Function.iterate_succ_apply', hstep _ (h.iter_lt hu k), ih]
  have h1 : g (root s u) = root s u := hfix _ (h.root_lt hu) (h.par_root hu)
  have h2 : g (root s u) = g u := by
    unfold root
    exact hit _
  rw [← h1, h2]

theorem UFInv.rank_lt_root {n : Nat} {s : UnionFind} (h : UFInv n s) {i : Nat} (hi : i < n)
    (hne : par s i ≠ i) : rk s i < rk s (root s i) := by
  have hmono : ∀ k, rk s (par s i) ≤ rk s ((par s)^[k + 1] i) := by
    intro k
    induction k with
    | zero => simp
    | succ k ih =>
      refine le_trans ih ?_
      rw [Function.iterate_succ_apply' (par s) (k + 1)]
      by_cases hfx : par s ((par s)^[k + 1] i) = (par s)^[k + 1] i
      · rw [hfx]
      · exact le_of_lt (h.rankUp _ (h.iter_lt hi _) hfx)
  have hr : root s i = (par s)^[n + 1] i :=
    h.root_eq_iterate hi (n + 1) (h.fixed_of_le hi (n + 1) (by omega))
  rw [hr]
  exact lt_of_lt_of_le (h.rankUp i hi hne) (hmono n)

theorem Compressed.par_cases {n : Nat} {s s1 : UnionFind} (_h : UFInv n s)
    (c : Compressed n s s1) {i : Nat} (hi : i < n) :
    (s1.parent[i]? = s.parent[i]? ∧ par s1 i = par s i) ∨
    (s1.parent[i]? = some ((root s i : Nat) : Int) ∧ par s1 i = root s i) := by
  rcases c.step i hi with h1 | h1
  · left
    exact ⟨h1, by simp [par, h1]⟩
  · right
    exact ⟨h1, by simp [par, h1]⟩

theorem Compressed.keeps_inv {n : Nat} {s s1 : UnionFind} (h : UFInv n s)
    (c : Compressed n s s1) : UFInv n s1 := by
  have hrk : ∀ i, rk s1 i = rk s i := fun i => by simp [rk, c.rank_eq]
  refine ⟨c.plen, by rw [c.rank_eq]; exact h.rlen, ?_, ?_⟩
  · intro i hi
    rcases c.par_cases h hi with ⟨h1, _⟩ | ⟨h1, _⟩
    · rw [h1]; exact h.range i hi
    · exact ⟨root s i, h.root_lt hi, h1⟩
  · intro i hi hne
    rw [hrk, hrk]
    rcases c.par_cases h hi with ⟨_, h1⟩ | ⟨_, h1⟩
    · rw [h1] at hne ⊢
      exact h.rankUp i hi hne
    · rw [h1] at hne ⊢
      apply h.rank_lt_root hi
      intro hfx
      exact hne (h.root_of_fixed hi hfx)

theorem Compressed.root_eq {n : Nat} {s s1 : UnionFind} (h : UFInv n s)
    (c : Compressed n s s1) {u : Nat} (hu : u < n) : root s1 u = root s u := by
  refine root_unique (c.keeps_inv h) (root s) ?_ ?_ u hu
  · intro i hi
    rcases c.par_cases h hi with ⟨_, h1⟩ | ⟨_, h1⟩
    · rw [h1]; exact h.root_par hi
    · rw [h1]; exact h.root_of_fixed (h.root_lt hi) (h.par_root hi)
  · intro t ht hfx
    rcases c.par_cases h ht with ⟨_, h1⟩ | ⟨_, h1⟩
    · rw [h1] at hfx; exact h.root_of_fixed ht hfx
    · rw [h1] at hfx; exact hfx

theorem Compressed.isRoot_iff {n : Nat} {s s1 : UnionFind} (h : UFInv n s)
    (c : Compressed n s s1) {i : Nat} (hi : i < n) :
    s1.parent[i]? = some (i : Int) ↔ s.parent[i]? = some (i : Int) := by
  rcases c.par_cases h hi with ⟨h1, _⟩ | ⟨h1, _⟩
  · rw [h1]
  · rw [h1, parent_self_iff h hi]
    constructor
    · intro he
      have he2 : root s i = i := Nat.cast_injective (Option.some.inj he)
      have := h.par_root hi
      rwa [he2] at this
    · intro hfx
      rw [h.root_of_fixed hi hfx]

theorem Compressed.roots_eq {n : Nat} {s s1 : UnionFind} (h : UFInv n s)
    (c : Compressed n s s1) : roots s1 n = roots s n := by
  ext i
  simp only [roots, Finset.mem_filter, Finset.mem_range]
  constructor
  · rintro ⟨hi, h1⟩; exact ⟨hi, (c.isRoot_iff h hi).1 h1⟩
  · rintro ⟨hi, h1⟩; exact ⟨hi, (c.isRoot_iff h hi).2 h1⟩

theorem Compressed.refl {n : Nat} {s : UnionFind} (h : UFInv n s) : Compressed n s s :=
  ⟨rfl, h.plen, fun _ _ => Or.inl rfl⟩

theorem Compressed.trans {n : Nat} {s s1 s2 : UnionFind} (h : UFInv n s)
    (c1 : Compressed n s s1) (c2 : Compressed n s1 s2) : Compressed n s s2 := by
  refine ⟨c2.rank_eq.trans c1.rank_eq, c2.plen, ?_⟩
  intro i hi
  rcases c2.step i hi with h2 | h2
  · rw [h2]; exact c1.step i hi
  · right
    rw [h2, c1.root_eq h hi]

/-! ## What the rank comparison of `Union` does on two distinct roots -/

theorem UFInv.rank_eq {n : Nat} {s : UnionFind} (h : UFInv n s) {i : Nat} (hi : i < n) :
    s.rank[i]? = some (rk s i) := by
  have hlt : i < s.rank.length := by rw [h.rlen]; exact hi
  simp [rk, List.getElem?_eq_getElem hlt]

theorem rk_set_ne (s : UnionFind) (v : List Int) (b i : Nat) (a : Int) (hne : i ≠ b) :
    rk { parent := v, rank := s.rank.set b a } i = rk s i := by
  simp [rk, List.getElem?_set, Ne.symm hne]

theorem rk_set_self {n : Nat} {s : UnionFind} (h : UFInv n s) (v : List Int) {b : Nat}
    (hb : b < n) (a : Int) : rk { parent := v, rank := s.rank.set b a } b = a := by
  have hlt : b < s.rank.length := by rw [h.rlen]; exact hb
  simp [rk, List.getElem?_set, hlt]

theorem link_spec {n : Nat} {s : UnionFind} (h : UFInv n s) {a b : Nat}
    (ha : a < n) (hb : b < n) :
    (rk s a > rk s b ∧
      UnionFind.link s (a : Int) (b : Int)
        = (.ok (), { s with parent := s.parent.set b (a : Int) }) ∧
      Linked n s { s with parent := s.parent.set b (a : Int) } b a) ∨
    (rk s a < rk s b ∧
      UnionFind.link s (a : Int) (b : Int)
        = (.ok (), { s with parent := s.parent.set a (b : Int) }) ∧
      Linked n s { s with parent := s.parent.set a (b : Int) } a b) ∨
    (rk s a = rk s b ∧
      UnionFind.link s (a : Int) (b : Int)
        = (.ok (), { parent := s.parent.set a (b : Int),
                     rank := s.rank.set b (rk s b + 1) }) ∧
      Linked n s { parent := s.parent.set a (b : Int),
                   rank := s.rank.set b (rk s b + 1) } a b) := by
  have hla : a < s.parent.length := by rw [h.plen]; exact ha
  have hlb : b < s.parent.length := by rw [h.plen]; exact hb
  have hrb : b < s.rank.length := by rw [h.rlen]; exact hb
  rcases lt_trichotomy (rk s a) (rk s b) with hlt | heq | hgt
  · right; left
    refine ⟨hlt, ?_, ⟨rfl, h.rlen, fun _ _ => rfl, le_refl _, hlt⟩⟩
    have hng : ¬ rk s a > rk s b := not_lt.mpr (le_of_lt hlt)
    simp [UnionFind.link, readAt_natCast, h.rank_eq ha, h.rank_eq hb, hng, hlt,
      writeAt_natCast _ _ _ hla]
  · right; right
    refine ⟨heq, ?_, ⟨rfl, by simp [h.rlen], ?_, ?_, ?_⟩⟩
    · simp [UnionFind.link, readAt_natCast, h.rank_eq ha, h.rank_eq hb, heq,
        writeAt_natCast _ _ _ hla, writeAt_natCast _ _ _ hrb]
    · intro i hi
      exact rk_set_ne s _ b i _ hi
    · rw [rk_set_self h _ hb]; omega
    · rw [rk_set_self h _ hb]; omega
  · left
    refine ⟨hgt, ?_, ⟨rfl, h.rlen, fun _ _ => rfl, le_refl _, hgt⟩⟩
    simp [UnionFind.link, readAt_natCast, h.rank_eq ha, h.rank_eq hb, hgt,
      writeAt_natCast _ _ _ hlb]

theorem Linked.par_eq {n : Nat} {s s1 : UnionFind} {c p : Nat} (h : UFInv n s)
    (l : Linked n s s1 c p) (hc : c < n) (i : Nat) :
    par s1 i = if i = c then p else par s i := by
  have hlc : c < s.parent.length := by rw [h.plen]; exact hc
  unfold par
  rw [l.parent_eq, List.getElem?_set]
  by_cases hic : i = c
  · subst hic
    simp [hlc]
  · simp [hic, Ne.symm hic]

theorem Linked.link_inv {n : Nat} {s s1 : UnionFind} {c p : Nat} (h : UFInv n s)
    (l : Linked n s s1 c p) (hc : c < n) (hp : p < n) (hcp : c ≠ p)
    (hproot : par s p = p) : UFInv n s1 := by
  have hlc : c < s.parent.length := by rw [h.plen]; exact hc
  refine ⟨by rw [l.parent_eq, List.length_set, h.plen], l.rlen, ?_, ?_⟩
  · intro i hi
    rw [l.parent_eq, List.getElem?_set]
    by_cases hic : c = i
    · subst hic
      exact ⟨p, hp, by simp [hlc]⟩
    · simp only [hic, if_false]
      exact h.range i hi
  · intro i hi hne
    rw [l.par_eq h hc] at hne ⊢
    by_cases hic : i = c
    · subst hic
      simp only [if_true]
      rw [l.rank_other i hcp]
      exact l.rank_child
    · simp only [hic, if_false] at hne ⊢
      have hip : i ≠ p := by
        intro hip
        rw [hip] at hne
        exact hne hproot
      rw [l.rank_other i hip]
      by_cases hpp : par s i = p
      · rw [hpp]
        have := h.rankUp i hi hne
        rw [hpp] at this
        exact lt_of_lt_of_le this l.rank_parent
      · rw [l.rank_other _ hpp]
        exact h.rankUp i hi hne

theorem Linked.link_root_eq {n : Nat} {s s1 : UnionFind} {c p : Nat} (h : UFInv n s)
    (l : Linked n s s1 c p) (hc : c < n) (hp : p < n) (hcp : c ≠ p)
    (hcroot : par s c = c) (hproot : par s p = p) {u : Nat} (hu : u < n) :
    root s1 u = if root s u = c then p else root s u := by
  refine root_unique (l.link_inv h hc hp hcp hproot)
    (fun v => if root s v = c then p else root s v) ?_ ?_ u hu
  · intro i hi
    rw [l.par_eq h hc]
    by_cases hic : i = c
    · subst hic
      simp [h.root_of_fixed hp hproot, h.root_of_fixed hi hcroot, Ne.symm hcp]
    · simp only [hic, if_false]
      rw [h.root_par hi]
  · intro t ht hfx
    rw [l.par_eq h hc] at hfx
    by_cases htc : t = c
    · subst htc
      simp only [if_true] at hfx
      exact absurd hfx.symm hcp
    · simp only [htc, if_false] at hfx
      simp [h.root_of_fixed ht hfx, htc]

theorem Linked.link_isRoot_iff {n : Nat} {s s1 : UnionFind} {c p : Nat} (h : UFInv n s)
    (l : Linked n s s1 c p) (hc : c < n) (hcp : c ≠ p) {i : Nat} :
    s1.parent[i]? = some (i : Int) ↔ (i ≠ c ∧ s.parent[i]? = some (i : Int)) := by
  have hlc : c < s.parent.length := by rw [h.plen]; exact hc
  rw [l.parent_eq, List.getElem?_set]
  by_cases hic : c = i
  · subst hic
    simp [hlc, Ne.symm hcp]
  · simp [hic, Ne.symm hic]

theorem Linked.link_roots_eq {n : Nat} {s s1 : UnionFind} {c p : Nat} (h : UFInv n s)
    (l : Linked n s s1 c p) (hc : c < n) (hcp : c ≠ p) :
    roots s1 n = (roots s n).erase c := by
  ext i
  simp only [roots, Finset.mem_filter, Finset.mem_range, Finset.mem_erase]
  rw [l.link_isRoot_iff h hc hcp]
  tauto

/-! ## Fuel monotonicity -/

theorem find_mono (s : UnionFind) : ∀ (f : Nat) (x r : Int) (s1 : UnionFind),
    UnionFind.find f s x = (.ok r, s1) → UnionFind.find (f + 1) s x = (.ok r, s1) := by
  intro f
  induction f with
  | zero => intro x r s1 h; simp [UnionFind.find] at h
  | succ f ih =>
    intro x r s1 h
    rw [UnionFind.find] at h ⊢
    cases hrd : readAt s.parent x with
    | none => simp [hrd] at h
    | some p =>
      simp only [hrd] at h ⊢
      by_cases hxp : x = p
      · simpa [hxp] using h
      · simp only [hxp, if_false] at h ⊢
        rcases hrec : UnionFind.find f s p with ⟨res, s2⟩
        rw [hrec] at h
        cases res with
        | fault e => simp at h
        | ok r2 =>
          rw [ih p r2 s2 hrec]
          exact h

theorem find_mono_le (s : UnionFind) {f g : Nat} (hfg : f ≤ g) {x r : Int} {s1 : UnionFind}
    (h : UnionFind.find f s x = (.ok r, s1)) : UnionFind.find g s x = (.ok r, s1) := by
  obtain ⟨d, rfl⟩ := Nat.exists_eq_add_of_le hfg
  induction d with
  | zero => exact h
  | succ d ih => exact find_mono s _ x r s1 (ih (Nat.le_add_right _ _))

theorem union_mono_le {s : UnionFind} {f g : Nat} (hfg : f ≤ g) {x y : Int} {s1 : UnionFind}
    (h : UnionFind.Union f s x y = (.ok (), s1)) :
    UnionFind.Union g s x y = (.ok (), s1) := by
  unfold UnionFind.Union at h ⊢
  rcases h1 : UnionFind.find f s x with ⟨res1, t1⟩
  rw [h1] at h
  cases res1 with
  | fault e => simp at h
  | ok xp =>
    rw [find_mono_le s hfg h1]
    simp only at h ⊢
    rcases h2 : UnionFind.find f t1 y with ⟨res2, t2⟩
    rw [h2] at h
    cases res2 with
    | fault e => simp at h
    | ok yp =>
      rw [find_mono_le t1 hfg h2]
      exact h

/-! ## The invariant holds in every reachable state -/

theorem new_parent (n i : Nat) (hi : i < n) :
    (UnionFind.new n).parent[i]? = some (i : Int) := by
  simp [UnionFind.new, List.getElem?_range hi]

theorem new_rank (n i : Nat) (hi : i < n) : (UnionFind.new n).rank[i]? = some 0 := by
  simp [UnionFind.new, hi]

theorem new_par (n i : Nat) (hi : i < n) : par (UnionFind.new n) i = i := by
  simp [par, new_parent n i hi]

theorem new_inv (n : Nat) : UFInv n (UnionFind.new n) := by
  refine ⟨?_, by simp [UnionFind.new], ?_, ?_⟩
  · show ((List.range n).map (fun i : Nat => (i : Int))).length = n
    rw [List.length_map, List.length_range]
  · intro i hi
    exact ⟨i, hi, new_parent n i hi⟩
  · intro i hi hne
    exact absurd (new_par n i hi) hne

theorem union_spec {n : Nat} {s : UnionFind} (h : UFInv n s) {x y : Nat}
    (hx : x < n) (hy : y < n) {fuel : Nat} (hf : n ≤ fuel) :
    ∃ s2, Compressed n s s2 ∧
      UnionFind.Union fuel s (x : Int) (y : Int) =
        if root s x = root s y then (.ok (), s2)
        else UnionFind.link s2 ((root s x : Nat) : Int) ((root s y : Nat) : Int) := by
  obtain ⟨s1, hrun1, c1, _, _⟩ := find_ok h hx hf
  have h1 := c1.keeps_inv h
  obtain ⟨s2, hrun2, c2, _, _⟩ := find_ok h1 hy hf
  rw [c1.root_eq h hy] at hrun2
  refine ⟨s2, c1.trans h c2, ?_⟩
  unfold UnionFind.Union
  rw [hrun1]
  simp only [hrun2]
  by_cases he : root s x = root s y
  · simp [he]
  · have he2 : ¬ ((root s x : Int) = (root s y : Int)) := fun hc => he (Nat.cast_injective hc)
    simp [he, he2]

theorem int_index {n : Nat} {x : Int} (h0 : 0 ≤ x) (hn : x < n) :
    ∃ k : Nat, k < n ∧ x = (k : Int) := by
  refine ⟨x.toNat, ?_, ?_⟩ <;> omega

/-! ## The counting loop -/

theorem roots_succ (s : UnionFind) (n : Nat) :
    roots s (n + 1) =
      if s.parent[n]? = some (n : Int) then insert n (roots s n) else roots s n := by
  unfold roots
  rw [Finset.range_succ, Finset.filter_insert]

theorem not_mem_roots_self (s : UnionFind) (n : Nat) : n ∉ roots s n := by
  simp [roots]

theorem count_eq (s : UnionFind) : ∀ n, n ≤ s.parent.length →
    countConnectedComponents s n = .ok ((roots s n).card : Int) := by
  intro n
  induction n with
  | zero => intro _; simp [countConnectedComponents, roots]
  | succ n ih =>
    intro hn
    have hlt : n < s.parent.length := hn
    have ih1 := ih (Nat.le_of_lt hlt)
    unfold countConnectedComponents at ih1 ⊢
    rw [List.range_succ, List.foldl_append, ih1, List.foldl_cons, List.foldl_nil,
      readAt_natCast, roots_succ, List.getElem?_eq_getElem hlt]
    by_cases he : s.parent[n] = (n : Int)
    · simp [he, Finset.card_insert_of_not_mem (not_mem_roots_self s n)]
    · simp [he]

theorem roots_card_le (s : UnionFind) (n : Nat) : (roots s n).card ≤ n := by
  unfold roots
  exact (Finset.card_filter_le _ _).trans (by simp)

/-! ## Reachable states satisfy the invariant -/

theorem find_compressed {n : Nat} {s s1 : UnionFind} (h : UFInv n s) {fuel : Nat} {x r : Int}
    (h0 : 0 ≤ x) (hn : x < n) (hrun : UnionFind.find fuel s x = (.ok r, s1)) :
    Compressed n s s1 ∧ r = ((root s x.toNat : Nat) : Int) := by
  obtain ⟨k, hk, rfl⟩ := int_index h0 hn
  obtain ⟨t, hrun2, c, _, _⟩ := find_ok h hk (Nat.le_max_right fuel n)
  have h3 := find_mono_le s (Nat.le_max_left fuel n) hrun
  rw [hrun2] at h3
  simp only [Prod.mk.injEq, Res.ok.injEq] at h3
  obtain ⟨hr, rfl⟩ := h3
  exact ⟨c, by simpa using hr.symm⟩

theorem union_inv {n : Nat} {s s1 : UnionFind} (h : UFInv n s) {fuel : Nat} {x y : Int}
    (hx0 : 0 ≤ x) (hxn : x < n) (hy0 : 0 ≤ y) (hyn : y < n)
    (hrun : UnionFind.Union fuel s x y = (.ok (), s1)) : UFInv n s1 := by
  obtain ⟨a, ha, rfl⟩ := int_index hx0 hxn
  obtain ⟨b, hb, rfl⟩ := int_index hy0 hyn
  obtain ⟨s2, c, hU⟩ := union_spec h ha hb (Nat.le_max_right fuel n)
  have h3 := union_mono_le (Nat.le_max_left fuel n) hrun
  rw [hU] at h3
  have h2 := c.keeps_inv h
  by_cases he : root s a = root s b
  · simp only [he, if_true, Prod.mk.injEq, true_and] at h3
    rw [← h3]; exact h2
  · simp only [he, if_false] at h3
    have hra := h.root_lt ha
    have hrb := h.root_lt hb
    have hfa : par s2 (root s a) = root s a := by
      rw [← c.root_eq h ha]; exact h2.par_root ha
    have hfb : par s2 (root s b) = root s b := by
      rw [← c.root_eq h hb]; exact h2.par_root hb
    rcases link_spec h2 hra hrb with ⟨_, hl, l⟩ | ⟨_, hl, l⟩ | ⟨_, hl, l⟩
    · rw [hl] at h3
      simp only [Prod.mk.injEq, true_and] at h3
      rw [← h3]
      exact l.link_inv h2 hrb hra (Ne.symm he) hfa
    · rw [hl] at h3
      simp only [Prod.mk.injEq, true_and] at h3
      rw [← h3]
      exact l.link_inv h2 hra hrb he hfb
    · rw [hl] at h3
      simp only [Prod.mk.injEq, true_and] at h3
      rw [← h3]
      exact l.link_inv h2 hra hrb he hfb

theorem Reach.has_inv {n : Nat} {s : UnionFind} (hr : Reach n s) : UFInv n s := by
  induction hr with
  | init => exact new_inv n
  | find _ h0 hn hrun ih => exact (find_compressed ih h0 hn hrun).1.keeps_inv ih
  | union _ hx0 hxn hy0 hyn hrun ih => exact union_inv ih hx0 hxn hy0 hyn hrun

/-! ## `Union` at the level of the partition -/

theorem union_cases {n : Nat} {s : UnionFind} (h : UFInv n s) {x y : Nat}
    (hx : x < n) (hy : y < n) {fuel : Nat} (hf : n ≤ fuel) :
    ∃ s2, Compressed n s s2 ∧
      ((root s x = root s y ∧ UnionFind.Union fuel s (x : Int) (y : Int) = (.ok (), s2)) ∨
       (root s x ≠ root s y ∧ ∃ s1 c p,
          UnionFind.Union fuel s (x : Int) (y : Int) = (.ok (), s1) ∧ Linked n s2 s1 c p ∧
          ((c = root s x ∧ p = root s y) ∨ (c = root s y ∧ p = root s x)))) := by
  obtain ⟨s2, c, hU⟩ := union_spec h hx hy hf
  refine ⟨s2, c, ?_⟩
  by_cases he : root s x = root s y
  · left
    exact ⟨he, by rw [hU]; simp [he]⟩
  · right
    refine ⟨he, ?_⟩
    simp only [he, if_false] at hU
    rcases link_spec (c.keeps_inv h) (h.root_lt hx) (h.root_lt hy) with
      ⟨_, hl, l⟩ | ⟨_, hl, l⟩ | ⟨_, hl, l⟩
    · exact ⟨_, _, _, hU.trans hl, l, Or.inr ⟨rfl, rfl⟩⟩
    · exact ⟨_, _, _, hU.trans hl, l, Or.inl ⟨rfl, rfl⟩⟩
    · exact ⟨_, _, _, hU.trans hl, l, Or.inl ⟨rfl, rfl⟩⟩

theorem merge_iff (a b c p rx ry : Nat)
    (hcp : (c = rx ∧ p = ry) ∨ (c = ry ∧ p = rx)) (hne : rx ≠ ry) :
    ((if a = c then p else a) = (if b = c then p else b)) ↔
      (a = b ∨ (a = rx ∧ b = ry) ∨ (a = ry ∧ b = rx)) := by
  split_ifs <;> omega

theorem UFInv.root_mem_roots {n : Nat} {s : UnionFind} (h : UFInv n s) {x : Nat} (hx : x < n) :
    root s x ∈ roots s n := by
  simp only [roots, Finset.mem_filter, Finset.mem_range]
  exact ⟨h.root_lt hx, (parent_self_iff h (h.root_lt hx)).2 (h.par_root hx)⟩

theorem union_ok {n : Nat} {s : UnionFind} (h : UFInv n s) {x y : Nat}
    (hx : x < n) (hy : y < n) {fuel : Nat} (hf : n ≤ fuel) :
    ∃ s1, UnionFind.Union fuel s (x : Int) (y : Int) = (.ok (), s1) ∧ UFInv n s1 ∧
      (∀ u v, u < n → v < n →
        (root s1 u = root s1 v ↔
          root s u = root s v ∨ (root s u = root s x ∧ root s v = root s y) ∨
            (root s u = root s y ∧ root s v = root s x))) ∧
      (roots s1 n).card + (if root s x = root s y then 0 else 1) = (roots s n).card := by
  obtain ⟨s2, c, hcase⟩ := union_cases h hx hy hf
  have h2 := c.keeps_inv h
  rcases hcase with ⟨he, hU⟩ | ⟨he, s1, ch, pa, hU, l, hcp⟩
  · refine ⟨s2, hU, h2, ?_, ?_⟩
    · intro u v hu hv
      rw [c.root_eq h hu, c.root_eq h hv]
      constructor
      · intro h1; exact Or.inl h1
      · rintro (h1 | ⟨h1, h3⟩ | ⟨h1, h3⟩)
        · exact h1
        · rw [h1, h3, he]
        · rw [h1, h3, he]
    · simp [he, c.roots_eq h]
  · have hch : ch < n := by
      rcases hcp with ⟨h1, _⟩ | ⟨h1, _⟩ <;> rw [h1] <;> apply h.root_lt <;> assumption
    have hpa : pa < n := by
      rcases hcp with ⟨_, h1⟩ | ⟨_, h1⟩ <;> rw [h1] <;> apply h.root_lt <;> assumption
    have hne : ch ≠ pa := by
      rcases hcp with ⟨h1, h3⟩ | ⟨h1, h3⟩
      · rw [h1, h3]; exact he
      · rw [h1, h3]; exact Ne.symm he
    have hfx : ∀ z, z < n → par s2 (root s z) = root s z := by
      intro z hz
      rw [← c.root_eq h hz]; exact h2.par_root hz
    have hfch : par s2 ch = ch := by
      rcases hcp with ⟨h1, _⟩ | ⟨h1, _⟩ <;> rw [h1] <;> apply hfx <;> assumption
    have hfpa : par s2 pa = pa := by
      rcases hcp with ⟨_, h1⟩ | ⟨_, h1⟩ <;> rw [h1] <;> apply hfx <;> assumption
    refine ⟨s1, hU, l.link_inv h2 hch hpa hne hfpa, ?_, ?_⟩
    · intro u v hu hv
      rw [l.link_root_eq h2 hch hpa hne hfch hfpa hu, l.link_root_eq h2 hch hpa hne hfch hfpa hv,
        c.root_eq h hu, c.root_eq h hv]
      exact merge_iff _ _ _ _ _ _ hcp he
    · have hmem : ch ∈ roots s n := by
        rcases hcp with ⟨h1, _⟩ | ⟨h1, _⟩ <;> rw [h1] <;> apply h.root_mem_roots <;> assumption
      rw [l.link_roots_eq h2 hch hne, c.roots_eq h]
      simp only [he, if_false]
      exact Finset.card_erase_add_one hmem

/-! ## A run over an edge list and the graph of its edges -/

theorem unionEdges_run {n : Nat} (R : Nat → Nat → Prop)
    (hsymm : ∀ a b, R a b → R b a) (htrans : ∀ a b c, R a b → R b c → R a c)
    {fuel : Nat} (hf : n ≤ fuel) :
    ∀ (es : List (Int × Int)) (s : UnionFind), UFInv n s → EdgesValid n es →
      (∀ e ∈ es, R e.1.toNat e.2.toNat) →
      (∀ u v, u < n → v < n → root s u = root s v → R u v) →
      ∃ sf, unionEdges fuel s es = (.ok (), sf) ∧ UFInv n sf ∧
        (roots sf n).card ≤ (roots s n).card ∧
        (∀ u v, u < n → v < n → root sf u = root sf v → R u v) ∧
        (∀ u v, u < n → v < n → root s u = root s v → root sf u = root sf v) ∧
        (∀ e ∈ es, root sf e.1.toNat = root sf e.2.toNat) := by
  intro es
  induction es with
  | nil =>
    intro s h _ _ hsound
    exact ⟨s, rfl, h, le_refl _, hsound, fun _ _ _ _ he => he, fun _ he => by simp at he⟩
  | cons e es ih =>
    intro s h hvalid hR hsound
    obtain ⟨⟨hx0, hxn⟩, ⟨hy0, hyn⟩⟩ := hvalid e (List.mem_cons_self _ _)
    obtain ⟨a, ha, hae⟩ := int_index hx0 hxn
    obtain ⟨b, hb, hbe⟩ := int_index hy0 hyn
    have hRab : R a b := by
      have := hR e (List.mem_cons_self _ _)
      rw [hae, hbe] at this
      simpa using this
    obtain ⟨s1, hU, h1, hiff, hcard⟩ := union_ok h ha hb hf
    have hsound1 : ∀ u v, u < n → v < n → root s1 u = root s1 v → R u v := by
      intro u v hu hv huv
      rcases (hiff u v hu hv).1 huv with h3 | ⟨h3, h4⟩ | ⟨h3, h4⟩
      · exact hsound u v hu hv h3
      · exact htrans _ _ _ (hsound u a hu ha h3)
          (htrans _ _ _ hRab (hsound b v hb hv h4.symm))
      · exact htrans _ _ _ (hsound u b hu hb h3)
          (htrans _ _ _ (hsymm _ _ hRab) (hsound a v ha hv h4.symm))
    obtain ⟨sf, hrun, hf1, hle, hsoundf, hkeep, hedges⟩ :=
      ih s1 h1 (fun e1 he1 => hvalid e1 (List.mem_cons_of_mem _ he1))
        (fun e1 he1 => hR e1 (List.mem_cons_of_mem _ he1)) hsound1
    refine ⟨sf, ?_, hf1, ?_, hsoundf, ?_, ?_⟩
    · rw [unionEdges, hae, hbe, hU]
      exact hrun
    · have : (roots s1 n).card ≤ (roots s n).card := by
        rw [← hcard]; exact Nat.le_add_right _ _
      exact le_trans hle this
    · intro u v hu hv huv
      exact hkeep u v hu hv ((hiff u v hu hv).2 (Or.inl huv))
    · intro e1 he1
      rcases List.mem_cons.1 he1 with rfl | he2
      · rw [hae, hbe]
        simp only [Int.toNat_ofNat]
        exact hkeep a b ha hb ((hiff a b ha hb).2 (Or.inr (Or.inl ⟨rfl, rfl⟩)))
      · exact hedges e1 he2

theorem reachable_root {n : Nat} (G : SimpleGraph (Fin n)) (s : UnionFind)
    (hadj : ∀ u v : Fin n, G.Adj u v → root s u.val = root s v.val) :
    ∀ u v : Fin n, G.Reachable u v → root s u.val = root s v.val := by
  rintro u v ⟨p⟩
  induction p with
  | nil => rfl
  | cons hstep _ ih => exact (hadj _ _ hstep).trans ih

theorem components_card {n : Nat} (G : SimpleGraph (Fin n)) (s : UnionFind) (h : UFInv n s)
    (hiff : ∀ u v : Fin n, G.Reachable u v ↔ root s u.val = root s v.val) :
    Nat.card G.ConnectedComponent = (roots s n).card := by
  obtain ⟨f, hmk⟩ : ∃ f : G.ConnectedComponent → {r // r ∈ roots s n},
      ∀ v : Fin n, (f (Quot.mk _ v)).val = root s v.val :=
    ⟨Quot.lift (fun v => ⟨root s v.val, h.root_mem_roots v.isLt⟩)
      (fun u v huv => Subtype.ext ((hiff u v).1 huv)), fun _ => rfl⟩
  have hbij : Function.Bijective f := by
    constructor
    · intro c d
      refine Quot.induction_on₂ c d ?_
      intro u v huv
      apply Quot.sound
      have h3 := congrArg Subtype.val huv
      rw [hmk, hmk] at h3
      exact (hiff u v).2 h3
    · rintro ⟨r, hr⟩
      have hr2 := hr
      simp only [roots, Finset.mem_filter, Finset.mem_range] at hr2
      refine ⟨Quot.mk _ ⟨r, hr2.1⟩, Subtype.ext ?_⟩
      rw [hmk]
      exact h.root_of_fixed hr2.1 ((parent_self_iff h hr2.1).1 hr2.2)
  rw [Nat.card_eq_of_bijective f hbij, Nat.card_eq_fintype_card, Fintype.card_coe]

theorem run_components {n : Nat} (G : SimpleGraph (Fin n)) (es : List (Int × Int))
    (hvalid : EdgesValid n es)
    (hG : ∀ u v : Fin n, G.Adj u v ↔
      u ≠ v ∧ (((u.val : Int), (v.val : Int)) ∈ es ∨ ((v.val : Int), (u.val : Int)) ∈ es))
    {fuel : Nat} (hf : n ≤ fuel) :
    ∃ sf, unionEdges fuel (UnionFind.new n) es = (.ok (), sf) ∧ UFInv n sf ∧
      Nat.card G.ConnectedComponent = (roots sf n).card := by
  let R : Nat → Nat → Prop := fun a b =>
    ∃ (ha : a < n) (hb : b < n), G.Reachable ⟨a, ha⟩ ⟨b, hb⟩
  have hsymm : ∀ a b, R a b → R b a := by
    rintro a b ⟨ha, hb, hr⟩
    exact ⟨hb, ha, hr.symm⟩
  have htrans : ∀ a b c, R a b → R b c → R a c := by
    rintro a b c ⟨ha, _, hr1⟩ ⟨_, hc, hr2⟩
    exact ⟨ha, hc, hr1.trans hr2⟩
  have hR : ∀ e ∈ es, R e.1.toNat e.2.toNat := by
    intro e he
    obtain ⟨⟨hx0, hxn⟩, ⟨hy0, hyn⟩⟩ := hvalid e he
    obtain ⟨a, ha, hae⟩ := int_index hx0 hxn
    obtain ⟨b, hb, hbe⟩ := int_index hy0 hyn
    rw [hae, hbe]
    simp only [Int.toNat_ofNat]
    refine ⟨ha, hb, ?_⟩
    by_cases hab : a = b
    · subst hab; exact SimpleGraph.Reachable.refl _
    · apply SimpleGraph.Adj.reachable
      rw [hG]
      refine ⟨fun hc => hab (congrArg Fin.val hc), Or.inl ?_⟩
      have : e = ((a : Int), (b : Int)) := Prod.ext hae hbe
      rw [← this]; exact he
  have hinit : ∀ u v, u < n → v < n →
      root (UnionFind.new n) u = root (UnionFind.new n) v → R u v := by
    intro u v hu hv huv
    rw [(new_inv n).root_of_fixed hu (new_par n u hu),
      (new_inv n).root_of_fixed hv (new_par n v hv)] at huv
    subst huv
    exact ⟨hu, hu, SimpleGraph.Reachable.refl _⟩
  obtain ⟨sf, hrun, hinv, _, hsound, _, hedges⟩ :=
    unionEdges_run R hsymm htrans hf es (UnionFind.new n) (new_inv n) hvalid hR hinit
  refine ⟨sf, hrun, hinv, components_card G sf hinv ?_⟩
  intro u v
  constructor
  · apply reachable_root G sf
    intro a b hadj
    rw [hG] at hadj
    rcases hadj.2 with he | he
    · simpa using hedges _ he
    · simpa using (hedges _ he).symm
  · intro huv
    obtain ⟨_, _, hr⟩ := hsound u.val v.val u.isLt v.isLt huv
    exact hr

/-! ## Roots as end points of parent chains -/

theorem leadsTo_iff {n : Nat} {s : UnionFind} (h : UFInv n s) {y : Nat} (hy : y < n) (r : Nat) :
    LeadsTo s y r ↔ r = root s y := by
  constructor
  · rintro ⟨hroot, k, rfl⟩
    have hfix := (parent_self_iff h (h.iter_lt hy k)).1 hroot
    exact (h.root_eq_iterate hy k hfix).symm
  · rintro rfl
    exact ⟨(parent_self_iff h (h.root_lt hy)).2 (h.par_root hy), s.parent.length, rfl⟩

theorem sameSet_iff {n : Nat} {s : UnionFind} (h : UFInv n s) {u v : Nat}
    (hu : u < n) (hv : v < n) : SameSet s u v ↔ root s u = root s v := by
  constructor
  · rintro ⟨r, h1, h2⟩
    rw [← (leadsTo_iff h hu r).1 h1, ← (leadsTo_iff h hv r).1 h2]
  · intro he
    exact ⟨root s u, (leadsTo_iff h hu _).2 rfl, (leadsTo_iff h hv _).2 he⟩

theorem set_same (l : List Int) (i : Nat) (a : Int) (h : l[i]? = some a) : l.set i a = l := by
  apply List.ext_getElem?
  intro j
  rw [List.getElem?_set]
  split
  · next hij =>
    subst hij
    rw [h]
    have : i < l.length := by
      by_contra hc
      rw [List.getElem?_eq_none (not_lt.mp hc)] at h
      exact Option.noConfusion h
    simp [this]
  · rfl

theorem find_at_root {s : UnionFind} {r : Nat} (hr : s.parent[r]? = some (r : Int))
    (g : Nat) (hg : 1 ≤ g) : UnionFind.find g s (r : Int) = (.ok (r : Int), s) := by
  obtain ⟨g1, rfl⟩ : ∃ g1, g = g1 + 1 := ⟨g - 1, by omega⟩
  rw [UnionFind.find, readAt_natCast, hr]
  simp

theorem find_again {s : UnionFind} {x r : Nat} (hx : s.parent[x]? = some (r : Int))
    (hr : s.parent[r]? = some (r : Int)) (g : Nat) (hg : 2 ≤ g) :
    UnionFind.find g s (x : Int) = (.ok (r : Int), s) := by
  obtain ⟨g1, rfl⟩ : ∃ g1, g = g1 + 2 := ⟨g - 2, by omega⟩
  have hroot := find_at_root hr (g1 + 1) (by omega)
  by_cases hxr : x = r
  · subst hxr
    exact find_mono s _ _ _ _ hroot
  · rw [UnionFind.find, readAt_natCast, hx]
    have hne : ¬ ((x : Int) = (r : Int)) := fun hc => hxr (Nat.cast_injective hc)
    simp only [hne, if_false, hroot]
    have hlt : x < s.parent.length := by
      by_contra hc
      rw [List.getElem?_eq_none (not_lt.mp hc)] at hx
      exact Option.noConfusion hx
    rw [writeAt_natCast _ _ _ hlt, set_same _ _ _ hx]

/-- A reachable state of size 4 with two sets of two elements, built by
`Union(0,1)` and `Union(2,3)`. -/
theorem reach_pairs : Reach 4 ⟨[1, 1, 3, 3], [0, 1, 0, 1]⟩ := by
  have h1 : Reach 4 ⟨[1, 1, 2, 3], [0, 1, 0, 0]⟩ :=
    @Reach.union 4 _ _ 4 0 1 Reach.init (by decide) (by decide) (by decide)
      (by decide) (by decide)
  exact @Reach.union 4 _ _ 4 2 3 h1 (by decide) (by decide) (by decide)
    (by decide) (by decide)

/-- A reachable state of size 4 with a parent chain of length two
(`0 → 1 → 3`), built by `Union(0,1)`, `Union(2,3)`, `Union(0,2)`. -/
theorem reach_chain : Reach 4 ⟨[1, 3, 3, 3], [0, 1, 0, 2]⟩ :=
  @Reach.union 4 _ _ 4 0 2 reach_pairs (by decide) (by decide) (by decide)
    (by decide) (by decide)

/-! ## The claims -/

/-- C1: for every `n` and every edge list with endpoints in `[0, n)`, calling
`Union(u, v)` for each edge in order on `UnionFind(n)` returns, and
`countConnectedComponents` on the result returns exactly the number of connected
components of the undirected graph on `0 .. n-1` with those edges. -/
theorem count_after_edges_eq_components (n : Nat) (edges : List (Int × Int)) (fuel : Nat)
    (hfuel : n ≤ fuel) (hvalid : EdgesValid n edges) :
    ∃ sf, unionEdges fuel (UnionFind.new n) edges = (.ok (), sf) ∧
      countConnectedComponents sf n
        = .ok ((Nat.card (edgeGraph n edges).ConnectedComponent : Nat) : Int) := by
  obtain ⟨sf, hrun, hinv, hcard⟩ :=
    run_components (edgeGraph n edges) edges hvalid
      (fun u v => SimpleGraph.fromRel_adj _ u v) hfuel
  refine ⟨sf, hrun, ?_⟩
  rw [count_eq sf n (le_of_eq hinv.plen.symm), hcard]

/-- Witness for C1 at `n = 4`, edges `[(0,1),(2,3)]` (count 2) and
`[(0,1),(1,2),(2,3)]` (count 1). -/
theorem count_after_edges_eq_components_witness :
    (EdgesValid 4 [(0, 1), (2, 3)] ∧
      ∃ sf, unionEdges 4 (UnionFind.new 4) [(0, 1), (2, 3)] = (.ok (), sf) ∧
        countConnectedComponents sf 4
          = .ok ((Nat.card (edgeGraph 4 [(0, 1), (2, 3)]).ConnectedComponent : Nat) : Int)) ∧
    countConnectedComponents (unionEdges 4 (UnionFind.new 4) [(0, 1), (2, 3)]).2 4 = .ok 2 ∧
    countConnectedComponents
      (unionEdges 4 (UnionFind.new 4) [(0, 1), (1, 2), (2, 3)]).2 4 = .ok 1 := by
  have hv : EdgesValid 4 [(0, 1), (2, 3)] := by
    unfold EdgesValid
    decide
  exact ⟨⟨hv, count_after_edges_eq_components 4 [(0, 1), (2, 3)] 4 (le_refl 4) hv⟩,
    by decide, by decide⟩

/-- C3: in every reachable state and for every `x` in `[0, n)`, `find(x)`
returns, its value `r` is the element reached from `x` by following parent
links until `parent[r] == r`, and the call changes neither the root reached from
any element `y` nor which elements are roots. -/
theorem find_returns_root_keeps_partition (n : Nat) (s : UnionFind) (hs : Reach n s)
    (x : Nat) (hx : x < n) (fuel : Nat) (hfuel : n ≤ fuel) :
    ∃ (r : Nat) (s1 : UnionFind),
      UnionFind.find fuel s (x : Int) = (.ok (r : Int), s1) ∧
      LeadsTo s x r ∧
      (∀ y q, y < n → (LeadsTo s1 y q ↔ LeadsTo s y q)) ∧
      (∀ i, i < n → (s1.parent[i]? = some (i : Int) ↔ s.parent[i]? = some (i : Int))) := by
  have h := hs.has_inv
  obtain ⟨s1, hrun, c, _, _⟩ := find_ok h hx hfuel
  refine ⟨root s x, s1, hrun, (leadsTo_iff h hx _).2 rfl, ?_, fun i hi => c.isRoot_iff h hi⟩
  intro y q hy
  rw [leadsTo_iff (c.keeps_inv h) hy, leadsTo_iff h hy, c.root_eq h hy]

/-- Witness for C3: `find(0)` on the reachable state with chain `0 → 1 → 3`. -/
theorem find_returns_root_keeps_partition_witness :
    ∃ (r : Nat) (s1 : UnionFind),
      UnionFind.find 4 ⟨[1, 3, 3, 3], [0, 1, 0, 2]⟩ ((0 : Nat) : Int) = (.ok (r : Int), s1) ∧
      LeadsTo ⟨[1, 3, 3, 3], [0, 1, 0, 2]⟩ 0 r ∧
      (∀ y q, y < 4 → (LeadsTo s1 y q ↔ LeadsTo ⟨[1, 3, 3, 3], [0, 1, 0, 2]⟩ y q)) ∧
      (∀ i : Nat, i < 4 → (s1.parent[i]? = some (i : Int) ↔
        (⟨[1, 3, 3, 3], [0, 1, 0, 2]⟩ : UnionFind).parent[i]? = some (i : Int))) :=
  find_returns_root_keeps_partition 4 _ reach_chain 0 (by decide) 4 (le_refl 4)

/-- C4: in every reachable state and for valid `x`, `y`, with `rx = find(x)` and
`ry = find(y)` as `Union` computes them: `Union(x, y)` returns; when `rx != ry`
it hangs `ry` below `rx` if `rank[rx] > rank[ry]`, hangs `rx` below `ry` if
`rank[rx] < rank[ry]`, and on equal ranks hangs `rx` below `ry` and raises
`rank[ry]` by one, the surviving root staying a root; when `rx == ry` every root
stays a root. -/
theorem union_links_by_rank (n : Nat) (s : UnionFind) (hs : Reach n s)
    (x y : Nat) (hx : x < n) (hy : y < n) (fuel : Nat) (hfuel : n ≤ fuel) :
    ∃ (rx ry : Nat) (t1 t2 s1 : UnionFind),
      UnionFind.find fuel s (x : Int) = (.ok (rx : Int), t1) ∧
      UnionFind.find fuel t1 (y : Int) = (.ok (ry : Int), t2) ∧
      LeadsTo s x rx ∧ LeadsTo s y ry ∧
      UnionFind.Union fuel s (x : Int) (y : Int) = (.ok (), s1) ∧
      (rx ≠ ry → rk s rx > rk s ry →
        s1.parent[ry]? = some (rx : Int) ∧ s1.parent[rx]? = some (rx : Int)) ∧
      (rx ≠ ry → rk s rx < rk s ry →
        s1.parent[rx]? = some (ry : Int) ∧ s1.parent[ry]? = some (ry : Int)) ∧
      (rx ≠ ry → rk s rx = rk s ry →
        s1.parent[rx]? = some (ry : Int) ∧ s1.parent[ry]? = some (ry : Int) ∧
          s1.rank[ry]? = some (rk s ry + 1)) ∧
      (rx = ry → ∀ i, i < n → s.parent[i]? = some (i : Int) → s1.parent[i]? = some (i : Int)) := by
  have h := hs.has_inv
  obtain ⟨t1, hrun1, c1, _, _⟩ := find_ok h hx hfuel
  have h1 := c1.keeps_inv h
  obtain ⟨t2, hrun2, c2, _, _⟩ := find_ok h1 hy hfuel
  rw [c1.root_eq h hy] at hrun2
  have c := c1.trans h c2
  have h2 := c.keeps_inv h
  have hra := h.root_lt hx
  have hrb := h.root_lt hy
  have hrk : ∀ i, rk t2 i = rk s i := fun i => by simp [rk, c.rank_eq]
  have hroota : t2.parent[root s x]? = some ((root s x : Nat) : Int) :=
    (c.isRoot_iff h hra).2 ((parent_self_iff h hra).2 (h.par_root hx))
  have hrootb : t2.parent[root s y]? = some ((root s y : Nat) : Int) :=
    (c.isRoot_iff h hrb).2 ((parent_self_iff h hrb).2 (h.par_root hy))
  have hla : root s x < t2.parent.length := by rw [h2.plen]; exact hra
  have hlb : root s y < t2.parent.length := by rw [h2.plen]; exact hrb
  have hU : UnionFind.Union fuel s (x : Int) (y : Int) =
      if root s x = root s y then (.ok (), t2)
      else UnionFind.link t2 ((root s x : Nat) : Int) ((root s y : Nat) : Int) := by
    unfold UnionFind.Union
    rw [hrun1]
    simp only [hrun2]
    by_cases he : root s x = root s y
    · simp [he]
    · have he2 : ¬ ((root s x : Int) = (root s y : Int)) :=
        fun hc => he (Nat.cast_injective hc)
      simp [he, he2]
  by_cases he : root s x = root s y
  · refine ⟨root s x, root s y, t1, t2, t2, hrun1, hrun2, (leadsTo_iff h hx _).2 rfl,
      (leadsTo_iff h hy _).2 rfl, by rw [hU]; simp [he], fun hc => absurd he hc,
      fun hc => absurd he hc, fun hc => absurd he hc, ?_⟩
    intro _ i hi hroot
    exact (c.isRoot_iff h hi).2 hroot
  · simp only [he, if_false] at hU
    rcases link_spec h2 hra hrb with ⟨hcmp, hl, l⟩ | ⟨hcmp, hl, l⟩ | ⟨hcmp, hl, l⟩
    all_goals
      rw [hrk, hrk] at hcmp
      refine ⟨root s x, root s y, t1, t2, _, hrun1, hrun2, (leadsTo_iff h hx _).2 rfl,
        (leadsTo_iff h hy _).2 rfl, hU.trans hl, ?_, ?_, ?_, fun hc => absurd hc he⟩
    · intro _ _
      have hne := Ne.symm he
      simp [List.getElem?_set, hlb, hne, hroota]
    · intro _ hc; omega
    · intro _ hc; omega
    · intro _ hc; omega
    · intro _ _
      simp [List.getElem?_set, hla, he, hrootb]
    · intro _ hc; omega
    · intro _ hc; omega
    · intro _ hc; omega
    · intro _ _
      have hrl : root s y < t2.rank.length := by rw [h2.rlen]; exact hrb
      simp [List.getElem?_set, hla, hrl, he, hrootb, hrk]

/-- Witness for C4: `Union(0, 2)` on the reachable state with the two sets
`{0, 1}` (root 1) and `{2, 3}` (root 3), both of rank 1. -/
theorem union_links_by_rank_witness :
    ∃ (rx ry : Nat) (t1 t2 s1 : UnionFind),
      UnionFind.find 4 ⟨[1, 1, 3, 3], [0, 1, 0, 1]⟩ ((0 : Nat) : Int) = (.ok (rx : Int), t1) ∧
      UnionFind.find 4 t1 ((2 : Nat) : Int) = (.ok (ry : Int), t2) ∧
      LeadsTo ⟨[1, 1, 3, 3], [0, 1, 0, 1]⟩ 0 rx ∧ LeadsTo ⟨[1, 1, 3, 3], [0, 1, 0, 1]⟩ 2 ry ∧
      UnionFind.Union 4 ⟨[1, 1, 3, 3], [0, 1, 0, 1]⟩ ((0 : Nat) : Int) ((2 : Nat) : Int)
        = (.ok (), s1) ∧
      (rx ≠ ry → rk ⟨[1, 1, 3, 3], [0, 1, 0, 1]⟩ rx > rk ⟨[1, 1, 3, 3], [0, 1, 0, 1]⟩ ry →
        s1.parent[ry]? = some (rx : Int) ∧ s1.parent[rx]? = some (rx : Int)) ∧
      (rx ≠ ry → rk ⟨[1, 1, 3, 3], [0, 1, 0, 1]⟩ rx < rk ⟨[1, 1, 3, 3], [0, 1, 0, 1]⟩ ry →
        s1.parent[rx]? = some (ry : Int) ∧ s1.parent[ry]? = some (ry : Int)) ∧
      (rx ≠ ry → rk ⟨[1, 1, 3, 3], [0, 1, 0, 1]⟩ rx = rk ⟨[1, 1, 3, 3], [0, 1, 0, 1]⟩ ry →
        s1.parent[rx]? = some (ry : Int) ∧ s1.parent[ry]? = some (ry : Int) ∧
          s1.rank[ry]? = some (rk ⟨[1, 1, 3, 3], [0, 1, 0, 1]⟩ ry + 1)) ∧
      (rx = ry → ∀ i : Nat, i < 4 →
        (⟨[1, 1, 3, 3], [0, 1, 0, 1]⟩ : UnionFind).parent[i]? = some (i : Int) →
        s1.parent[i]? = some (i : Int)) :=
  union_links_by_rank 4 _ reach_pairs 0 2 (by decide) (by decide) 4 (le_refl 4)

/-- C5: in every reachable state and for valid `x`, `y`, `Union(x, y)` returns
and `countConnectedComponents` afterwards is exactly one less than before when
`x` and `y` were in different sets, exactly the count before when they shared a
root; and after any sequence of `Union` calls with valid indices the count is at
most the count before. -/
theorem union_count_step (n : Nat) (s : UnionFind) (hs : Reach n s)
    (x y : Nat) (hx : x < n) (hy : y < n) (fuel : Nat) (hfuel : n ≤ fuel) :
    ∃ (s1 : UnionFind) (c0 c1 : Int),
      UnionFind.Union fuel s (x : Int) (y : Int) = (.ok (), s1) ∧
      countConnectedComponents s n = .ok c0 ∧
      countConnectedComponents s1 n = .ok c1 ∧
      (¬ SameSet s x y → c1 = c0 - 1) ∧
      (SameSet s x y → c1 = c0) ∧
      (∀ es, EdgesValid n es → ∃ (sf : UnionFind) (cf : Int),
        unionEdges fuel s es = (.ok (), sf) ∧ countConnectedComponents sf n = .ok cf ∧
        cf ≤ c0) := by
  have h := hs.has_inv
  obtain ⟨s1, hU, h1, _, hcard⟩ := union_ok h hx hy hfuel
  refine ⟨s1, ((roots s n).card : Int), ((roots s1 n).card : Int), hU,
    count_eq s n (le_of_eq h.plen.symm), count_eq s1 n (le_of_eq h1.plen.symm), ?_, ?_, ?_⟩
  · intro hdiff
    rw [sameSet_iff h hx hy] at hdiff
    simp only [hdiff, if_false] at hcard
    omega
  · intro hsame
    rw [sameSet_iff h hx hy] at hsame
    simp only [hsame, if_true] at hcard
    omega
  · intro es hvalid
    obtain ⟨sf, hrun, hf, hle, _⟩ :=
      unionEdges_run (fun _ _ => True) (fun _ _ _ => trivial) (fun _ _ _ _ _ => trivial)
        hfuel es s h hvalid (fun _ _ => trivial) (fun _ _ _ _ _ => trivial)
    exact ⟨sf, ((roots sf n).card : Int), hrun, count_eq sf n (le_of_eq hf.plen.symm),
      by exact_mod_cast hle⟩

/-- Witness for C5: `Union(0, 2)` on the reachable state with the two sets
`{0, 1}` and `{2, 3}`. -/
theorem union_count_step_witness :
    ∃ (s1 : UnionFind) (c0 c1 : Int),
      UnionFind.Union 4 ⟨[1, 1, 3, 3], [0, 1, 0, 1]⟩ ((0 : Nat) : Int) ((2 : Nat) : Int)
        = (.ok (), s1) ∧
      countConnectedComponents ⟨[1, 1, 3, 3], [0, 1, 0, 1]⟩ 4 = .ok c0 ∧
      countConnectedComponents s1 4 = .ok c1 ∧
      (¬ SameSet ⟨[1, 1, 3, 3], [0, 1, 0, 1]⟩ 0 2 → c1 = c0 - 1) ∧
      (SameSet ⟨[1, 1, 3, 3], [0, 1, 0, 1]⟩ 0 2 → c1 = c0) ∧
      (∀ es, EdgesValid 4 es → ∃ (sf : UnionFind) (cf : Int),
        unionEdges 4 ⟨[1, 1, 3, 3], [0, 1, 0, 1]⟩ es = (.ok (), sf) ∧
        countConnectedComponents sf 4 = .ok cf ∧ cf ≤ c0) :=
  union_count_step 4 _ reach_pairs 0 2 (by decide) (by decide) 4 (le_refl 4)

/-- C6: for every `n`, `UnionFind(n)` has two vectors of length `n` with
`parent[i] == i` and `rank[i] == 0` for every `i` in `[0, n)`, and
`countConnectedComponents` on it returns `n`. -/
theorem new_is_singletons (n : Nat) :
    (UnionFind.new n).parent.length = n ∧ (UnionFind.new n).rank.length = n ∧
    (∀ i : Nat, i < n →
      (UnionFind.new n).parent[i]? = some (i : Int) ∧ (UnionFind.new n).rank[i]? = some 0) ∧
    countConnectedComponents (UnionFind.new n) n = .ok (n : Int) := by
  have h := new_inv n
  refine ⟨h.plen, h.rlen, fun i hi => ⟨new_parent n i hi, new_rank n i hi⟩, ?_⟩
  rw [count_eq _ n (le_of_eq h.plen.symm)]
  have : roots (UnionFind.new n) n = Finset.range n := by
    unfold roots
    apply Finset.filter_true_of_mem
    intro i hi
    exact new_parent n i (Finset.mem_range.1 hi)
  rw [this, Finset.card_range]

/-- Concrete instances of C6: `n = 5` gives count 5, `n = 0` gives the empty
structure with count 0. -/
theorem new_is_singletons_witness :
    countConnectedComponents (UnionFind.new 5) 5 = .ok 5 ∧
    UnionFind.new 0 = ⟨[], []⟩ ∧ countConnectedComponents (UnionFind.new 0) 0 = .ok 0 :=
  ⟨(new_is_singletons 5).2.2.2, rfl, (new_is_singletons 0).2.2.2⟩

/-- C7: in every reachable state and for valid `x`, one call `find(x)` returns
the root `r` of `x`; afterwards every node on the parent path that led from `x`
to `r` before the call (`x` included) has `parent[v] == r`; and every further
`find(x)` returns the same `r` and leaves the structure exactly as it is. -/
theorem find_stable (n : Nat) (s : UnionFind) (hs : Reach n s)
    (x : Nat) (hx : x < n) (fuel : Nat) (hfuel : n ≤ fuel) :
    ∃ (r : Nat) (s1 : UnionFind),
      UnionFind.find fuel s (x : Int) = (.ok (r : Int), s1) ∧
      LeadsTo s x r ∧
      (∀ j, s1.parent[(par s)^[j] x]? = some (r : Int)) ∧
      (∀ g, n ≤ g → UnionFind.find g s1 (x : Int) = (.ok (r : Int), s1)) := by
  have h := hs.has_inv
  obtain ⟨s1, hrun, _, hpath, _⟩ := find_ok h hx hfuel
  refine ⟨root s x, s1, hrun, (leadsTo_iff h hx _).2 rfl, hpath, ?_⟩
  intro g hg
  have hx1 : s1.parent[x]? = some ((root s x : Nat) : Int) := hpath 0
  have hr1 : s1.parent[root s x]? = some ((root s x : Nat) : Int) := by
    have := hpath s.parent.length
    exact this
  by_cases hxr : x = root s x
  · rw [← hxr] at hx1 ⊢
    exact find_at_root hx1 g (by omega)
  · have hrn := h.root_lt hx
    exact find_again hx1 hr1 g (by omega)

/-- Witness for C7: `find(0)` on the reachable state with chain `0 → 1 → 3`. -/
theorem find_stable_witness :
    ∃ (r : Nat) (s1 : UnionFind),
      UnionFind.find 4 ⟨[1, 3, 3, 3], [0, 1, 0, 2]⟩ ((0 : Nat) : Int) = (.ok (r : Int), s1) ∧
      LeadsTo ⟨[1, 3, 3, 3], [0, 1, 0, 2]⟩ 0 r ∧
      (∀ j, s1.parent[(par ⟨[1, 3, 3, 3], [0, 1, 0, 2]⟩)^[j] 0]? = some (r : Int)) ∧
      (∀ g, 4 ≤ g → UnionFind.find g s1 ((0 : Nat) : Int) = (.ok (r : Int), s1)) :=
  find_stable 4 _ reach_chain 0 (by decide) 4 (le_refl 4)

/-- C8: in every reachable state and for valid `x`, `y`, calling `Union(x, y)`
twice in a row gives the same `countConnectedComponents` result as calling it
once. -/
theorem union_twice_same_count (n : Nat) (s : UnionFind) (hs : Reach n s)
    (x y : Nat) (hx : x < n) (hy : y < n) (fuel : Nat) (hfuel : n ≤ fuel) :
    ∃ (s1 s2 : UnionFind) (c : Int),
      UnionFind.Union fuel s (x : Int) (y : Int) = (.ok (), s1) ∧
      UnionFind.Union fuel s1 (x : Int) (y : Int) = (.ok (), s2) ∧
      countConnectedComponents s1 n = .ok c ∧
      countConnectedComponents s2 n = .ok c := by
  have h := hs.has_inv
  obtain ⟨s1, hU1, h1, hiff, _⟩ := union_ok h hx hy hfuel
  obtain ⟨s2, hU2, h2, _, hcard⟩ := union_ok h1 hx hy hfuel
  have hsame : root s1 x = root s1 y :=
    (hiff x y hx hy).2 (Or.inr (Or.inl ⟨rfl, rfl⟩))
  simp only [hsame, if_true, Nat.add_zero] at hcard
  refine ⟨s1, s2, ((roots s1 n).card : Int), hU1, hU2,
    count_eq s1 n (le_of_eq h1.plen.symm), ?_⟩
  rw [count_eq s2 n (le_of_eq h2.plen.symm), hcard]

/-- Witness for C8: `Union(0, 2)` twice on the reachable state with the two sets
`{0, 1}` and `{2, 3}`. -/
theorem union_twice_same_count_witness :
    ∃ (s1 s2 : UnionFind) (c : Int),
      UnionFind.Union 4 ⟨[1, 1, 3, 3], [0, 1, 0, 1]⟩ ((0 : Nat) : Int) ((2 : Nat) : Int)
        = (.ok (), s1) ∧
      UnionFind.Union 4 s1 ((0 : Nat) : Int) ((2 : Nat) : Int) = (.ok (), s2) ∧
      countConnectedComponents s1 4 = .ok c ∧
      countConnectedComponents s2 4 = .ok c :=
  union_twice_same_count 4 _ reach_pairs 0 2 (by decide) (by decide) 4 (le_refl 4)

/-- C9: in every reachable state `s` and for valid `x`, `y`, `Union(x, y)` on `s`
and `Union(y, x)` on a copy of `s` both return, give the same
`countConnectedComponents` result, and put the same pairs of elements of
`0 .. n-1` in a common set. -/
theorem union_commutes (n : Nat) (s : UnionFind) (hs : Reach n s)
    (x y : Nat) (hx : x < n) (hy : y < n) (fuel : Nat) (hfuel : n ≤ fuel) :
    ∃ (s1 s2 : UnionFind) (c : Int),
      UnionFind.Union fuel s (x : Int) (y : Int) = (.ok (), s1) ∧
      UnionFind.Union fuel s (y : Int) (x : Int) = (.ok (), s2) ∧
      countConnectedComponents s1 n = .ok c ∧
      countConnectedComponents s2 n = .ok c ∧
      (∀ u v, u < n → v < n → (SameSet s1 u v ↔ SameSet s2 u v)) := by
  have h := hs.has_inv
  obtain ⟨s1, hU1, h1, hiff1, hcard1⟩ := union_ok h hx hy hfuel
  obtain ⟨s2, hU2, h2, hiff2, hcard2⟩ := union_ok h hy hx hfuel
  refine ⟨s1, s2, ((roots s1 n).card : Int), hU1, hU2,
    count_eq s1 n (le_of_eq h1.plen.symm), ?_, ?_⟩
  · rw [count_eq s2 n (le_of_eq h2.plen.symm)]
    have : (roots s1 n).card = (roots s2 n).card := by
      by_cases he : root s x = root s y
      · simp only [he, if_true] at hcard1 hcard2
        omega
      · have he2 : ¬ root s y = root s x := fun hc => he hc.symm
        simp only [he, he2, if_false] at hcard1 hcard2
        omega
    rw [this]
  · intro u v hu hv
    rw [sameSet_iff h1 hu hv, sameSet_iff h2 hu hv, hiff1 u v hu hv, hiff2 u v hu hv]
    tauto

/-- Witness for C9: `Union(0, 2)` and `Union(2, 0)` on the reachable state with
the two sets `{0, 1}` and `{2, 3}`. -/
theorem union_commutes_witness :
    ∃ (s1 s2 : UnionFind) (c : Int),
      UnionFind.Union 4 ⟨[1, 1, 3, 3], [0, 1, 0, 1]⟩ ((0 : Nat) : Int) ((2 : Nat) : Int)
        = (.ok (), s1) ∧
      UnionFind.Union 4 ⟨[1, 1, 3, 3], [0, 1, 0, 1]⟩ ((2 : Nat) : Int) ((0 : Nat) : Int)
        = (.ok (), s2) ∧
      countConnectedComponents s1 4 = .ok c ∧
      countConnectedComponents s2 4 = .ok c ∧
      (∀ u v, u < 4 → v < 4 → (SameSet s1 u v ↔ SameSet s2 u v)) :=
  union_commutes 4 _ reach_pairs 0 2 (by decide) (by decide) 4 (le_refl 4)

/-! ## The adjacency-matrix entry point as a run over an edge list -/

theorem unionEdges_append (fuel : Nat) : ∀ (es1 es2 : List (Int × Int)) (s : UnionFind),
    unionEdges fuel s (es1 ++ es2) =
      match unionEdges fuel s es1 with
      | (.ok _, s1) => unionEdges fuel s1 es2
      | (.fault f, s1) => (.fault f, s1) := by
  intro es1
  induction es1 with
  | nil => intro es2 s; rfl
  | cons e es ih =>
    intro es2 s
    rw [List.cons_append, unionEdges, unionEdges]
    rcases hU : UnionFind.Union fuel s e.1 e.2 with ⟨res, s1⟩
    cases res with
    | ok u => exact ih es2 s1
    | fault f => rfl

theorem scanRow_eq (fuel : Nat) (M : List (List Int)) (i : Nat) :
    ∀ (js : List Nat) (s : UnionFind), (∀ j ∈ js, ∃ c, readCell M i j = some c) →
      scanRow fuel M i s js = unionEdges fuel s (rowEdges M i js) := by
  intro js
  induction js with
  | nil => intro s _; rfl
  | cons j js ih =>
    intro s hread
    obtain ⟨c, hc⟩ := hread j (List.mem_cons_self _ _)
    have hrest : ∀ j1 ∈ js, ∃ c, readCell M i j1 = some c :=
      fun j1 hj1 => hread j1 (List.mem_cons_of_mem _ hj1)
    rw [scanRow, hc]
    by_cases h1 : c = 1
    · subst h1
      have : rowEdges M i (j :: js) = ((i : Int), (j : Int)) :: rowEdges M i js := by
        simp [rowEdges, hc]
      rw [this, unionEdges]
      simp only [if_true]
      rcases hU : UnionFind.Union fuel s (i : Int) (j : Int) with ⟨res, s1⟩
      cases res with
      | ok u => exact ih s1 hrest
      | fault f => rfl
    · have : rowEdges M i (j :: js) = rowEdges M i js := by
        simp [rowEdges, hc, h1]
      rw [this]
      simp only [h1, if_false]
      exact ih s hrest

theorem scanRows_eq (fuel : Nat) (M : List (List Int)) (n : Nat) :
    ∀ (rows : List Nat) (s : UnionFind),
      (∀ i ∈ rows, ∀ j ∈ List.range n, ∃ c, readCell M i j = some c) →
      scanRows fuel M n s rows = unionEdges fuel s (matrixEdges M n rows) := by
  intro rows
  induction rows with
  | nil => intro s _; rfl
  | cons i rows ih =>
    intro s hread
    have : matrixEdges M n (i :: rows) = rowEdges M i (List.range n) ++ matrixEdges M n rows := by
      simp [matrixEdges]
    rw [this, unionEdges_append, scanRows,
      scanRow_eq fuel M i (List.range n) s (hread i (List.mem_cons_self _ _))]
    rcases hU : unionEdges fuel s (rowEdges M i (List.range n)) with ⟨res, s1⟩
    cases res with
    | ok u => exact ih s1 (fun i1 hi1 => hread i1 (List.mem_cons_of_mem _ hi1))
    | fault f => rfl

theorem readCell_square (M : List (List Int)) (hsq : ∀ row ∈ M, row.length = M.length)
    {i j : Nat} (hi : i < M.length) (hj : j < M.length) : ∃ c, readCell M i j = some c := by
  have hrow : M[i] ∈ M := List.getElem_mem hi
  have hlen := hsq _ hrow
  refine ⟨(M[i])[j], ?_⟩
  simp [readCell, List.getElem?_eq_getElem hi, List.getElem?_eq_getElem (hlen ▸ hj)]

theorem mem_matrixEdges (M : List (List Int)) (n : Nat) (e : Int × Int) :
    e ∈ matrixEdges M n (List.range n) ↔
      ∃ i j : Nat, i < n ∧ j < n ∧ readCell M i j = some 1 ∧ e = ((i : Int), (j : Int)) := by
  simp only [matrixEdges, rowEdges, List.mem_flatMap, List.mem_filterMap, List.mem_range]
  constructor
  · rintro ⟨i, hi, j, hj, hcell⟩
    by_cases h1 : readCell M i j = some 1
    · simp only [h1, if_true, Option.some.injEq] at hcell
      exact ⟨i, j, hi, hj, h1, hcell.symm⟩
    · simp [h1] at hcell
  · rintro ⟨i, j, hi, hj, h1, rfl⟩
    exact ⟨i, hi, j, hj, by simp [h1]⟩

/-- C2: for every `n x n` integer matrix `M`, `findConnectedComponents(M)`
returns the number of connected components of the undirected graph on
`0 .. n-1` that has an edge between `i` and `j` whenever `M[i][j] == 1`. -/
theorem matrix_count_eq_components (M : List (List Int)) (fuel : Nat)
    (hfuel : M.length ≤ fuel) (hsq : ∀ row ∈ M, row.length = M.length) :
    findConnectedComponents fuel M
      = .ok ((Nat.card (matrixGraph M).ConnectedComponent : Nat) : Int) := by
  have hvalid : EdgesValid M.length (matrixEdges M M.length (List.range M.length)) := by
    intro e he
    obtain ⟨i, j, hi, hj, _, rfl⟩ := (mem_matrixEdges M _ e).1 he
    exact ⟨⟨Int.natCast_nonneg i, Int.ofNat_lt.2 hi⟩, ⟨Int.natCast_nonneg j, Int.ofNat_lt.2 hj⟩⟩
  have hG : ∀ u v : Fin M.length, (matrixGraph M).Adj u v ↔
      u ≠ v ∧ (((u.val : Int), (v.val : Int)) ∈ matrixEdges M M.length (List.range M.length) ∨
        ((v.val : Int), (u.val : Int)) ∈ matrixEdges M M.length (List.range M.length)) := by
    intro u v
    have hmem : ∀ a b : Fin M.length,
        ((a.val : Int), (b.val : Int)) ∈ matrixEdges M M.length (List.range M.length) ↔
          readCell M a.val b.val = some 1 := by
      intro a b
      rw [mem_matrixEdges]
      constructor
      · rintro ⟨i, j, _, _, h1, he⟩
        simp only [Prod.mk.injEq, Nat.cast_inj] at he
        rw [he.1, he.2]; exact h1
      · intro h1
        exact ⟨a.val, b.val, a.isLt, b.isLt, h1, rfl⟩
    rw [hmem, hmem]
    exact SimpleGraph.fromRel_adj _ u v
  obtain ⟨sf, hrun, hinv, hcard⟩ := run_components (matrixGraph M) _ hvalid hG hfuel
  unfold findConnectedComponents
  rw [scanRows_eq fuel M M.length (List.range M.length) _
    (fun i hi j hj => readCell_square M hsq (List.mem_range.1 hi) (List.mem_range.1 hj)), hrun]
  simp only
  rw [count_eq sf _ (le_of_eq hinv.plen.symm), hcard]

/-- Witness for C2: the 4x4 matrix of `main`, two blocks, gives 2. -/
theorem matrix_count_eq_components_witness :
    (∀ row ∈ [[1, 1, 0, 0], [1, 1, 0, 0], [0, 0, 1, 1], [0, 0, 1, (1 : Int)]],
      row.length = [[1, 1, 0, 0], [1, 1, 0, 0], [0, 0, 1, 1], [0, 0, 1, (1 : Int)]].length) ∧
    findConnectedComponents 4 [[1, 1, 0, 0], [1, 1, 0, 0], [0, 0, 1, 1], [0, 0, 1, 1]]
      = .ok ((Nat.card (matrixGraph
          [[1, 1, 0, 0], [1, 1, 0, 0], [0, 0, 1, 1], [0, 0, 1, 1]]).ConnectedComponent : Nat) : Int) ∧
    findConnectedComponents 4 [[1, 1, 0, 0], [1, 1, 0, 0], [0, 0, 1, 1], [0, 0, 1, 1]] = .ok 2 :=
  ⟨by decide, matrix_count_eq_components _ 4 (by decide) (by decide), by decide⟩

/-! ## Indices outside the vectors -/

theorem readAt_outside (v : List Int) (x : Int) (hx : x < 0 ∨ (v.length : Int) ≤ x) :
    readAt v x = none := by
  unfold readAt
  by_cases h0 : 0 ≤ x
  · have hle : v.length ≤ x.toNat := by omega
    simp [h0, List.getElem?_eq_none hle]
  · simp [h0]

theorem find_outside (s : UnionFind) (x : Int) (hx : x < 0 ∨ (s.parent.length : Int) ≤ x)
    (fuel : Nat) (hfuel : 1 ≤ fuel) :
    UnionFind.find fuel s x = (.fault .outOfRange, s) := by
  obtain ⟨f, rfl⟩ : ∃ f, fuel = f + 1 := ⟨fuel - 1, by omega⟩
  rw [UnionFind.find, readAt_outside _ _ hx]

/-- Counterexample to C10 as stated: in the reachable state of size 4 with the
chain `0 → 1 → 3`, `Union(0, 9)` and `Union(0, -1)` compress the path of `0`
(`parent[0]` changes from 1 to 3) before the out-of-range access to `parent[9]`,
resp. `parent[-1]`, is made: the parent vector is not as it was before the call. -/
theorem union_outside_changes_parent :
    Reach 4 ⟨[1, 3, 3, 3], [0, 1, 0, 2]⟩ ∧
    UnionFind.Union 4 ⟨[1, 3, 3, 3], [0, 1, 0, 2]⟩ 0 9
      = (.fault .outOfRange, ⟨[3, 3, 3, 3], [0, 1, 0, 2]⟩) ∧
    UnionFind.Union 4 ⟨[1, 3, 3, 3], [0, 1, 0, 2]⟩ 0 (-1)
      = (.fault .outOfRange, ⟨[3, 3, 3, 3], [0, 1, 0, 2]⟩) ∧
    (⟨[3, 3, 3, 3], [0, 1, 0, 2]⟩ : UnionFind).parent
      ≠ (⟨[1, 3, 3, 3], [0, 1, 0, 2]⟩ : UnionFind).parent :=
  ⟨reach_chain, by decide, by decide, by decide⟩

/-- C10 as amended: the code validates no index.  For `x` outside `[0, n)` the
first step of `find(x)` is the unchecked read `parent[x]` outside the vector,
with both vectors as they were before the call, and so is the first step of
`Union(x, y)` for any `y`.  For `y` inside `[0, n)` in a reachable state,
`Union(y, x)` first completes `find(y)`, path compression included, and makes
the read outside the vector with the structure `find(y)` left. -/
theorem outside_index_is_unchecked (n : Nat) (s : UnionFind) (hlen : s.parent.length = n)
    (x : Int) (hx : x < 0 ∨ (n : Int) ≤ x) (fuel : Nat) (hfuel : 1 ≤ fuel) :
    UnionFind.find fuel s x = (.fault .outOfRange, s) ∧
    (∀ y : Int, UnionFind.Union fuel s x y = (.fault .outOfRange, s)) ∧
    (Reach n s → n ≤ fuel → ∀ y : Nat, y < n →
      ∃ (r : Int) (s1 : UnionFind),
        UnionFind.find fuel s (y : Int) = (.ok r, s1) ∧
        UnionFind.Union fuel s (y : Int) x = (.fault .outOfRange, s1)) := by
  have hx1 : x < 0 ∨ (s.parent.length : Int) ≤ x := by rw [hlen]; exact hx
  have hfind := find_outside s x hx1 fuel hfuel
  refine ⟨hfind, ?_, ?_⟩
  · intro y
    unfold UnionFind.Union
    rw [hfind]
  · intro hs hn y hy
    obtain ⟨s1, hrun, c, _, _⟩ := find_ok hs.has_inv hy hn
    refine ⟨_, s1, hrun, ?_⟩
    have hx2 : x < 0 ∨ (s1.parent.length : Int) ≤ x := by rw [c.plen]; exact hx
    unfold UnionFind.Union
    rw [hrun]
    simp only [find_outside s1 x hx2 fuel hfuel]

/-- Witness for the amended C10: index 9 on the reachable state of size 4 with
the chain `0 → 1 → 3`. -/
theorem outside_index_is_unchecked_witness :
    ((9 : Int) < 0 ∨ ((4 : Nat) : Int) ≤ 9) ∧
    UnionFind.find 4 ⟨[1, 3, 3, 3], [0, 1, 0, 2]⟩ 9
      = (.fault .outOfRange, ⟨[1, 3, 3, 3], [0, 1, 0, 2]⟩) ∧
    (∀ y : Int, UnionFind.Union 4 ⟨[1, 3, 3, 3], [0, 1, 0, 2]⟩ 9 y
      = (.fault .outOfRange, ⟨[1, 3, 3, 3], [0, 1, 0, 2]⟩)) ∧
    (Reach 4 ⟨[1, 3, 3, 3], [0, 1, 0, 2]⟩ → 4 ≤ 4 → ∀ y : Nat, y < 4 →
      ∃ (r : Int) (s1 : UnionFind),
        UnionFind.find 4 ⟨[1, 3, 3, 3], [0, 1, 0, 2]⟩ (y : Int) = (.ok r, s1) ∧
        UnionFind.Union 4 ⟨[1, 3, 3, 3], [0, 1, 0, 2]⟩ (y : Int) 9
          = (.fault .outOfRange, s1)) :=
  ⟨by decide, outside_index_is_unchecked 4 ⟨[1, 3, 3, 3], [0, 1, 0, 2]⟩ rfl 9 (by decide) 4
    (by decide)⟩

/-! ## `Union` in full detail, and induction over reachable states -/

theorem union_detail {n : Nat} {s : UnionFind} (h : UFInv n s) {x y : Nat}
    (hx : x < n) (hy : y < n) {fuel : Nat} (hf : n ≤ fuel) :
    ∃ t1 t2 s1,
      UnionFind.find fuel s (x : Int) = (.ok ((root s x : Nat) : Int), t1) ∧
      UnionFind.find fuel t1 (y : Int) = (.ok ((root s y : Nat) : Int), t2) ∧
      Compressed n s t2 ∧
      UnionFind.Union fuel s (x : Int) (y : Int) = (.ok (), s1) ∧
      ((root s x = root s y ∧ s1 = t2) ∨
       (root s x ≠ root s y ∧ rk s (root s x) > rk s (root s y) ∧
          s1 = { t2 with parent := t2.parent.set (root s y) ((root s x : Nat) : Int) } ∧
          Linked n t2 s1 (root s y) (root s x)) ∨
       (root s x ≠ root s y ∧ rk s (root s x) < rk s (root s y) ∧
          s1 = { t2 with parent := t2.parent.set (root s x) ((root s y : Nat) : Int) } ∧
          Linked n t2 s1 (root s x) (root s y)) ∨
       (root s x ≠ root s y ∧ rk s (root s x) = rk s (root s y) ∧
          s1 = { parent := t2.parent.set (root s x) ((root s y : Nat) : Int),
                 rank := t2.rank.set (root s y) (rk s (root s y) + 1) } ∧
          Linked n t2 s1 (root s x) (root s y))) := by
  obtain ⟨t1, hrun1, c1, _, _⟩ := find_ok h hx hf
  have h1 := c1.keeps_inv h
  obtain ⟨t2, hrun2, c2, _, _⟩ := find_ok h1 hy hf
  rw [c1.root_eq h hy] at hrun2
  have c := c1.trans h c2
  have h2 := c.keeps_inv h
  have hrk : ∀ i, rk t2 i = rk s i := fun i => by simp [rk, c.rank_eq]
  have hU : UnionFind.Union fuel s (x : Int) (y : Int) =
      if root s x = root s y then (.ok (), t2)
      else UnionFind.link t2 ((root s x : Nat) : Int) ((root s y : Nat) : Int) := by
    unfold UnionFind.Union
    rw [hrun1]
    simp only [hrun2]
    by_cases he : root s x = root s y
    · simp [he]
    · have he2 : ¬ ((root s x : Int) = (root s y : Int)) :=
        fun hc => he (Nat.cast_injective hc)
      simp [he, he2]
  by_cases he : root s x = root s y
  · exact ⟨t1, t2, t2, hrun1, hrun2, c, by rw [hU]; simp [he], Or.inl ⟨he, rfl⟩⟩
  · simp only [he, if_false] at hU
    rcases link_spec h2 (h.root_lt hx) (h.root_lt hy) with
      ⟨hcmp, hl, l⟩ | ⟨hcmp, hl, l⟩ | ⟨hcmp, hl, l⟩
    · rw [hrk, hrk] at hcmp
      exact ⟨t1, t2, _, hrun1, hrun2, c, hU.trans hl, Or.inr (Or.inl ⟨he, hcmp, rfl, l⟩)⟩
    · rw [hrk, hrk] at hcmp
      exact ⟨t1, t2, _, hrun1, hrun2, c, hU.trans hl,
        Or.inr (Or.inr (Or.inl ⟨he, hcmp, rfl, l⟩))⟩
    · rw [hrk, hrk] at hcmp
      rw [hrk] at hl l
      exact ⟨t1, t2, _, hrun1, hrun2, c, hU.trans hl,
        Or.inr (Or.inr (Or.inr ⟨he, hcmp, rfl, l⟩))⟩

theorem reach_induction {n : Nat} (P : UnionFind → Prop) (h0 : P (UnionFind.new n))
    (hc : ∀ s s1, UFInv n s → P s → Compressed n s s1 → P s1)
    (hl : ∀ s s1 c p, UFInv n s → P s → c < n → p < n → c ≠ p → par s c = c → par s p = p →
      Linked n s s1 c p →
      ((rk s1 p = rk s p ∧ rk s c < rk s p) ∨ (rk s1 p = rk s p + 1 ∧ rk s c = rk s p)) →
      P s1) :
    ∀ s, Reach n s → P s := by
  intro s hr
  induction hr with
  | init => exact h0
  | find hs h0x hnx hrun ih =>
    exact hc _ _ hs.has_inv ih (find_compressed hs.has_inv h0x hnx hrun).1
  | @union s s1 fuel x y hs hx0 hxn hy0 hyn hrun ih =>
    have h := hs.has_inv
    obtain ⟨a, ha, rfl⟩ := int_index hx0 hxn
    obtain ⟨b, hb, rfl⟩ := int_index hy0 hyn
    obtain ⟨t1, t2, s2, _, _, c, hU, hcase⟩ := union_detail h ha hb (Nat.le_max_right fuel n)
    have h3 := union_mono_le (Nat.le_max_left fuel n) hrun
    rw [hU] at h3
    simp only [Prod.mk.injEq, true_and] at h3
    subst h3
    have h2 := c.keeps_inv h
    have hP2 := hc _ _ h ih c
    have hrk : ∀ i, rk t2 i = rk s i := fun i => by simp [rk, c.rank_eq]
    have hra := h.root_lt ha
    have hrb := h.root_lt hb
    have hfa : par t2 (root s a) = root s a := by
      rw [← c.root_eq h ha]; exact h2.par_root ha
    have hfb : par t2 (root s b) = root s b := by
      rw [← c.root_eq h hb]; exact h2.par_root hb
    rcases hcase with ⟨_, rfl⟩ | ⟨he, hcmp, hs2, l⟩ | ⟨he, hcmp, hs2, l⟩ | ⟨he, hcmp, hs2, l⟩
    · exact hP2
    · refine hl _ _ _ _ h2 hP2 hrb hra (Ne.symm he) hfb hfa l (Or.inl ⟨?_, ?_⟩)
      · rw [hs2]; rfl
      · rw [hrk, hrk]; exact hcmp
    · refine hl _ _ _ _ h2 hP2 hra hrb he hfa hfb l (Or.inl ⟨?_, ?_⟩)
      · rw [hs2]; rfl
      · rw [hrk, hrk]; exact hcmp
    · refine hl _ _ _ _ h2 hP2 hra hrb he hfa hfb l (Or.inr ⟨?_, ?_⟩)
      · rw [hs2, rk_set_self h2 _ hrb, hrk]
      · rw [hrk, hrk]; exact hcmp

/-! ## Ranks, chains and heights -/

theorem find_rank (s : UnionFind) : ∀ (f : Nat) (x : Int),
    (UnionFind.find f s x).2.rank = s.rank := by
  intro f
  induction f with
  | zero => intro x; rfl
  | succ f ih =>
    intro x
    rw [UnionFind.find]
    cases hrd : readAt s.parent x with
    | none => rfl
    | some p =>
      simp only
      by_cases hxp : x = p
      · simp [hxp]
      · simp only [hxp, if_false]
        have := ih p
        rcases hrec : UnionFind.find f s p with ⟨res, s2⟩
        rw [hrec] at this
        cases res with
        | fault e => exact this
        | ok r =>
          simp only
          cases hw : writeAt s2.parent x r with
          | none => exact this
          | some v => exact this

theorem rank_nonneg {n : Nat} {s : UnionFind} (hs : Reach n s) : ∀ i, 0 ≤ rk s i := by
  refine reach_induction (fun t => ∀ i, 0 ≤ rk t i) ?_ ?_ ?_ s hs
  · intro i
    unfold rk
    by_cases hi : i < n
    · rw [new_rank n i hi]
    · have : (UnionFind.new n).rank[i]? = none := by
        apply List.getElem?_eq_none
        simp [UnionFind.new]
        omega
      rw [this]
  · intro t t1 _ hP c i
    have : rk t1 i = rk t i := by simp [rk, c.rank_eq]
    rw [this]; exact hP i
  · intro t t1 c p _ hP _ _ _ _ _ l _ i
    by_cases hip : i = p
    · subst hip
      exact le_trans (hP i) l.rank_parent
    · rw [l.rank_other i hip]; exact hP i

theorem chain_rank {n : Nat} {s : UnionFind} (h : UFInv n s) {y : Nat} (hy : y < n) :
    ∀ k, (∀ j, j < k → par s ((par s)^[j] y) ≠ (par s)^[j] y) →
      rk s y + (k : Int) ≤ rk s ((par s)^[k] y) := by
  intro k
  induction k with
  | zero => intro _; simp
  | succ k ih =>
    intro hchain
    have h1 := ih (fun j hj => hchain j (Nat.lt_succ_of_lt hj))
    have h2 := h.rankUp _ (h.iter_lt hy k) (hchain k (Nat.lt_succ_self k))
    rw [Function.iterate_succ_apply']
    push_cast
    omega

theorem UFInv.rank_le_root {n : Nat} {s : UnionFind} (h : UFInv n s) {y : Nat} (hy : y < n) :
    rk s y ≤ rk s (root s y) := by
  by_cases hfx : par s y = y
  · rw [h.root_of_fixed hy hfx]
  · exact le_of_lt (h.rank_lt_root hy hfx)

theorem chainLen_chain (s : UnionFind) : ∀ (f y j : Nat), j < chainLen s f y →
    par s ((par s)^[j] y) ≠ (par s)^[j] y := by
  intro f
  induction f with
  | zero => intro y j hj; simp [chainLen] at hj
  | succ f ih =>
    intro y j hj
    rw [chainLen] at hj
    by_cases hfx : par s y = y
    · simp [hfx] at hj
    · simp only [hfx, if_false] at hj
      cases j with
      | zero => simpa using hfx
      | succ j =>
        rw [Function.iterate_succ_apply]
        exact ih (par s y) j (by omega)

theorem chainLen_fixed (s : UnionFind) : ∀ (f y : Nat),
    par s ((par s)^[f] y) = (par s)^[f] y →
    par s ((par s)^[chainLen s f y] y) = (par s)^[chainLen s f y] y := by
  intro f
  induction f with
  | zero => intro y hfix; simpa [chainLen] using hfix
  | succ f ih =>
    intro y hfix
    rw [chainLen]
    by_cases hfx : par s y = y
    · simp [hfx]
    · simp only [hfx, if_false]
      rw [Function.iterate_succ_apply] at hfix ⊢
      exact ih (par s y) hfix

theorem chainLen_root {n : Nat} {s : UnionFind} (h : UFInv n s) {y : Nat} (hy : y < n) :
    (par s)^[chainLen s n y] y = root s y :=
  (h.root_eq_iterate hy _ (chainLen_fixed s n y (h.fixed_of_le hy n (by omega)))).symm

theorem chain_le_rank {n : Nat} {s : UnionFind} (hs : Reach n s) {y : Nat} (hy : y < n)
    (k : Nat) (hchain : ∀ j, j < k → par s ((par s)^[j] y) ≠ (par s)^[j] y) :
    (k : Int) ≤ rk s ((par s)^[k] y) := by
  have h1 := chain_rank hs.has_inv hy k hchain
  have h2 := rank_nonneg hs y
  omega

theorem height_le_rank {n : Nat} {s : UnionFind} (hs : Reach n s) (r : Nat) :
    (height s n r : Int) ≤ rk s r := by
  have h := hs.has_inv
  have h0 := rank_nonneg hs r
  have : height s n r ≤ (rk s r).toNat := by
    unfold height
    apply Finset.sup_le
    intro y hy
    simp only [members, Finset.mem_filter, Finset.mem_range] at hy
    have h1 := chain_le_rank hs hy.1 (chainLen s n y) (chainLen_chain s n y)
    rw [chainLen_root h hy.1, hy.2] at h1
    omega
  omega

theorem mem_members {n : Nat} {s : UnionFind} (h : UFInv n s) (r y : Nat) :
    y ∈ members s n r ↔ y < n ∧ LeadsTo s y r := by
  simp only [members, Finset.mem_filter, Finset.mem_range]
  constructor
  · rintro ⟨hy, hr⟩
    exact ⟨hy, (leadsTo_iff h hy r).2 hr.symm⟩
  · rintro ⟨hy, hl⟩
    exact ⟨hy, ((leadsTo_iff h hy r).1 hl).symm⟩

theorem set_size {n : Nat} {s : UnionFind} (hs : Reach n s) :
    ∀ r, r < n → par s r = r → 2 ^ (rk s r).toNat ≤ (members s n r).card := by
  have key : (∀ i, 0 ≤ rk s i) ∧
      ∀ r, r < n → par s r = r → 2 ^ (rk s r).toNat ≤ (members s n r).card := by
    refine reach_induction
      (fun t => (∀ i, 0 ≤ rk t i) ∧
        ∀ r, r < n → par t r = r → 2 ^ (rk t r).toNat ≤ (members t n r).card) ?_ ?_ ?_ s hs
    · refine ⟨rank_nonneg Reach.init, ?_⟩
      intro r hr hfx
      have hmem : r ∈ members (UnionFind.new n) n r := by
        simp only [members, Finset.mem_filter, Finset.mem_range]
        exact ⟨hr, (new_inv n).root_of_fixed hr hfx⟩
      have hrk : rk (UnionFind.new n) r = 0 := by simp [rk, new_rank n r hr]
      rw [hrk]
      exact Finset.card_pos.2 ⟨r, hmem⟩
    · rintro t t1 h ⟨hnn, hP⟩ c
      have hrk : ∀ i, rk t1 i = rk t i := fun i => by simp [rk, c.rank_eq]
      refine ⟨fun i => by rw [hrk]; exact hnn i, ?_⟩
      intro r hr hfx
      have hfx0 : par t r = r :=
        (parent_self_iff h hr).1
          ((c.isRoot_iff h hr).1 ((parent_self_iff (c.keeps_inv h) hr).2 hfx))
      have hmem : members t1 n r = members t n r := by
        unfold members
        apply Finset.filter_congr
        intro y hy
        rw [c.root_eq h (Finset.mem_range.1 hy)]
      rw [hrk, hmem]
      exact hP r hr hfx0
    · rintro t t1 c p h ⟨hnn, hP⟩ hc hp hcp hcroot hproot l hcase
      have hnn1 : ∀ i, 0 ≤ rk t1 i := by
        intro i
        by_cases hip : i = p
        · subst hip; exact le_trans (hnn i) l.rank_parent
        · rw [l.rank_other i hip]; exact hnn i
      refine ⟨hnn1, ?_⟩
      intro r hr hfx
      rw [l.par_eq h hc] at hfx
      have hrc : r ≠ c := by
        intro he
        subst he
        simp only [if_true] at hfx
        exact hcp hfx.symm
      simp only [hrc, if_false] at hfx
      have hroot : ∀ u, u < n → root t1 u = if root t u = c then p else root t u :=
        fun u hu => l.link_root_eq h hc hp hcp hcroot hproot hu
      by_cases hrp : r = p
      · subst hrp
        have hsub : members t n r ∪ members t n c ⊆ members t1 n r := by
          intro u hu
          simp only [members, Finset.mem_union, Finset.mem_filter, Finset.mem_range] at hu ⊢
          rcases hu with ⟨hu, he⟩ | ⟨hu, he⟩
          · refine ⟨hu, ?_⟩
            rw [hroot u hu, he]
            simp [Ne.symm hcp]
          · refine ⟨hu, ?_⟩
            rw [hroot u hu, he]
            simp
        have hdisj : Disjoint (members t n r) (members t n c) := by
          rw [Finset.disjoint_left]
          intro u hu1 hu2
          simp only [members, Finset.mem_filter, Finset.mem_range] at hu1 hu2
          exact hcp (hu2.2.symm.trans hu1.2)
        have hcard := Finset.card_le_card hsub
        rw [Finset.card_union_of_disjoint hdisj] at hcard
        have h1 := hP r hp hproot
        have h2 := hP c hc hcroot
        have hnr := hnn r
        have hnc := hnn c
        rcases hcase with ⟨he, _⟩ | ⟨he, heq⟩
        · rw [he]; omega
        · rw [he]
          have h3 : (rk t r + 1).toNat = (rk t r).toNat + 1 := by omega
          have h4 : (rk t c).toNat = (rk t r).toNat := by rw [heq]
          rw [h3, pow_succ]
          rw [h4] at h2
          omega
      · have hmem : members t1 n r = members t n r := by
          unfold members
          apply Finset.filter_congr
          intro u hu
          rw [hroot u (Finset.mem_range.1 hu)]
          by_cases he : root t u = c
          · simp only [he, if_true]
            constructor
            · intro h5; exact absurd h5.symm hrp
            · intro h5; exact absurd h5.symm hrc
          · simp [he]
        rw [l.rank_other r hrp, hmem]
        exact hP r hr hfx
  exact key.2

/-- C15: in every reachable state the parent array is a forest: from every `x`
in `[0, n)` the parent links reach, in fewer than `n` steps, an element `r` with
`parent[r] == r`, that `r` is the only root the chain of `x` leads to, and the
recursive `find(x)` returns for every recursion budget of at least `n` calls. -/
theorem parent_is_forest (n : Nat) (s : UnionFind) (hs : Reach n s) (x : Nat) (hx : x < n) :
    (∃ (r k : Nat), k < n ∧ r < n ∧ (par s)^[k] x = r ∧ s.parent[r]? = some (r : Int) ∧
      ∀ q, LeadsTo s x q → q = r) ∧
    (∀ fuel, n ≤ fuel →
      ∃ (r : Int) (s1 : UnionFind), UnionFind.find fuel s (x : Int) = (.ok r, s1)) := by
  have h := hs.has_inv
  obtain ⟨k, hk, hfix⟩ := h.exists_fixed hx
  have hr := h.root_eq_iterate hx k hfix
  constructor
  · refine ⟨root s x, k, hk, h.root_lt hx, hr.symm,
      (parent_self_iff h (h.root_lt hx)).2 (h.par_root hx), ?_⟩
    intro q hq
    exact (leadsTo_iff h hx q).1 hq
  · intro fuel hf
    obtain ⟨s1, hrun, _⟩ := find_ok h hx hf
    exact ⟨_, s1, hrun⟩

/-- Witness for C15: element 0 of the reachable state with chain `0 → 1 → 3`. -/
theorem parent_is_forest_witness :
    (∃ (r k : Nat), k < 4 ∧ r < 4 ∧ (par ⟨[1, 3, 3, 3], [0, 1, 0, 2]⟩)^[k] 0 = r ∧
      (⟨[1, 3, 3, 3], [0, 1, 0, 2]⟩ : UnionFind).parent[r]? = some (r : Int) ∧
      ∀ q, LeadsTo ⟨[1, 3, 3, 3], [0, 1, 0, 2]⟩ 0 q → q = r) ∧
    (∀ fuel, 4 ≤ fuel →
      ∃ (r : Int) (s1 : UnionFind),
        UnionFind.find fuel ⟨[1, 3, 3, 3], [0, 1, 0, 2]⟩ ((0 : Nat) : Int) = (.ok r, s1)) :=
  parent_is_forest 4 _ reach_chain 0 (by decide)

/-- C16: in every reachable state and for every root `i`, every parent chain
ending at `i` has at most `rank[i]` links, so the height of the tree rooted at
`i` (the largest number of links from an element of the set of `i` up to `i`) is
at most `rank[i]`. -/
theorem height_at_most_rank (n : Nat) (s : UnionFind) (hs : Reach n s) (i : Nat) (hi : i < n)
    (hroot : s.parent[i]? = some (i : Int)) :
    s.rank[i]? = some (rk s i) ∧
    (∀ y k, y < n → (∀ j, j < k → par s ((par s)^[j] y) ≠ (par s)^[j] y) →
      (par s)^[k] y = i → (k : Int) ≤ rk s i) ∧
    (∀ y, y < n → LeadsTo s y i →
      (par s)^[chainLen s n y] y = i ∧
      (∀ j, j < chainLen s n y → par s ((par s)^[j] y) ≠ (par s)^[j] y) ∧
      chainLen s n y ≤ height s n i) ∧
    (height s n i : Int) ≤ rk s i := by
  have h := hs.has_inv
  have _hfix := (parent_self_iff h hi).1 hroot
  refine ⟨h.rank_eq hi, ?_, ?_, height_le_rank hs i⟩
  · intro y k hy hchain hend
    have := chain_le_rank hs hy k hchain
    rwa [hend] at this
  · intro y hy hlead
    have hr : root s y = i := ((leadsTo_iff h hy i).1 hlead).symm
    refine ⟨by rw [chainLen_root h hy, hr], chainLen_chain s n y, ?_⟩
    unfold height
    exact Finset.le_sup (f := fun y => chainLen s n y) ((mem_members h i y).2 ⟨hy, hlead⟩)

/-- Witness for C16: root 3 of the reachable state with chain `0 → 1 → 3`, of
height 2 and rank 2. -/
theorem height_at_most_rank_witness :
    ((⟨[1, 3, 3, 3], [0, 1, 0, 2]⟩ : UnionFind).rank[3]?
        = some (rk ⟨[1, 3, 3, 3], [0, 1, 0, 2]⟩ 3) ∧
      (∀ y k, y < 4 →
        (∀ j, j < k → par ⟨[1, 3, 3, 3], [0, 1, 0, 2]⟩ ((par ⟨[1, 3, 3, 3], [0, 1, 0, 2]⟩)^[j] y)
          ≠ (par ⟨[1, 3, 3, 3], [0, 1, 0, 2]⟩)^[j] y) →
        (par ⟨[1, 3, 3, 3], [0, 1, 0, 2]⟩)^[k] y = 3 →
        (k : Int) ≤ rk ⟨[1, 3, 3, 3], [0, 1, 0, 2]⟩ 3) ∧
      (∀ y, y < 4 → LeadsTo ⟨[1, 3, 3, 3], [0, 1, 0, 2]⟩ y 3 →
        (par ⟨[1, 3, 3, 3], [0, 1, 0, 2]⟩)^[chainLen ⟨[1, 3, 3, 3], [0, 1, 0, 2]⟩ 4 y] y = 3 ∧
        (∀ j, j < chainLen ⟨[1, 3, 3, 3], [0, 1, 0, 2]⟩ 4 y →
          par ⟨[1, 3, 3, 3], [0, 1, 0, 2]⟩ ((par ⟨[1, 3, 3, 3], [0, 1, 0, 2]⟩)^[j] y)
            ≠ (par ⟨[1, 3, 3, 3], [0, 1, 0, 2]⟩)^[j] y) ∧
        chainLen ⟨[1, 3, 3, 3], [0, 1, 0, 2]⟩ 4 y ≤ height ⟨[1, 3, 3, 3], [0, 1, 0, 2]⟩ 4 3) ∧
      (height ⟨[1, 3, 3, 3], [0, 1, 0, 2]⟩ 4 3 : Int) ≤ rk ⟨[1, 3, 3, 3], [0, 1, 0, 2]⟩ 3) ∧
    height ⟨[1, 3, 3, 3], [0, 1, 0, 2]⟩ 4 3 = 2 ∧ rk ⟨[1, 3, 3, 3], [0, 1, 0, 2]⟩ 3 = 2 :=
  ⟨height_at_most_rank 4 _ reach_chain 3 (by decide) (by decide), by decide, by decide⟩

/-- C17: `find` never changes the rank array; and in every reachable state, for
valid `x`, `y`, `Union(x, y)` leaves every rank entry at least as large as it
was, leaves the whole rank array unchanged unless the two roots differ and have
equal rank, and in that case raises exactly the entry of `find(y)`, by exactly 1. -/
theorem rank_monotone (n : Nat) (s : UnionFind) (hs : Reach n s)
    (x y : Nat) (hx : x < n) (hy : y < n) (fuel : Nat) (hfuel : n ≤ fuel) :
    (∀ (g : Nat) (t : UnionFind) (z : Int), (UnionFind.find g t z).2.rank = t.rank) ∧
    ∃ (rx ry : Nat) (t1 t2 s1 : UnionFind),
      UnionFind.find fuel s (x : Int) = (.ok (rx : Int), t1) ∧
      UnionFind.find fuel t1 (y : Int) = (.ok (ry : Int), t2) ∧
      UnionFind.Union fuel s (x : Int) (y : Int) = (.ok (), s1) ∧
      (∀ i, rk s i ≤ rk s1 i) ∧
      ((rx = ry ∨ rk s rx ≠ rk s ry) → s1.rank = s.rank) ∧
      (rx ≠ ry → rk s rx = rk s ry →
        s1.rank = s.rank.set ry (rk s ry + 1) ∧ s1.rank[ry]? = some (rk s ry + 1) ∧
        s.rank[ry]? = some (rk s ry) ∧ ∀ i, i ≠ ry → s1.rank[i]? = s.rank[i]?) := by
  have h := hs.has_inv
  refine ⟨fun g t z => find_rank t g z, ?_⟩
  obtain ⟨t1, t2, s1, hrun1, hrun2, c, hU, hcase⟩ := union_detail h hx hy hfuel
  have hry := h.root_lt hy
  have hlen : root s y < s.rank.length := by rw [h.rlen]; exact hry
  refine ⟨root s x, root s y, t1, t2, s1, hrun1, hrun2, hU, ?_, ?_, ?_⟩
  · intro i
    rcases hcase with ⟨_, rfl⟩ | ⟨_, _, rfl, _⟩ | ⟨_, _, rfl, _⟩ | ⟨_, _, rfl, _⟩
    · simp [rk, c.rank_eq]
    · simp [rk, c.rank_eq]
    · simp [rk, c.rank_eq]
    · by_cases hi : i = root s y
      · subst hi
        simp [rk, c.rank_eq, List.getElem?_set, hlen]
      · simp [rk, c.rank_eq, List.getElem?_set, Ne.symm hi]
  · intro hor
    rcases hcase with ⟨_, rfl⟩ | ⟨_, _, rfl, _⟩ | ⟨_, _, rfl, _⟩ | ⟨he, heq, rfl, _⟩
    · exact c.rank_eq
    · exact c.rank_eq
    · exact c.rank_eq
    · rcases hor with h1 | h1
      · exact absurd h1 he
      · exact absurd heq h1
  · intro hne heq
    rcases hcase with ⟨he, _⟩ | ⟨_, hgt, _, _⟩ | ⟨_, hlt, _, _⟩ | ⟨_, _, rfl, _⟩
    · exact absurd he hne
    · omega
    · omega
    · refine ⟨by rw [c.rank_eq], ?_, h.rank_eq hry, ?_⟩
      · simp [c.rank_eq, List.getElem?_set, hlen]
      · intro i hi
        simp [c.rank_eq, List.getElem?_set, Ne.symm hi]

/-- Witness for C17: `Union(0, 2)` on the reachable state with the two sets
`{0, 1}` (root 1) and `{2, 3}` (root 3), both of rank 1. -/
theorem rank_monotone_witness :
    (∀ (g : Nat) (t : UnionFind) (z : Int), (UnionFind.find g t z).2.rank = t.rank) ∧
    ∃ (rx ry : Nat) (t1 t2 s1 : UnionFind),
      UnionFind.find 4 ⟨[1, 1, 3, 3], [0, 1, 0, 1]⟩ ((0 : Nat) : Int) = (.ok (rx : Int), t1) ∧
      UnionFind.find 4 t1 ((2 : Nat) : Int) = (.ok (ry : Int), t2) ∧
      UnionFind.Union 4 ⟨[1, 1, 3, 3], [0, 1, 0, 1]⟩ ((0 : Nat) : Int) ((2 : Nat) : Int)
        = (.ok (), s1) ∧
      (∀ i, rk ⟨[1, 1, 3, 3], [0, 1, 0, 1]⟩ i ≤ rk s1 i) ∧
      ((rx = ry ∨ rk ⟨[1, 1, 3, 3], [0, 1, 0, 1]⟩ rx ≠ rk ⟨[1, 1, 3, 3], [0, 1, 0, 1]⟩ ry) →
        s1.rank = (⟨[1, 1, 3, 3], [0, 1, 0, 1]⟩ : UnionFind).rank) ∧
      (rx ≠ ry → rk ⟨[1, 1, 3, 3], [0, 1, 0, 1]⟩ rx = rk ⟨[1, 1, 3, 3], [0, 1, 0, 1]⟩ ry →
        s1.rank = (⟨[1, 1, 3, 3], [0, 1, 0, 1]⟩ : UnionFind).rank.set ry
          (rk ⟨[1, 1, 3, 3], [0, 1, 0, 1]⟩ ry + 1) ∧
        s1.rank[ry]? = some (rk ⟨[1, 1, 3, 3], [0, 1, 0, 1]⟩ ry + 1) ∧
        (⟨[1, 1, 3, 3], [0, 1, 0, 1]⟩ : UnionFind).rank[ry]?
          = some (rk ⟨[1, 1, 3, 3], [0, 1, 0, 1]⟩ ry) ∧
        ∀ i, i ≠ ry →
          s1.rank[i]? = (⟨[1, 1, 3, 3], [0, 1, 0, 1]⟩ : UnionFind).rank[i]?) :=
  rank_monotone 4 _ reach_pairs 0 2 (by decide) (by decide) 4 (le_refl 4)

/-- C18: in every reachable state every root `r` has a non-negative rank and at
least `2 ^ rank[r]` elements in its set; hence `rank[r] ≤ log2 n`, and the height
of the tree rooted at `r` is at most `log2` of the number of elements in it. -/
theorem rank_is_logarithmic (n : Nat) (s : UnionFind) (hs : Reach n s) (r : Nat) (hr : r < n)
    (hroot : s.parent[r]? = some (r : Int)) :
    (∀ y, y ∈ members s n r ↔ y < n ∧ LeadsTo s y r) ∧
    0 ≤ rk s r ∧ s.rank[r]? = some (rk s r) ∧
    2 ^ (rk s r).toNat ≤ (members s n r).card ∧
    (rk s r).toNat ≤ Nat.log 2 n ∧
    height s n r ≤ Nat.log 2 (members s n r).card := by
  have h := hs.has_inv
  have hfix := (parent_self_iff h hr).1 hroot
  have hsize := set_size hs r hr hfix
  have hnn := rank_nonneg hs r
  have hle : (members s n r).card ≤ n := by
    unfold members
    exact (Finset.card_filter_le _ _).trans (by simp)
  have hlog : (rk s r).toNat ≤ Nat.log 2 (members s n r).card :=
    Nat.le_log_of_pow_le (by decide) hsize
  refine ⟨mem_members h r, hnn, h.rank_eq hr, hsize, ?_, ?_⟩
  · exact Nat.le_log_of_pow_le (by decide) (le_trans hsize hle)
  · have hh := height_le_rank hs r
    have : height s n r ≤ (rk s r).toNat := by omega
    exact le_trans this hlog

/-- Witness for C18: root 3 of the reachable state with chain `0 → 1 → 3`: rank
2, four elements, height 2. -/
theorem rank_is_logarithmic_witness :
    (∀ y, y ∈ members ⟨[1, 3, 3, 3], [0, 1, 0, 2]⟩ 4 3 ↔
      y < 4 ∧ LeadsTo ⟨[1, 3, 3, 3], [0, 1, 0, 2]⟩ y 3) ∧
    0 ≤ rk ⟨[1, 3, 3, 3], [0, 1, 0, 2]⟩ 3 ∧
    (⟨[1, 3, 3, 3], [0, 1, 0, 2]⟩ : UnionFind).rank[3]?
      = some (rk ⟨[1, 3, 3, 3], [0, 1, 0, 2]⟩ 3) ∧
    2 ^ (rk ⟨[1, 3, 3, 3], [0, 1, 0, 2]⟩ 3).toNat
      ≤ (members ⟨[1, 3, 3, 3], [0, 1, 0, 2]⟩ 4 3).card ∧
    (rk ⟨[1, 3, 3, 3], [0, 1, 0, 2]⟩ 3).toNat ≤ Nat.log 2 4 ∧
    height ⟨[1, 3, 3, 3], [0, 1, 0, 2]⟩ 4 3
      ≤ Nat.log 2 (members ⟨[1, 3, 3, 3], [0, 1, 0, 2]⟩ 4 3).card :=
  rank_is_logarithmic 4 _ reach_chain 3 (by decide) (by decide)

/-! ## The two entry points on equal graphs -/

theorem matrix_count_graph (M : List (List Int)) (n : Nat) (hn : M.length = n)
    (hsq : ∀ row ∈ M, row.length = n) (G : SimpleGraph (Fin n))
    (hG : ∀ u v : Fin n, G.Adj u v ↔
      u ≠ v ∧ (readCell M u.val v.val = some 1 ∨ readCell M v.val u.val = some 1))
    {fuel : Nat} (hf : n ≤ fuel) :
    findConnectedComponents fuel M = .ok ((Nat.card G.ConnectedComponent : Nat) : Int) := by
  subst hn
  have hvalid : EdgesValid M.length (matrixEdges M M.length (List.range M.length)) := by
    intro e he
    obtain ⟨i, j, hi, hj, _, rfl⟩ := (mem_matrixEdges M _ e).1 he
    exact ⟨⟨Int.natCast_nonneg i, Int.ofNat_lt.2 hi⟩, ⟨Int.natCast_nonneg j, Int.ofNat_lt.2 hj⟩⟩
  have hmem : ∀ a b : Fin M.length,
      ((a.val : Int), (b.val : Int)) ∈ matrixEdges M M.length (List.range M.length) ↔
        readCell M a.val b.val = some 1 := by
    intro a b
    rw [mem_matrixEdges]
    constructor
    · rintro ⟨i, j, _, _, h1, he⟩
      simp only [Prod.mk.injEq, Nat.cast_inj] at he
      rw [he.1, he.2]; exact h1
    · intro h1
      exact ⟨a.val, b.val, a.isLt, b.isLt, h1, rfl⟩
  have hG2 : ∀ u v : Fin M.length, G.Adj u v ↔
      u ≠ v ∧ (((u.val : Int), (v.val : Int)) ∈ matrixEdges M M.length (List.range M.length) ∨
        ((v.val : Int), (u.val : Int)) ∈ matrixEdges M M.length (List.range M.length)) := by
    intro u v
    rw [hmem, hmem]
    exact hG u v
  obtain ⟨sf, hrun, hinv, hcard⟩ := run_components G _ hvalid hG2 hf
  unfold findConnectedComponents
  rw [scanRows_eq fuel M M.length (List.range M.length) _
    (fun i hi j hj => readCell_square M hsq (List.mem_range.1 hi) (List.mem_range.1 hj)), hrun]
  simp only
  rw [count_eq sf _ (le_of_eq hinv.plen.symm), hcard]

theorem readCell_edgeMatrix (n : Nat) (edges : List (Int × Int)) {i j : Nat}
    (hi : i < n) (hj : j < n) :
    readCell (edgeMatrix n edges) i j
      = some (if ((i : Int), (j : Int)) ∈ edges then 1 else 0) := by
  simp [readCell, edgeMatrix, List.getElem?_map, List.getElem?_range hi, List.getElem?_range hj]

theorem edgeMatrix_shape (n : Nat) (edges : List (Int × Int)) :
    (edgeMatrix n edges).length = n ∧ ∀ row ∈ edgeMatrix n edges, row.length = n := by
  constructor
  · simp [edgeMatrix]
  · intro row hrow
    simp only [edgeMatrix, List.mem_map] at hrow
    obtain ⟨i, _, rfl⟩ := hrow
    simp

/-- C11: for every `n x n` matrix `M`, `findConnectedComponents` returns the same
count on `M`, on every matrix `M1` that has 1 exactly where `M` has 1 at `[i][j]`
or at `[j][i]` (the symmetric closure), and on every matrix `M2` that differs
from `M` on the diagonal only. -/
theorem matrix_asymmetry_and_diagonal (M M1 M2 : List (List Int)) (fuel : Nat)
    (hfuel : M.length ≤ fuel) (hsq : ∀ row ∈ M, row.length = M.length)
    (hsh1 : SameShape M M1) (hsh2 : SameShape M M2)
    (hsym : ∀ i, i < M.length → ∀ j, j < M.length →
      (readCell M1 i j = some 1 ↔ readCell M i j = some 1 ∨ readCell M j i = some 1))
    (hdiag : ∀ i, i < M.length → ∀ j, j < M.length → i ≠ j →
      readCell M2 i j = readCell M i j) :
    ∃ c : Int, findConnectedComponents fuel M = .ok c ∧
      findConnectedComponents fuel M1 = .ok c ∧ findConnectedComponents fuel M2 = .ok c := by
  refine ⟨_, matrix_count_graph M M.length rfl hsq (matrixGraph M)
    (fun u v => SimpleGraph.fromRel_adj _ u v) hfuel, ?_, ?_⟩
  · apply matrix_count_graph M1 M.length hsh1.1 hsh1.2 (matrixGraph M) _ hfuel
    intro u v
    rw [hsym u.val u.isLt v.val v.isLt, hsym v.val v.isLt u.val u.isLt]
    have := SimpleGraph.fromRel_adj (fun a b : Fin M.length => readCell M a.val b.val = some 1) u v
    constructor
    · intro hadj
      have h1 := this.1 hadj
      exact ⟨h1.1, Or.inl h1.2⟩
    · rintro ⟨hne, h1⟩
      apply this.2
      refine ⟨hne, ?_⟩
      tauto
  · apply matrix_count_graph M2 M.length hsh2.1 hsh2.2 (matrixGraph M) _ hfuel
    intro u v
    have := SimpleGraph.fromRel_adj (fun a b : Fin M.length => readCell M a.val b.val = some 1) u v
    constructor
    · intro hadj
      have h1 := this.1 hadj
      have hne : u.val ≠ v.val := fun hc => h1.1 (Fin.ext hc)
      rw [hdiag u.val u.isLt v.val v.isLt hne, hdiag v.val v.isLt u.val u.isLt (Ne.symm hne)]
      exact h1
    · rintro ⟨hne, h1⟩
      have hne2 : u.val ≠ v.val := fun hc => hne (Fin.ext hc)
      rw [hdiag u.val u.isLt v.val v.isLt hne2,
        hdiag v.val v.isLt u.val u.isLt (Ne.symm hne2)] at h1
      exact this.2 ⟨hne, h1⟩

/-- Witness for C11: the asymmetric matrix `{{0,1,0},{0,0,0},{0,0,0}}`, its
symmetric closure, and the same matrix with the diagonal set to 1; count 2. -/
theorem matrix_asymmetry_and_diagonal_witness :
    ∃ c : Int,
      findConnectedComponents 3 [[0, 1, 0], [0, 0, 0], [0, 0, 0]] = .ok c ∧
      findConnectedComponents 3 [[0, 1, 0], [1, 0, 0], [0, 0, 0]] = .ok c ∧
      findConnectedComponents 3 [[1, 1, 0], [0, 1, 0], [0, 0, 1]] = .ok c :=
  matrix_asymmetry_and_diagonal [[0, 1, 0], [0, 0, 0], [0, 0, 0]]
    [[0, 1, 0], [1, 0, 0], [0, 0, 0]] [[1, 1, 0], [0, 1, 0], [0, 0, 1]] 3 (by decide)
    (by decide) (by unfold SameShape; decide) (by unfold SameShape; decide)
    (by decide) (by decide)

/-- C12: for every `n` and every edge list with endpoints in `[0, n)`, the count
after `Union` per edge on `UnionFind(n)` equals `findConnectedComponents` on the
`n x n` matrix with 1 exactly at the listed positions; and every valid edge list
with the same edges between distinct endpoints (duplicates and self-edges added
or removed) gives the same count. -/
theorem matrix_and_edge_list_agree (n : Nat) (edges : List (Int × Int)) (fuel : Nat)
    (hfuel : n ≤ fuel) (hvalid : EdgesValid n edges) :
    ∃ (sf : UnionFind) (c : Int),
      unionEdges fuel (UnionFind.new n) edges = (.ok (), sf) ∧
      countConnectedComponents sf n = .ok c ∧
      findConnectedComponents fuel (edgeMatrix n edges) = .ok c ∧
      ∀ edges2, EdgesValid n edges2 →
        (∀ u v : Int, u ≠ v → ((u, v) ∈ edges2 ↔ (u, v) ∈ edges)) →
        ∃ sf2, unionEdges fuel (UnionFind.new n) edges2 = (.ok (), sf2) ∧
          countConnectedComponents sf2 n = .ok c := by
  have hadj : ∀ u v : Fin n, (edgeGraph n edges).Adj u v ↔
      u ≠ v ∧ (((u.val : Int), (v.val : Int)) ∈ edges ∨ ((v.val : Int), (u.val : Int)) ∈ edges) :=
    fun u v => SimpleGraph.fromRel_adj _ u v
  obtain ⟨sf, hrun, hinv, hcard⟩ := run_components (edgeGraph n edges) edges hvalid hadj hfuel
  refine ⟨sf, ((Nat.card (edgeGraph n edges).ConnectedComponent : Nat) : Int), hrun,
    by rw [count_eq sf n (le_of_eq hinv.plen.symm), hcard], ?_, ?_⟩
  · apply matrix_count_graph _ n (edgeMatrix_shape n edges).1 (edgeMatrix_shape n edges).2
      (edgeGraph n edges) _ hfuel
    intro u v
    rw [hadj, readCell_edgeMatrix n edges u.isLt v.isLt,
      readCell_edgeMatrix n edges v.isLt u.isLt]
    have h1 : ∀ a b : Int, (some (if (a, b) ∈ edges then (1 : Int) else 0) = some 1)
        ↔ (a, b) ∈ edges := by
      intro a b
      by_cases hm : (a, b) ∈ edges <;> simp [hm]
    rw [h1, h1]
  · intro edges2 hvalid2 hsame
    have hadj2 : ∀ u v : Fin n, (edgeGraph n edges).Adj u v ↔
        u ≠ v ∧ (((u.val : Int), (v.val : Int)) ∈ edges2 ∨
          ((v.val : Int), (u.val : Int)) ∈ edges2) := by
      intro u v
      rw [hadj]
      constructor
      · rintro ⟨hne, h1⟩
        have hne2 : (u.val : Int) ≠ (v.val : Int) :=
          fun hc => hne (Fin.ext (Nat.cast_injective hc))
        rw [hsame _ _ hne2, hsame _ _ (Ne.symm hne2)]
        exact ⟨hne, h1⟩
      · rintro ⟨hne, h1⟩
        have hne2 : (u.val : Int) ≠ (v.val : Int) :=
          fun hc => hne (Fin.ext (Nat.cast_injective hc))
        rw [hsame _ _ hne2, hsame _ _ (Ne.symm hne2)] at h1
        exact ⟨hne, h1⟩
    obtain ⟨sf2, hrun2, hinv2, hcard2⟩ :=
      run_components (edgeGraph n edges) edges2 hvalid2 hadj2 hfuel
    exact ⟨sf2, hrun2, by rw [count_eq sf2 n (le_of_eq hinv2.plen.symm), hcard2]⟩

/-- Witness for C12: `n = 4`, edges `[(0,1),(2,3)]`, against the same list with a
duplicate and a self-edge; the matrix is the two-block matrix without diagonal. -/
theorem matrix_and_edge_list_agree_witness :
    (∃ (sf : UnionFind) (c : Int),
      unionEdges 4 (UnionFind.new 4) [(0, 1), (2, 3)] = (.ok (), sf) ∧
      countConnectedComponents sf 4 = .ok c ∧
      findConnectedComponents 4 (edgeMatrix 4 [(0, 1), (2, 3)]) = .ok c ∧
      ∀ edges2, EdgesValid 4 edges2 →
        (∀ u v : Int, u ≠ v → ((u, v) ∈ edges2 ↔ (u, v) ∈ [(0, 1), (2, 3)])) →
        ∃ sf2, unionEdges 4 (UnionFind.new 4) edges2 = (.ok (), sf2) ∧
          countConnectedComponents sf2 4 = .ok c) ∧
    edgeMatrix 4 [(0, 1), (2, 3)] = [[0, 1, 0, 0], [0, 0, 0, 0], [0, 0, 0, 1], [0, 0, 0, 0]] ∧
    findConnectedComponents 4 (edgeMatrix 4 [(0, 1), (2, 3)]) = .ok 2 ∧
    countConnectedComponents
      (unionEdges 4 (UnionFind.new 4) [(0, 1), (0, 1), (1, 1), (2, 3)]).2 4 = .ok 2 :=
  ⟨matrix_and_edge_list_agree 4 [(0, 1), (2, 3)] 4 (le_refl 4) (by unfold EdgesValid; decide),
    by decide, by decide, by decide⟩

/-! ## Matching prefixes -/

theorem Mt.zero (p t : List Char) (i : Nat) : Mt p t i 0 :=
  ⟨Nat.zero_le _, fun _ h => absurd h (Nat.not_lt_zero _)⟩

theorem Mt.extend {p t : List Char} {i k : Nat} (h : Mt p t i k) (he : p[k]? = t[i]?) :
    Mt p t (i + 1) (k + 1) := by
  refine ⟨Nat.succ_le_succ h.1, ?_⟩
  intro a ha
  by_cases hak : a = k
  · subst hak
    have : i + 1 - (a + 1) + a = i := by have := h.1; omega
    rw [this]; exact he
  · have h1 := h.2 a (by omega)
    have : i + 1 - (k + 1) + a = i - k + a := by omega
    rw [this]; exact h1

theorem Mt.shrink {p t : List Char} {i k : Nat} (h : Mt p t (i + 1) (k + 1)) :
    Mt p t i k ∧ p[k]? = t[i]? := by
  have hle : k ≤ i := by have := h.1; omega
  refine ⟨⟨hle, ?_⟩, ?_⟩
  · intro a ha
    have h1 := h.2 a (by omega)
    have : i + 1 - (k + 1) + a = i - k + a := by omega
    rwa [this] at h1
  · have h1 := h.2 k (by omega)
    have : i + 1 - (k + 1) + k = i := by omega
    rwa [this] at h1

theorem Mt.border {p t : List Char} {i k l : Nat} (h : Mt p t i k) (hb : Mt p p k l) :
    Mt p t i l := by
  refine ⟨le_trans hb.1 h.1, ?_⟩
  intro a ha
  have h1 := hb.2 a ha
  have h2 := h.2 (k - l + a) (by have := hb.1; omega)
  have : i - k + (k - l + a) = i - l + a := by have := hb.1; have := h.1; omega
  rw [h1, h2, this]

theorem Mt.overlap {p t : List Char} {i k l : Nat} (h : Mt p t i k) (hl : Mt p t i l)
    (hlk : l ≤ k) : Mt p p k l := by
  refine ⟨hlk, ?_⟩
  intro a ha
  have h1 := hl.2 a ha
  have h2 := h.2 (k - l + a) (by omega)
  have : i - k + (k - l + a) = i - l + a := by have := h.1; omega
  rw [h1, h2, this]

theorem getElem?_some_of_lt (p : List Char) {a : Nat} (h : a < p.length) :
    ∃ c, p[a]? = some c := ⟨p[a], List.getElem?_eq_getElem h⟩

/-! ## The failure table -/

theorem storeAt_eq (v : List Nat) {i : Nat} (a : Nat) (h : i < v.length) :
    storeAt v i a = some (v.set i a) := by
  simp [storeAt, h]

theorem loadAt_pred (v : List Nat) {j : Nat} (hj : j ≠ 0) :
    loadAt v ((j : Int) - 1) = v[j - 1]? := by
  unfold loadAt
  have h0 : (0 : Int) ≤ (j : Int) - 1 := by omega
  have h1 : ((j : Int) - 1).toNat = j - 1 := by omega
  simp [h0, h1]

theorem lpsLoop_correct (p : List Char) : ∀ (fuel i len : Nat) (lps : List Nat),
    1 ≤ i → i ≤ p.length → p.length ≤ lps.length → len < i → Mt p p i len →
    (∀ k, k < i → Mt p p i k → p[k]? = p[i]? → k ≤ len) →
    (∀ q, q < i → ∃ l, lps[q]? = some l ∧ IsLps p (q + 1) l) →
    2 * (p.length - i) + len < fuel →
    ∃ out, lpsLoop p fuel i len lps = .ok out ∧ out.length = lps.length ∧
      ∀ q, q < p.length → ∃ l, out[q]? = some l ∧ IsLps p (q + 1) l := by
  intro fuel
  induction fuel with
  | zero => intro i len lps _ _ _ _ _ _ _ hf; omega
  | succ fuel ih =>
    intro i len lps hi1 him hlen hli hmt hmax htab hf
    rw [lpsLoop]
    by_cases him2 : i < p.length
    · simp only [him2, if_true]
      obtain ⟨a, ha⟩ := getElem?_some_of_lt p him2
      obtain ⟨b, hb⟩ := getElem?_some_of_lt p (lt_trans hli him2)
      rw [ha, hb]
      simp only
      by_cases hab : a = b
      · subst hab
        simp only [if_true]
        rw [storeAt_eq lps _ (lt_of_lt_of_le him2 hlen)]
        simp only
        have hnew : IsLps p (i + 1) (len + 1) := by
          refine ⟨by omega, hmt.extend (hb.trans ha.symm), ?_⟩
          intro k hk hmk
          cases k with
          | zero => omega
          | succ k =>
            have h1 := hmk.shrink
            have := hmax k (by omega) h1.1 h1.2
            omega
        obtain ⟨out, hrun, hol, hres⟩ := ih (i + 1) (len + 1) (lps.set i (len + 1))
          (by omega) him2 (by simpa using hlen) (by omega) hnew.2.1
          (fun k hk hmk _ => hnew.2.2 k hk hmk)
          (by
            intro q hq
            by_cases hqi : q = i
            · subst hqi
              exact ⟨len + 1, by simp [List.getElem?_set, lt_of_lt_of_le him2 hlen], hnew⟩
            · obtain ⟨l, hl1, hl2⟩ := htab q (by omega)
              exact ⟨l, by simp [List.getElem?_set, Ne.symm hqi, hl1], hl2⟩)
          (by omega)
        exact ⟨out, hrun, by simpa using hol, hres⟩
      · simp only [hab, if_false]
        have hmis : p[len]? ≠ p[i]? := by
          rw [ha, hb]
          intro hc
          exact hab (Option.some.inj hc).symm
        by_cases hl0 : len = 0
        · subst hl0
          simp only [ne_eq, not_true_eq_false, if_false]
          rw [storeAt_eq lps _ (lt_of_lt_of_le him2 hlen)]
          simp only
          have hnew : IsLps p (i + 1) 0 := by
            refine ⟨by omega, Mt.zero _ _ _, ?_⟩
            intro k hk hmk
            cases k with
            | zero => omega
            | succ k =>
              have h1 := hmk.shrink
              have h2 := hmax k (by omega) h1.1 h1.2
              have h3 : k = 0 := by omega
              subst h3
              exact absurd h1.2 hmis
          obtain ⟨out, hrun, hol, hres⟩ := ih (i + 1) 0 (lps.set i 0)
            (by omega) him2 (by simpa using hlen) (by omega) hnew.2.1
            (fun k hk hmk _ => hnew.2.2 k hk hmk)
            (by
              intro q hq
              by_cases hqi : q = i
              · subst hqi
                exact ⟨0, by simp [List.getElem?_set, lt_of_lt_of_le him2 hlen], hnew⟩
              · obtain ⟨l, hl1, hl2⟩ := htab q (by omega)
                exact ⟨l, by simp [List.getElem?_set, Ne.symm hqi, hl1], hl2⟩)
            (by omega)
          exact ⟨out, hrun, by simpa using hol, hres⟩
        · simp only [ne_eq, hl0, not_false_eq_true, if_true]
          obtain ⟨l, hl1, hl2⟩ := htab (len - 1) (by omega)
          have hlen1 : len - 1 + 1 = len := by omega
          rw [hlen1] at hl2
          rw [loadAt_pred lps hl0, hl1]
          simp only
          obtain ⟨out, hrun, hol, hres⟩ := ih i l lps hi1 him hlen
            (by have := hl2.1; omega) (hmt.border hl2.2.1)
            (by
              intro k hk hmk hkc
              have h1 := hmax k hk hmk hkc
              have h2 : k ≠ len := by
                intro hc
                subst hc
                exact hmis hkc
              have h3 : k < len := by omega
              exact hl2.2.2 k h3 (hmt.overlap hmk (le_of_lt h3)))
            htab (by have := hl2.1; omega)
          exact ⟨out, hrun, hol, hres⟩
    · simp only [him2, if_false]
      have : i = p.length := by omega
      subst this
      exact ⟨lps, rfl, rfl, htab⟩

theorem computeLPS_correct (p : List Char) (lps : List Nat) (fuel : Nat)
    (hp : 1 ≤ p.length) (hlen : p.length ≤ lps.length) (hf : 2 * p.length ≤ fuel) :
    ∃ out, computeLPS fuel p lps = .ok out ∧ out.length = lps.length ∧
      ∀ q, q < p.length → ∃ l, out[q]? = some l ∧ IsLps p (q + 1) l := by
  unfold computeLPS
  rw [storeAt_eq lps 0 (by omega)]
  simp only
  have h1 : IsLps p 1 0 := ⟨by omega, Mt.zero _ _ _, fun k hk _ => by omega⟩
  obtain ⟨out, hrun, hol, hres⟩ := lpsLoop_correct p fuel 1 0 (lps.set 0 0) (le_refl 1) hp
    (by simpa using hlen) (by omega) (Mt.zero _ _ _)
    (fun k hk _ _ => by omega)
    (by
      intro q hq
      have : q = 0 := by omega
      subst this
      have h0 : 0 < lps.length := by omega
      exact ⟨0, by simp [List.getElem?_set, h0], h1⟩)
    (by omega)
  exact ⟨out, hrun, by simpa using hol, hres⟩
/-! ## Occurrences -/

theorem prefix_drop_iff (p t : List Char) (s : Nat) :
    p <+: t.drop s ↔ ∀ a, a < p.length → p[a]? = t[s + a]? := by
  constructor
  · rintro ⟨r, hr⟩ a ha
    have h1 : (t.drop s)[a]? = t[s + a]? := List.getElem?_drop t s a
    rw [← h1, ← hr, List.getElem?_append_left ha]
  · intro h
    rw [List.prefix_iff_eq_take]
    apply List.ext_getElem?
    intro a
    rw [List.getElem?_take]
    by_cases ha : a < p.length
    · simp only [ha, if_true]
      rw [List.getElem?_drop]
      exact h a ha
    · simp only [ha, if_false]
      exact List.getElem?_eq_none (not_lt.mp ha)

theorem prefix_drop_iff_Mt (p t : List Char) (s : Nat) :
    p <+: t.drop s ↔ Mt p t (s + p.length) p.length := by
  rw [prefix_drop_iff]
  unfold Mt
  simp only [Nat.add_sub_cancel, Nat.le_add_left, true_and]

theorem occUpTo_succ_no (p t : List Char) (i : Nat) (h : ¬ Mt p t (i + 1) p.length) :
    occUpTo p t (i + 1) = occUpTo p t i := by
  unfold occUpTo
  by_cases hlt : i + 1 < p.length
  · have h1 : i + 1 + 1 - p.length = 0 := by omega
    have h2 : i + 1 - p.length = 0 := by omega
    rw [h1, h2]
  · have h1 : i + 1 + 1 - p.length = (i + 1 - p.length) + 1 := by omega
    rw [h1, List.range_succ, List.filter_append]
    have h2 : ¬ p <+: t.drop (i + 1 - p.length) := by
      rw [prefix_drop_iff_Mt]
      have : i + 1 - p.length + p.length = i + 1 := by omega
      rw [this]
      exact h
    simp [h2]

theorem occUpTo_succ_yes (p t : List Char) (i : Nat) (h : Mt p t (i + 1) p.length) :
    occUpTo p t (i + 1) = occUpTo p t i ++ [i + 1 - p.length] := by
  unfold occUpTo
  have hle := h.1
  have h1 : i + 1 + 1 - p.length = (i + 1 - p.length) + 1 := by omega
  rw [h1, List.range_succ, List.filter_append]
  have h2 : p <+: t.drop (i + 1 - p.length) := by
    rw [prefix_drop_iff_Mt]
    have : i + 1 - p.length + p.length = i + 1 := by omega
    rw [this]
    exact h
  simp [h2]

/-! ## The search loop -/

theorem searchLoop_correct (p t : List Char) (lps : List Nat) (hp : 1 ≤ p.length)
    (htab : ∀ q, q < p.length → ∃ l, lps[q]? = some l ∧ IsLps p (q + 1) l) :
    ∀ (fuel i j : Nat) (res : List Int),
      j < p.length → j ≤ i → i ≤ t.length → Mt p t i j →
      (∀ k, k < p.length → Mt p t i k → p[k]? = t[i]? → k ≤ j) →
      res = (occUpTo p t i).map (fun s : Nat => (s : Int) + 1) →
      2 * (t.length - i) + j < fuel →
      searchLoop p t lps fuel i j res
        = .ok ((occUpTo p t t.length).map (fun s : Nat => (s : Int) + 1)) := by
  intro fuel
  induction fuel with
  | zero => intro i j res _ _ _ _ _ _ hf; omega
  | succ fuel ih =>
    intro i j res hjM hji hiN hmt hmax hres hf
    rw [searchLoop]
    by_cases hiN2 : i < t.length
    · simp only [hiN2, if_true]
      obtain ⟨a, ha⟩ := getElem?_some_of_lt p hjM
      obtain ⟨b, hb⟩ := getElem?_some_of_lt t hiN2
      rw [ha, hb]
      simp only
      by_cases hab : a = b
      · subst hab
        simp only [if_true]
        have hmt1 : Mt p t (i + 1) (j + 1) := hmt.extend (ha.trans hb.symm)
        have hX : ∀ k, k ≤ p.length → Mt p t (i + 1) k → k ≤ j + 1 := by
          intro k hk hmk
          cases k with
          | zero => omega
          | succ k =>
            have h1 := hmk.shrink
            have := hmax k (by omega) h1.1 h1.2
            omega
        by_cases hjM2 : j + 1 = p.length
        · simp only [hjM2, if_true]
          obtain ⟨l, hl1, hl2⟩ := htab j hjM
          have hj1 : p.length - 1 = j := by omega
          rw [loadAt_pred lps (by omega), hj1, hl1]
          simp only
          rw [hjM2] at hl2 hmt1
          apply ih (i + 1) l _ hl2.1 (by have := hl2.1; omega) hiN2 (hmt1.border hl2.2.1)
          · intro k hk hmk _
            exact hl2.2.2 k hk (hmt1.overlap hmk (le_of_lt hk))
          · rw [occUpTo_succ_yes p t i hmt1, List.map_append, ← hres]
            congr 1
            simp only [List.map_cons, List.map_nil, List.cons.injEq, and_true]
            have := hmt1.1
            omega
          · have := hl2.1; omega
        · simp only [hjM2, if_false]
          have hnoM : ¬ Mt p t (i + 1) p.length := by
            intro hc
            have := hX _ (le_refl _) hc
            omega
          have hres1 : res = (occUpTo p t (i + 1)).map (fun s : Nat => (s : Int) + 1) := by
            rw [occUpTo_succ_no p t i hnoM]; exact hres
          by_cases hiN3 : i + 1 < t.length
          · simp only [hiN3, if_true]
            obtain ⟨c, hc⟩ := getElem?_some_of_lt p (show j + 1 < p.length by omega)
            obtain ⟨d, hd⟩ := getElem?_some_of_lt t hiN3
            rw [hc, hd]
            simp only
            by_cases hcd : c = d
            · subst hcd
              simp only [ne_eq, not_true_eq_false, if_false]
              apply ih (i + 1) (j + 1) res (by omega) (by omega) hiN2 hmt1 _ hres1 (by omega)
              intro k hk hmk _
              exact hX k (le_of_lt hk) hmk
            · simp only [ne_eq, hcd, not_false_eq_true, if_true, Nat.add_one_ne_zero]
              obtain ⟨l, hl1, hl2⟩ := htab j hjM
              rw [loadAt_pred lps (Nat.succ_ne_zero j), Nat.succ_sub_one, hl1]
              simp only
              apply ih (i + 1) l res (by have := hl2.1; omega) (by have := hl2.1; omega) hiN2
                (hmt1.border hl2.2.1) _ hres1 (by have := hl2.1; omega)
              intro k hk hmk hkc
              have h1 := hX k (le_of_lt hk) hmk
              have h2 : k ≠ j + 1 := by
                intro he
                subst he
                rw [hc, hd] at hkc
                exact hcd (Option.some.inj hkc)
              have h3 : k < j + 1 := by omega
              exact hl2.2.2 k h3 (hmt1.overlap hmk (le_of_lt h3))
          · simp only [hiN3, if_false]
            apply ih (i + 1) (j + 1) res (by omega) (by omega) hiN2 hmt1 _ hres1 (by omega)
            intro k hk hmk _
            exact hX k (le_of_lt hk) hmk
      · simp only [hab, if_false]
        have hjM2 : ¬ j = p.length := by omega
        simp only [hjM2, if_false, hiN2, if_true]
        rw [ha, hb]
        simp only [ne_eq, hab, not_false_eq_true, if_true]
        have hmis : p[j]? ≠ t[i]? := by
          rw [ha, hb]
          intro hc
          exact hab (Option.some.inj hc)
        by_cases hj0 : j = 0
        · subst hj0
          simp only [not_true_eq_false, if_false]
          have hnoM : ¬ Mt p t (i + 1) p.length := by
            intro hc
            obtain ⟨m, hm⟩ : ∃ m, p.length = m + 1 := ⟨p.length - 1, by omega⟩
            rw [hm] at hc
            have h1 := hc.shrink
            have h2 := hmax m (by omega) h1.1 h1.2
            have h3 : m = 0 := by omega
            subst h3
            exact hmis h1.2
          apply ih (i + 1) 0 res hjM (by omega) hiN2 (Mt.zero _ _ _) _
            (by rw [occUpTo_succ_no p t i hnoM]; exact hres) (by omega)
          intro k hk hmk _
          cases k with
          | zero => omega
          | succ k =>
            have h1 := hmk.shrink
            have h2 := hmax k (by omega) h1.1 h1.2
            have h3 : k = 0 := by omega
            subst h3
            exact absurd h1.2 hmis
        · simp only [hj0, not_false_eq_true, if_true]
          obtain ⟨l, hl1, hl2⟩ := htab (j - 1) (by omega)
          have hj1 : j - 1 + 1 = j := by omega
          rw [hj1] at hl2
          rw [loadAt_pred lps hj0, hl1]
          simp only
          apply ih i l res (by have := hl2.1; omega) (by have := hl2.1; omega) hiN
            (hmt.border hl2.2.1) _ hres (by have := hl2.1; omega)
          intro k hk hmk hkc
          have h1 := hmax k hk hmk hkc
          have h2 : k ≠ j := by
            intro he
            subst he
            exact hmis hkc
          have h3 : k < j := by omega
          exact hl2.2.2 k h3 (hmt.overlap hmk (le_of_lt h3))
    · simp only [hiN2, if_false]
      have : i = t.length := by omega
      subst this
      rw [hres]

theorem search_correct (p t : List Char) (fuel : Nat) (hp : 1 ≤ p.length)
    (hf : 2 * (p.length + t.length) + 1 ≤ fuel) :
    search fuel p t = .ok ((occurrences p t).map (fun s : Nat => (s : Int) + 1)) := by
  obtain ⟨lps, hrun, _, htab⟩ := computeLPS_correct p (List.replicate p.length 0) fuel hp
    (by simp) (by omega)
  unfold search
  rw [hrun]
  simp only
  have h0 : occUpTo p t 0 = [] := by
    unfold occUpTo
    have : 0 + 1 - p.length = 0 := by omega
    rw [this]
    rfl
  rw [searchLoop_correct p t lps hp htab fuel 0 0 [] (by omega) (le_refl 0) (Nat.zero_le _)
    (Mt.zero _ _ _) (fun k _ hk _ => hk.1) (by rw [h0]; rfl) (by omega)]
  rfl
/-! ## From index form to lists -/

theorem mem_occurrences (p t : List Char) (hp : 1 ≤ p.length) (s : Nat) :
    s ∈ occurrences p t ↔ p <+: t.drop s := by
  unfold occurrences
  simp only [List.mem_filter, List.mem_range, decide_eq_true_eq]
  constructor
  · exact fun h => h.2
  · intro h
    refine ⟨?_, h⟩
    have := h.length_le
    rw [List.length_drop] at this
    omega

theorem infix_iff_occurs (p t : List Char) : p <:+: t ↔ ∃ s, p <+: t.drop s := by
  rw [List.infix_iff_prefix_suffix]
  constructor
  · rintro ⟨u, hpu, hut⟩
    rw [List.suffix_iff_eq_drop] at hut
    exact ⟨_, hut ▸ hpu⟩
  · rintro ⟨s, hs⟩
    exact ⟨t.drop s, hs, List.drop_suffix s t⟩

theorem occurrences_increasing (p t : List Char) :
    ((occurrences p t).map (fun s : Nat => (s : Int) + 1)).Pairwise (· < ·) := by
  unfold occurrences
  rw [List.pairwise_map]
  apply List.Pairwise.filter
  exact (List.pairwise_lt_range _).imp (fun h => by omega)

theorem suffix_take_iff (p : List Char) {k L : Nat} (hk : k ≤ L) (hL : L ≤ p.length) :
    p.take k <:+ p.take L ↔ ∀ a, a < k → p[a]? = p[L - k + a]? := by
  rw [List.suffix_iff_eq_drop]
  have h1 : (p.take L).length = L := by simp [hL]
  have h2 : (p.take k).length = k := by simp [le_trans hk hL]
  rw [h1, h2]
  constructor
  · intro h a ha
    have h3 := congrArg (fun l : List Char => l[a]?) h
    simp only [List.getElem?_take, List.getElem?_drop, ha, if_true] at h3
    rw [h3]
    have : L - k + a < L := by omega
    simp [this]
  · intro h
    apply List.ext_getElem?
    intro a
    simp only [List.getElem?_take, List.getElem?_drop]
    by_cases ha : a < k
    · have : L - k + a < L := by omega
      simp only [ha, this, if_true]
      exact h a ha
    · have : ¬ L - k + a < L := by omega
      simp only [ha, this, if_false]

theorem isLps_longestBorder (p : List Char) {L l : Nat} (hL : L ≤ p.length)
    (h : IsLps p L l) : LongestBorder (p.take L) l := by
  have hlen : (p.take L).length = L := by simp [hL]
  obtain ⟨hlt, hmt, hmax⟩ := h
  refine ⟨by rw [hlen]; exact hlt, ?_, ?_⟩
  · rw [List.take_take, Nat.min_eq_left (le_of_lt hlt)]
    exact (suffix_take_iff p (le_of_lt hlt) hL).2 hmt.2
  · intro b hpre hsuf hblt
    rw [hlen] at hblt
    have hb : b = p.take b.length := by
      have := List.prefix_iff_eq_take.1 hpre
      rw [List.take_take, Nat.min_eq_left (le_of_lt hblt)] at this
      exact this
    rw [hb] at hsuf
    have := (suffix_take_iff p (le_of_lt hblt) hL).1 hsuf
    exact hmax b.length hblt ⟨le_of_lt hblt, this⟩

/-! ## The claims on KMP -/

/-- C13: for every text and every non-empty pattern, `search(pat, txt)` returns
exactly the 1-based start positions of the occurrences of `pat` in `txt`, in
strictly increasing order (so each once); it returns the empty list exactly when
`pat` does not occur in `txt`. -/
theorem search_returns_all_occurrences (pat txt : List Char) (fuel : Nat) (hpat : pat ≠ [])
    (hfuel : 2 * (pat.length + txt.length) + 1 ≤ fuel) :
    ∃ result : List Int,
      search fuel pat txt = .ok result ∧
      (∀ z : Int, z ∈ result ↔ ∃ s : Nat, z = (s : Int) + 1 ∧ pat <+: txt.drop s) ∧
      result.Pairwise (· < ·) ∧ result.Nodup ∧
      (result = [] ↔ ¬ pat <:+: txt) := by
  have hp : 1 ≤ pat.length := by
    cases pat with
    | nil => exact absurd rfl hpat
    | cons c cs => simp
  have hmem : ∀ z : Int, z ∈ (occurrences pat txt).map (fun s : Nat => (s : Int) + 1) ↔
      ∃ s : Nat, z = (s : Int) + 1 ∧ pat <+: txt.drop s := by
    intro z
    simp only [List.mem_map, mem_occurrences pat txt hp]
    constructor
    · rintro ⟨s, hs, rfl⟩; exact ⟨s, rfl, hs⟩
    · rintro ⟨s, rfl, hs⟩; exact ⟨s, hs, rfl⟩
  have hinc := occurrences_increasing pat txt
  refine ⟨_, search_correct pat txt fuel hp hfuel, hmem, hinc, ?_, ?_⟩
  · exact hinc.imp (fun h => ne_of_lt h)
  · rw [infix_iff_occurs]
    constructor
    · intro he
      rintro ⟨s, hs⟩
      have : ((s : Int) + 1) ∈ (occurrences pat txt).map (fun s : Nat => (s : Int) + 1) :=
        (hmem _).2 ⟨s, rfl, hs⟩
      rw [he] at this
      exact absurd this (List.not_mem_nil _)
    · intro hno
      apply List.eq_nil_iff_forall_not_mem.2
      intro z hz
      obtain ⟨s, _, hs⟩ := (hmem z).1 hz
      exact hno ⟨s, hs⟩

/-- Witness for C13: `pat = "geeks"`, `txt = "geeksforgeeks"` gives `[1, 9]`. -/
theorem search_returns_all_occurrences_witness :
    (∃ result : List Int,
      search 40 "geeks".toList "geeksforgeeks".toList = .ok result ∧
      (∀ z : Int, z ∈ result ↔
        ∃ s : Nat, z = (s : Int) + 1 ∧ "geeks".toList <+: "geeksforgeeks".toList.drop s) ∧
      result.Pairwise (· < ·) ∧ result.Nodup ∧
      (result = [] ↔ ¬ "geeks".toList <:+: "geeksforgeeks".toList)) ∧
    search 40 "geeks".toList "geeksforgeeks".toList = .ok [1, 9] :=
  ⟨search_returns_all_occurrences "geeks".toList "geeksforgeeks".toList 40 (by decide)
    (by decide), by decide⟩

/-- C19: for every non-empty pattern of length `m` and every vector `lps` of at
least `m` entries, `computeLPS(pattern, lps)` returns, and for every `i` in
`[0, m)` the entry `lps[i]` is then the length of the longest proper prefix of
`pattern[0..i]` that is also a suffix of it; `lps[0] == 0` and `lps[i] <= i`. -/
theorem computeLPS_longest_border (pattern : List Char) (lps : List Nat) (fuel : Nat)
    (hpat : pattern ≠ []) (hlen : pattern.length ≤ lps.length)
    (hfuel : 2 * pattern.length ≤ fuel) :
    ∃ out : List Nat,
      computeLPS fuel pattern lps = .ok out ∧ out.length = lps.length ∧
      out[0]? = some 0 ∧
      ∀ i, i < pattern.length →
        ∃ l, out[i]? = some l ∧ l ≤ i ∧ LongestBorder (pattern.take (i + 1)) l := by
  have hp : 1 ≤ pattern.length := by
    cases pattern with
    | nil => exact absurd rfl hpat
    | cons c cs => simp
  obtain ⟨out, hrun, hol, htab⟩ := computeLPS_correct pattern lps fuel hp hlen hfuel
  refine ⟨out, hrun, hol, ?_, ?_⟩
  · obtain ⟨l, hl1, hl2⟩ := htab 0 (by omega)
    have : l = 0 := by have := hl2.1; omega
    rw [hl1, this]
  · intro i hi
    obtain ⟨l, hl1, hl2⟩ := htab i hi
    exact ⟨l, hl1, by have := hl2.1; omega, isLps_longestBorder pattern (by omega) hl2⟩

/-- Witness for C19: the pattern `"aabaaab"` gives `[0, 1, 0, 1, 2, 2, 3]`. -/
theorem computeLPS_longest_border_witness :
    (∃ out : List Nat,
      computeLPS 14 "aabaaab".toList (List.replicate 7 0) = .ok out ∧
      out.length = (List.replicate 7 0).length ∧ out[0]? = some 0 ∧
      ∀ i, i < "aabaaab".toList.length →
        ∃ l, out[i]? = some l ∧ l ≤ i ∧ LongestBorder ("aabaaab".toList.take (i + 1)) l) ∧
    computeLPS 14 "aabaaab".toList (List.replicate 7 0) = .ok [0, 1, 0, 1, 2, 2, 3] :=
  ⟨computeLPS_longest_border "aabaaab".toList (List.replicate 7 0) 14 (by decide) (by decide)
    (by decide), by decide⟩

/-- C20: for every text and every non-empty pattern, the loop of `computeLPS`
ends within `2 * M` iterations and the loop of `search` within `2 * N + 1`, and
no read or write of `pattern`, `pat`, `txt` or `lps` falls outside its string or
vector: with that many iterations allowed both calls return a value. -/
theorem kmp_loops_terminate_in_bounds (pat txt : List Char) (lps : List Nat)
    (hpat : pat ≠ []) (hlen : pat.length ≤ lps.length) :
    (∀ fuel, 2 * pat.length ≤ fuel → ∃ out, computeLPS fuel pat lps = .ok out) ∧
    (∀ fuel, 2 * (pat.length + txt.length) + 1 ≤ fuel →
      ∃ result, search fuel pat txt = .ok result) := by
  have hp : 1 ≤ pat.length := by
    cases pat with
    | nil => exact absurd rfl hpat
    | cons c cs => simp
  constructor
  · intro fuel hf
    obtain ⟨out, hrun, _⟩ := computeLPS_correct pat lps fuel hp hlen hf
    exact ⟨out, hrun⟩
  · intro fuel hf
    exact ⟨_, search_correct pat txt fuel hp hf⟩

/-- Witness for C20: `pat = "aab"`, `txt = "aaaab"`, where neither loop advances
its index on every iteration. -/
theorem kmp_loops_terminate_in_bounds_witness :
    (∀ fuel, 2 * "aab".toList.length ≤ fuel →
      ∃ out, computeLPS fuel "aab".toList [0, 0, 0] = .ok out) ∧
    (∀ fuel, 2 * ("aab".toList.length + "aaaab".toList.length) + 1 ≤ fuel →
      ∃ result, search fuel "aab".toList "aaaab".toList = .ok result) :=
  kmp_loops_terminate_in_bounds "aab".toList "aaaab".toList [0, 0, 0] (by decide) (by decide)

/-! ## Graph facts for the depth-first search -/

theorem nbrs_out (g : List (List Nat)) {u : Nat} (hu : g.length ≤ u) : nbrs g u = [] := by
  simp [nbrs, List.getElem?_eq_none hu]

theorem simpleAdj_ok {g : List (List Nat)} {V : Nat} (h : SimpleAdj g V) : AdjOK g V := by
  obtain ⟨hlen, hall⟩ := h
  have hempty : ∀ u, ¬ u < V → nbrs g u = [] :=
    fun u hu => nbrs_out g (by rw [hlen]; omega)
  refine ⟨hlen, ?_, ?_, ?_, ?_⟩
  · intro u w hw
    by_cases hu : u < V
    · exact ((hall u hu).1 w hw).1
    · rw [hempty u hu] at hw; simp at hw
  · intro u w hw
    by_cases hu : u < V
    · exact ((hall u hu).1 w hw).2.1
    · rw [hempty u hu] at hw; simp at hw
  · intro u w hw
    by_cases hu : u < V
    · exact ((hall u hu).1 w hw).2.2
    · rw [hempty u hu] at hw; simp at hw
  · intro u
    by_cases hu : u < V
    · exact (hall u hu).2
    · rw [hempty u hu]; exact List.nodup_nil

theorem listGraph_adj {g : List (List Nat)} {V : Nat} (hg : AdjOK g V) (u v : Fin V) :
    (listGraph g V).Adj u v ↔ v.val ∈ nbrs g u.val := by
  unfold listGraph
  rw [SimpleGraph.fromRel_adj]
  constructor
  · rintro ⟨_, h | h⟩
    · exact h
    · exact hg.symm _ _ h
  · intro h
    refine ⟨?_, Or.inl h⟩
    intro he
    exact hg.irrefl _ _ h (congrArg Fin.val he).symm

theorem cert_acyclic {g : List (List Nat)} {V : Nat} (hg : AdjOK g V) (d : Nat → Nat)
    (hcert : ∀ x, x < V → ∃ q : Int, ∀ z ∈ nbrs g x, (z : Int) ≠ q → d z < d x) :
    (listGraph g V).IsAcyclic := by
  intro v c hc
  have hne : c.support.toFinset.Nonempty := ⟨v, by simp⟩
  obtain ⟨x, hx, hmin⟩ := Finset.exists_min_image c.support.toFinset (fun w => d w.val) hne
  rw [List.mem_toFinset] at hx
  have hsub : ∀ w, w ∈ (c.rotate hx).support → w ∈ c.support := by
    intro w hw
    rcases List.mem_cons.1 (by rw [← SimpleGraph.Walk.support_eq_cons]; exact hw :
        w ∈ x :: (c.rotate hx).support.tail) with h | h
    · rw [h]; exact hx
    · have := (SimpleGraph.Walk.support_rotate c hx).mem_iff.1 h
      exact List.mem_of_mem_tail this
  have hmin2 : ∀ w, w ∈ (c.rotate hx).support → d x.val ≤ d w.val := by
    intro w hw
    exact hmin w (List.mem_toFinset.2 (hsub w hw))
  have hc2 := hc.rotate hx
  generalize c.rotate hx = c2 at hmin2 hc2
  cases c2 with
  | nil => exact SimpleGraph.Walk.IsCycle.not_of_nil hc2
  | @cons _ y _ h q =>
    rw [SimpleGraph.Walk.cons_isCycle_iff] at hc2
    obtain ⟨_, hedge⟩ := hc2
    have hy : d x.val ≤ d y.val := hmin2 y (by simp)
    have hyx : y ≠ x := fun he => (listGraph g V).loopless x (he ▸ h)
    have key : ∃ z, (listGraph g V).Adj x z ∧ z ≠ y ∧ d x.val ≤ d z.val := by
      have hrev : ∀ w, w ∈ q.reverse.support → d x.val ≤ d w.val := by
        intro w hw
        rw [SimpleGraph.Walk.support_reverse, List.mem_reverse] at hw
        exact hmin2 w (by simp [hw])
      have hredge : s(x, y) ∉ q.reverse.edges := by
        rw [SimpleGraph.Walk.edges_reverse, List.mem_reverse]; exact hedge
      generalize q.reverse = r at hrev hredge
      cases r with
      | nil => exact absurd rfl hyx
      | @cons _ z _ h2 r2 =>
        refine ⟨z, h2, ?_, hrev z (by simp)⟩
        intro hzy
        subst hzy
        apply hredge
        simp
    obtain ⟨z, hz, hzy, hdz⟩ := key
    have hzx : z ≠ x := fun he => (listGraph g V).loopless x (he ▸ hz)
    obtain ⟨q0, hq0⟩ := hcert x.val x.isLt
    have hy1 : (y.val : Int) = q0 := by
      by_contra hcon
      have := hq0 y.val ((listGraph_adj hg x y).1 h) hcon
      omega
    have hz1 : (z.val : Int) = q0 := by
      by_contra hcon
      have := hq0 z.val ((listGraph_adj hg x z).1 hz) hcon
      omega
    apply hzy
    apply Fin.ext
    have : (z.val : Int) = (y.val : Int) := by rw [hy1, hz1]
    exact_mod_cast this

theorem chain_reach {g : List (List Nat)} {V : Nat} (hg : AdjOK g V) (G : SimpleGraph (Fin V))
    (u : Nat)
    (hG : ∀ a b : Fin V, b.val ∈ nbrs g a.val → a.val ≠ u → b.val ≠ u → G.Adj a b) :
    ∀ (st : List Nat) (a : Nat) (ha : a < V),
      List.Chain (fun x y => y ∈ nbrs g x) a st → a ≠ u → (∀ x ∈ st, x ≠ u) →
      ∀ y (hy : y < V), y ∈ a :: st → G.Reachable ⟨a, ha⟩ ⟨y, hy⟩ := by
  intro st
  induction st with
  | nil =>
    intro a ha _ _ _ y hy hmem
    have : y = a := by simpa using hmem
    subst this
    exact SimpleGraph.Reachable.refl _
  | cons b st ih =>
    intro a ha hchain hau hst y hy hmem
    rw [List.chain_cons] at hchain
    have hb : b < V := hg.bound _ _ hchain.1
    have hbu : b ≠ u := hst b (List.mem_cons_self _ _)
    rcases List.mem_cons.1 hmem with h | h
    · subst h
      exact SimpleGraph.Reachable.refl _
    · have h1 : G.Reachable ⟨a, ha⟩ ⟨b, hb⟩ :=
        (hG ⟨a, ha⟩ ⟨b, hb⟩ hchain.1 hau hbu).reachable
      exact h1.trans (ih b hb hchain.2 hbu
        (fun x hx => hst x (List.mem_cons_of_mem _ hx)) y hy h)

theorem stack_cycle {g : List (List Nat)} {V : Nat} (hg : AdjOK g V) (u p y : Nat)
    (st : List Nat) (hchain : List.Chain (fun x y => y ∈ nbrs g x) u (p :: st))
    (hst : ∀ x ∈ p :: st, x ≠ u) (hy : y ∈ st) (hyp : y ≠ p) (hadj : y ∈ nbrs g u) :
    ¬ (listGraph g V).IsAcyclic := by
  rw [List.chain_cons] at hchain
  have hpV : p < V := hg.bound _ _ hchain.1
  have hyV : y < V := hg.bound _ _ hadj
  have huV : u < V := hg.bound _ _ (hg.symm _ _ hadj)
  have hyu : y ≠ u := hst y (List.mem_cons_of_mem _ hy)
  have hpu : p ≠ u := hst p (List.mem_cons_self _ _)
  let G' := (listGraph g V) \ SimpleGraph.fromEdgeSet {s((⟨u, huV⟩ : Fin V), ⟨y, hyV⟩)}
  have hG' : ∀ a b : Fin V, b.val ∈ nbrs g a.val → a.val ≠ u → b.val ≠ u → G'.Adj a b := by
    intro a b hab hau hbu
    show ((listGraph g V) \ SimpleGraph.fromEdgeSet _).Adj a b
    rw [SimpleGraph.sdiff_adj, SimpleGraph.fromEdgeSet_adj]
    refine ⟨(listGraph_adj hg a b).2 hab, ?_⟩
    rintro ⟨hmem, _⟩
    rw [Set.mem_singleton_iff, Sym2.eq_iff] at hmem
    rcases hmem with ⟨h1, _⟩ | ⟨_, h2⟩
    · exact hau (congrArg Fin.val h1)
    · exact hbu (congrArg Fin.val h2)
  have h1 : G'.Adj ⟨u, huV⟩ ⟨p, hpV⟩ := by
    show ((listGraph g V) \ SimpleGraph.fromEdgeSet _).Adj _ _
    rw [SimpleGraph.sdiff_adj, SimpleGraph.fromEdgeSet_adj]
    refine ⟨(listGraph_adj hg _ _).2 hchain.1, ?_⟩
    rintro ⟨hmem, _⟩
    rw [Set.mem_singleton_iff, Sym2.eq_iff] at hmem
    rcases hmem with ⟨_, h2⟩ | ⟨h1, _⟩
    · exact hyp (congrArg Fin.val h2).symm
    · exact hyu (congrArg Fin.val h1).symm
  have h2 : G'.Reachable ⟨p, hpV⟩ ⟨y, hyV⟩ :=
    chain_reach hg G' u hG' st p hpV hchain.2 hpu
      (fun x hx => hst x (List.mem_cons_of_mem _ hx)) y hyV (List.mem_cons_of_mem _ hy)
  have h3 : (listGraph g V).Adj ⟨u, huV⟩ ⟨y, hyV⟩ := (listGraph_adj hg _ _).2 hadj
  obtain ⟨w, c, hc, _⟩ :=
    SimpleGraph.adj_and_reachable_delete_edges_iff_exists_cycle.1 ⟨h3, h1.reachable.trans h2⟩
  intro hac
  exact hac c hc
/-! ## Marks -/

theorem count_set_true : ∀ (l : List Bool) (i : Nat), l[i]? = some false →
    (l.set i true).count false + 1 = l.count false := by
  intro l
  induction l with
  | nil => intro i h; simp at h
  | cons a l ih =>
    intro i h
    cases i with
    | zero =>
      have : a = false := by simpa using h
      subst this
      simp
    | succ i =>
      have h1 : l[i]? = some false := by simpa using h
      have := ih i h1
      cases a <;> simp [List.set, List.count_cons] <;> omega

theorem on_set (vis : List Bool) {c : Nat} (hc : c < vis.length) (x : Nat) :
    On (vis.set c true) x ↔ x = c ∨ On vis x := by
  unfold On
  rw [List.getElem?_set]
  by_cases h : c = x
  · subst h
    simp [hc]
  · simp [h, Ne.symm h]

theorem on_lt {vis : List Bool} {x : Nat} (h : On vis x) : x < vis.length := by
  unfold On at h
  by_contra hc
  rw [List.getElem?_eq_none (not_lt.mp hc)] at h
  exact Option.noConfusion h

theorem not_on_of_off {vis : List Bool} {x : Nat} (h : vis[x]? = some false) : ¬ On vis x := by
  unfold On
  rw [h]
  simp

theorem off_of_not_on {vis : List Bool} {x : Nat} (hx : x < vis.length) (h : ¬ On vis x) :
    vis[x]? = some false := by
  unfold On at h
  rw [List.getElem?_eq_getElem hx] at h ⊢
  cases hv : vis[x] with
  | false => rfl
  | true => rw [hv] at h; exact absurd rfl h
/-! ## The loop of `isCycleUtil` -/

theorem loop_spec {g : List (List Nat)} {V : Nat} (hg : AdjOK g V) (F : Nat)
    (rec : Nat → List Bool → Int → Res (Bool × List Bool)) (hrec : UtilSpec g V F rec)
    (u : Nat) (st : List Nat) (vis1 : List Bool)
    (hu : On vis1 u) (hchain : List.Chain (fun x y => y ∈ nbrs g x) u st)
    (hstu : ∀ x ∈ st, x ≠ u)
    (hbase : ∀ x, On vis1 x → x ≠ u → x ∈ st ∨ u ∉ nbrs g x) :
    ∀ (ws P : List Nat) (vis : List Bool) (d : Nat → Nat),
      nbrs g u = P ++ ws → LoopInv g V u st vis1 vis d P → unv vis ≤ F →
      ∃ (b : Bool) (vis2 : List Bool),
        cycleLoop rec u (parentOf st) ws vis = .ok (b, vis2) ∧
        (b = true → ¬ (listGraph g V).IsAcyclic) ∧
        (b = false → ∃ d2 : Nat → Nat, LoopInv g V u st vis1 vis2 d2 (nbrs g u) ∧
          (∀ x, On vis x → On vis2 x) ∧ (∀ x, On vis x → d2 x = d x) ∧
          unv vis2 ≤ unv vis) := by
  intro ws
  induction ws with
  | nil =>
    intro P vis d hrow hinv _
    rw [List.append_nil] at hrow
    refine ⟨false, vis, rfl, fun h => Bool.noConfusion h, fun _ => ⟨d, ?_, fun _ h => h,
      fun _ _ => rfl, le_refl _⟩⟩
    rw [hrow]; exact hinv
  | cons w ws ih =>
    intro P vis d hrow hinv hF
    have hw : w ∈ nbrs g u := by rw [hrow]; simp
    have hrow2 : nbrs g u = (P ++ [w]) ++ ws := by rw [hrow]; simp
    have hwu : w ≠ u := hg.irrefl u w hw
    have huw : u ∈ nbrs g w := hg.symm u w hw
    rw [cycleLoop]
    by_cases hwp : (w : Int) = parentOf st
    · simp only [hwp, if_true]
      apply ih (P ++ [w]) vis d hrow2 _ hF
      refine ⟨hinv.inv, hinv.mono, ?_, hinv.newd, ?_⟩
      · intro z hz
        rcases List.mem_append.1 hz with h | h
        · exact hinv.proc z h
        · have : z = w := by simpa using h
          subst this
          exact Or.inl hwp
      · intro x hx hnx z hz
        rcases hinv.newQ x hx hnx z hz with h | ⟨h1, h2⟩
        · exact Or.inl h
        · exact Or.inr ⟨h1, List.mem_append_left _ h2⟩
    · simp only [hwp, if_false]
      have hwV : w < vis.length := by rw [hinv.inv.len]; exact hg.bound u w hw
      cases hbw : vis[w] with
      | true =>
        have hOn : On vis w := by unfold On; rw [List.getElem?_eq_getElem hwV, hbw]
        rw [show vis[w]? = some true from hOn]
        refine ⟨true, vis, rfl, fun _ => ?_, fun h => Bool.noConfusion h⟩
        by_cases h1 : On vis1 w
        · rcases hbase w h1 hwu with hst | hnot
          · cases st with
            | nil => simp at hst
            | cons p st1 =>
              have hwp2 : w ≠ p := by
                intro he
                apply hwp
                rw [he]
                rfl
              have hmem : w ∈ st1 := by
                rcases List.mem_cons.1 hst with h | h
                · exact absurd h hwp2
                · exact h
              exact stack_cycle hg u p w st1 hchain hstu hmem hwp2 hw
          · exact absurd huw hnot
        · exfalso
          rcases hinv.newQ w hOn h1 u huw with h | ⟨_, h⟩
          · exact h hu
          · have hnd := hg.nodup u
            rw [hrow] at hnd
            exact (List.disjoint_of_nodup_append hnd) h (List.mem_cons_self _ _)
      | false =>
        have hoff : vis[w]? = some false := by rw [List.getElem?_eq_getElem hwV, hbw]
        rw [hoff]
        simp only
        obtain ⟨b1, visA, hrun, htrue, hfalse⟩ :=
          hrec w vis (u :: st) d hinv.inv hoff (List.Chain.cons huw hchain) hF
        have hpar : parentOf (u :: st) = (u : Int) := rfl
        rw [hpar] at hrun
        rw [hrun]
        cases b1 with
        | true =>
          exact ⟨true, visA, rfl, fun _ => htrue rfl, fun h => Bool.noConfusion h⟩
        | false =>
          simp only
          obtain ⟨hmonoA, hOnw, hunv, hQ, dA, hdA, hdnew, hinvA⟩ := hfalse rfl
          have hnw : ¬ On vis w := not_on_of_off hoff
          have hOnu : On vis u := hinv.mono u hu
          have hnext : LoopInv g V u st vis1 visA dA (P ++ [w]) := by
            refine ⟨hinvA, fun x hx => hmonoA x (hinv.mono x hx), ?_, ?_, ?_⟩
            · intro z hz
              rcases List.mem_append.1 hz with h | h
              · rcases hinv.proc z h with h2 | ⟨h2, h3⟩
                · exact Or.inl h2
                · exact Or.inr ⟨hmonoA z h2, h3⟩
              · have : z = w := by simpa using h
                subst this
                exact Or.inr ⟨hOnw, fun hc => hnw (hinv.mono z hc)⟩
            · intro x hx hnx
              rw [hdA u hOnu]
              by_cases hox : On vis x
              · rw [hdA x hox]
                exact hinv.newd x hox hnx
              · have h1 := hdnew x hx hox
                have h2 := hinv.inv.dlow u hOnu
                omega
            · intro x hx hnx z hz
              by_cases hox : On vis x
              · rcases hinv.newQ x hox hnx z hz with h | ⟨h1, h2⟩
                · exact Or.inl h
                · exact Or.inr ⟨h1, List.mem_append_left _ h2⟩
              · rcases hQ x hx hox z hz with h | ⟨h1, h2⟩
                · exact Or.inl (fun hc => h (hinv.mono z hc))
                · refine Or.inr ⟨?_, ?_⟩
                  · rw [hpar] at h2
                    exact_mod_cast h2
                  · rw [h1]; simp
          obtain ⟨b2, vis2, hrun2, htrue2, hfalse2⟩ :=
            ih (P ++ [w]) visA dA hrow2 hnext (by omega)
          refine ⟨b2, vis2, hrun2, htrue2, fun hb => ?_⟩
          obtain ⟨d2, hl2, hmono2, hd2, hunv2⟩ := hfalse2 hb
          exact ⟨d2, hl2, fun x hx => hmono2 x (hmonoA x hx),
            fun x hx => by rw [hd2 x (hmonoA x hx), hdA x hx], by omega⟩
/-! ## The contract of `isCycleUtil` -/

theorem util_step {g : List (List Nat)} {V : Nat} (hg : AdjOK g V) (F : Nat)
    (hrec : UtilSpec g V F (isCycleUtil F g)) : UtilSpec g V (F + 1) (isCycleUtil (F + 1) g) := by
  intro c vis0 st d hinv hoff hchain hF
  have hcV : c < vis0.length := by
    by_contra hc
    rw [List.getElem?_eq_none (not_lt.mp hc)] at hoff
    exact Option.noConfusion hoff
  have hcg : c < g.length := by rw [hg.len, ← hinv.len]; exact hcV
  have hnb : nbrs g c = g[c] := by simp [nbrs, List.getElem?_eq_getElem hcg]
  have hnc : ¬ On vis0 c := not_on_of_off hoff
  have hunv1 : unv (vis0.set c true) + 1 = unv vis0 := count_set_true vis0 c hoff
  have hon1 : ∀ x, On (vis0.set c true) x ↔ x = c ∨ On vis0 x := on_set vis0 hcV
  have hu : On (vis0.set c true) c := (hon1 c).2 (Or.inl rfl)
  have hstu : ∀ x ∈ st, x ≠ c := by
    intro x hx he
    exact hnc (he ▸ hinv.stOn x hx)
  have hbase : ∀ x, On (vis0.set c true) x → x ≠ c → x ∈ st ∨ c ∉ nbrs g x := by
    intro x hx hxc
    rcases (hon1 x).1 hx with h | h
    · exact absurd h hxc
    · rcases hinv.fin x h with h1 | h1
      · exact Or.inl h1
      · exact Or.inr (fun hc => hnc (h1.1 c hc))
  have hd1 : ∀ x, x ≠ c → Function.update d c (unv vis0) x = d x :=
    fun x hx => Function.update_noteq hx _ _
  have hd1c : Function.update d c (unv vis0) c = unv vis0 := Function.update_same _ _ _
  have hinv1 : DfsInv g V (vis0.set c true) (c :: st) (Function.update d c (unv vis0)) := by
    refine ⟨by rw [List.length_set]; exact hinv.len, ?_, ?_, ?_⟩
    · intro y hy
      rcases List.mem_cons.1 hy with h | h
      · rw [h]; exact hu
      · exact (hon1 y).2 (Or.inr (hinv.stOn y h))
    · intro x hx
      rcases (hon1 x).1 hx with h | h
      · exact Or.inl (by rw [h]; exact List.mem_cons_self _ _)
      · rcases hinv.fin x h with h1 | ⟨h1, q, h2⟩
        · exact Or.inl (List.mem_cons_of_mem _ h1)
        · refine Or.inr ⟨fun z hz => (hon1 z).2 (Or.inr (h1 z hz)), q, ?_⟩
          intro z hz hzq
          have hzc : z ≠ c := fun he => hnc (he ▸ h1 z hz)
          have hxc : x ≠ c := fun he => hnc (he ▸ h)
          rw [hd1 z hzc, hd1 x hxc]
          exact h2 z hz hzq
    · intro x hx
      rcases (hon1 x).1 hx with h | h
      · rw [h, hd1c]; omega
      · have hxc : x ≠ c := fun he => hnc (he ▸ h)
        rw [hd1 x hxc]
        have := hinv.dlow x h
        omega
  have hlinv : LoopInv g V c st (vis0.set c true) (vis0.set c true)
      (Function.update d c (unv vis0)) [] :=
    ⟨hinv1, fun _ h => h, fun z hz => by simp at hz, fun x hx hnx => absurd hx hnx,
      fun x hx hnx => absurd hx hnx⟩
  obtain ⟨b, vis2, hrun, htrue, hfalse⟩ :=
    loop_spec hg F (fun w vis p => isCycleUtil F g w vis p) hrec c st (vis0.set c true) hu
      hchain hstu hbase g[c] [] (vis0.set c true) (Function.update d c (unv vis0))
      (by rw [hnb]; rfl) hlinv (by omega)
  refine ⟨b, vis2, ?_, htrue, fun hb => ?_⟩
  · rw [isCycleUtil]
    simp only [markAt, hcV, if_true, List.getElem?_eq_getElem hcg]
    exact hrun
  · obtain ⟨d2, hl2, hmono2, hd2, hunv2⟩ := hfalse hb
    have hOnc : On vis2 c := hmono2 c hu
    have hmono : ∀ x, On vis0 x → On vis2 x :=
      fun x hx => hmono2 x ((hon1 x).2 (Or.inr hx))
    have hnew1 : ∀ x, On vis2 x → ¬ On vis0 x → x ≠ c → ¬ On (vis0.set c true) x := by
      intro x _ hnx hxc hc
      rcases (hon1 x).1 hc with h | h
      · exact hxc h
      · exact hnx h
    have hd2c : d2 c = unv vis0 := by rw [hd2 c hu, hd1c]
    refine ⟨hmono, hOnc, by omega, ?_, d2, ?_, ?_, ?_⟩
    · intro x hx hnx z hz
      by_cases hxc : x = c
      · subst hxc
        rcases hl2.proc z hz with h | ⟨_, h⟩
        · exact Or.inr ⟨rfl, h⟩
        · exact Or.inl (fun hc => h ((hon1 z).2 (Or.inr hc)))
      · rcases hl2.newQ x hx (hnew1 x hx hnx hxc) z hz with h | ⟨h, _⟩
        · exact Or.inl (fun hc => h ((hon1 z).2 (Or.inr hc)))
        · exact Or.inl (by rw [h]; exact hnc)
    · intro x hx
      have hxc : x ≠ c := fun he => hnc (he ▸ hx)
      rw [hd2 x ((hon1 x).2 (Or.inr hx)), hd1 x hxc]
    · intro x hx hnx
      by_cases hxc : x = c
      · rw [hxc, hd2c]
      · have := hl2.newd x hx (hnew1 x hx hnx hxc)
        rw [hd2c] at this
        omega
    · refine ⟨hl2.inv.len, fun y hy => hmono y (hinv.stOn y hy), ?_, hl2.inv.dlow⟩
      intro x hx
      rcases hl2.inv.fin x hx with h | h
      · rcases List.mem_cons.1 h with h1 | h1
        · right
          rw [h1]
          refine ⟨?_, parentOf st, ?_⟩
          · intro z hz
            rcases hl2.proc z hz with h2 | ⟨h2, _⟩
            · cases st with
              | nil =>
                exfalso
                have : (z : Int) = -1 := h2
                omega
              | cons p st1 =>
                have hzp : z = p := by
                  have : (z : Int) = (p : Int) := h2
                  exact_mod_cast this
                rw [hzp]
                exact hmono p (hinv.stOn p (List.mem_cons_self _ _))
            · exact h2
          · intro z hz hzq
            rcases hl2.proc z hz with h2 | ⟨h2, h3⟩
            · exact absurd h2 hzq
            · exact hl2.newd z h2 h3
        · exact Or.inl h1
      · exact Or.inr h

theorem util_spec {g : List (List Nat)} {V : Nat} (hg : AdjOK g V) :
    ∀ F, UtilSpec g V F (isCycleUtil F g) := by
  intro F
  induction F with
  | zero =>
    intro c vis st d _ hoff _ hF
    exfalso
    have : 0 < vis.count false := by
      rw [List.count_pos_iff]
      exact List.getElem?_mem hoff
    unfold unv at hF
    omega
  | succ F ih => exact util_step hg F ih
/-! ## The loop of `isCyclic` -/

theorem cyclicLoop_spec {g : List (List Nat)} {V : Nat} (hg : AdjOK g V) (fuel : Nat) :
    ∀ (rest : List Nat) (vis : List Bool) (d : Nat → Nat),
      DfsInv g V vis [] d → unv vis ≤ fuel → (∀ i ∈ rest, i < V) →
      ∃ b : Bool, cyclicLoop fuel g rest vis = .ok b ∧
        (b = true → ¬ (listGraph g V).IsAcyclic) ∧
        (b = false → ∃ (vis2 : List Bool) (d2 : Nat → Nat), DfsInv g V vis2 [] d2 ∧
          (∀ x, On vis x → On vis2 x) ∧ ∀ i ∈ rest, On vis2 i) := by
  intro rest
  induction rest with
  | nil =>
    intro vis d hinv _ _
    exact ⟨false, rfl, fun h => Bool.noConfusion h,
      fun _ => ⟨vis, d, hinv, fun _ h => h, fun i hi => by simp at hi⟩⟩
  | cons i rest ih =>
    intro vis d hinv hF hlt
    have hiV : i < vis.length := by rw [hinv.len]; exact hlt i (List.mem_cons_self _ _)
    have hrest : ∀ j ∈ rest, j < V := fun j hj => hlt j (List.mem_cons_of_mem _ hj)
    rw [cyclicLoop]
    cases hb : vis[i] with
    | true =>
      have hOn : On vis i := by unfold On; rw [List.getElem?_eq_getElem hiV, hb]
      rw [show vis[i]? = some true from hOn]
      simp only
      obtain ⟨b, hrun, htrue, hfalse⟩ := ih vis d hinv hF hrest
      refine ⟨b, hrun, htrue, fun hbf => ?_⟩
      obtain ⟨vis2, d2, hinv2, hmono, hall⟩ := hfalse hbf
      refine ⟨vis2, d2, hinv2, hmono, ?_⟩
      intro j hj
      rcases List.mem_cons.1 hj with h | h
      · rw [h]; exact hmono i hOn
      · exact hall j h
    | false =>
      have hoff : vis[i]? = some false := by rw [List.getElem?_eq_getElem hiV, hb]
      rw [hoff]
      simp only
      obtain ⟨b1, visA, hrun, htrue, hfalse⟩ :=
        util_spec hg fuel i vis [] d hinv hoff List.Chain.nil hF
      have hpar : parentOf [] = (-1 : Int) := rfl
      rw [hpar] at hrun
      rw [hrun]
      cases b1 with
      | true => exact ⟨true, rfl, fun _ => htrue rfl, fun h => Bool.noConfusion h⟩
      | false =>
        simp only
        obtain ⟨hmonoA, hOni, hunv, _, dA, _, _, hinvA⟩ := hfalse rfl
        obtain ⟨b, hrun2, htrue2, hfalse2⟩ := ih visA dA hinvA (by omega) hrest
        refine ⟨b, hrun2, htrue2, fun hbf => ?_⟩
        obtain ⟨vis2, d2, hinv2, hmono, hall⟩ := hfalse2 hbf
        refine ⟨vis2, d2, hinv2, fun x hx => hmono x (hmonoA x hx), ?_⟩
        intro j hj
        rcases List.mem_cons.1 hj with h | h
        · rw [h]; exact hmono i hOni
        · exact hall j h

theorem isCyclic_spec {g : List (List Nat)} {V : Nat} (hg : AdjOK g V) (fuel : Nat)
    (hfuel : V ≤ fuel) :
    ∃ b : Bool, isCyclic fuel g V = .ok b ∧ (b = true ↔ ¬ (listGraph g V).IsAcyclic) := by
  have hnone : ∀ x, ¬ On (List.replicate V false) x := by
    intro x hx
    unfold On at hx
    rw [List.getElem?_replicate] at hx
    split at hx <;> simp at hx
  have hinv0 : DfsInv g V (List.replicate V false) [] (fun _ => 0) :=
    ⟨by simp, fun y hy => by simp at hy, fun x hx => absurd hx (hnone x),
      fun x hx => absurd hx (hnone x)⟩
  have hunv0 : unv (List.replicate V false) ≤ fuel := by
    unfold unv
    rw [List.count_replicate_self]
    exact hfuel
  obtain ⟨b, hrun, htrue, hfalse⟩ :=
    cyclicLoop_spec hg fuel (List.range V) _ _ hinv0 hunv0 (fun i hi => List.mem_range.1 hi)
  refine ⟨b, hrun, htrue, fun hcyc => ?_⟩
  cases b with
  | true => rfl
  | false =>
    exfalso
    obtain ⟨vis2, d2, hinv2, _, hall⟩ := hfalse rfl
    apply hcyc
    apply cert_acyclic hg d2
    intro x hx
    rcases hinv2.fin x (hall x (List.mem_range.2 hx)) with h | h
    · simp at h
    · exact h.2

/-- C14: for every `V` and every simple undirected graph on `0 .. V-1` given as
symmetric adjacency lists without self-loops and parallel edges, `isCyclic(g, V)`
returns, and returns `true` if and only if the graph contains a cycle. -/
theorem isCyclic_iff_cycle (g : List (List Nat)) (V : Nat) (fuel : Nat) (hfuel : V ≤ fuel)
    (hg : SimpleAdj g V) :
    ∃ b : Bool, isCyclic fuel g V = .ok b ∧
      (b = true ↔ ∃ (v : Fin V) (c : (listGraph g V).Walk v v), c.IsCycle) := by
  obtain ⟨b, hrun, hiff⟩ := isCyclic_spec (simpleAdj_ok hg) fuel hfuel
  refine ⟨b, hrun, ?_⟩
  rw [hiff]
  unfold SimpleGraph.IsAcyclic
  push_neg
  rfl

/-- Witness for C14: the triangle on `0, 1, 2` has a cycle, the path `0 - 1 - 2`
with the isolated vertex 3 has none. -/
theorem isCyclic_iff_cycle_witness :
    (SimpleAdj [[1, 2], [0, 2], [0, 1]] 3 ∧
      ∃ b : Bool, isCyclic 3 [[1, 2], [0, 2], [0, 1]] 3 = .ok b ∧
        (b = true ↔ ∃ (v : Fin 3) (c : (listGraph [[1, 2], [0, 2], [0, 1]] 3).Walk v v),
          c.IsCycle)) ∧
    isCyclic 3 [[1, 2], [0, 2], [0, 1]] 3 = .ok true ∧
    isCyclic 4 [[1], [0, 2], [1], []] 4 = .ok false := by
  have h : SimpleAdj [[1, 2], [0, 2], [0, 1]] 3 := by
    unfold SimpleAdj
    decide
  exact ⟨⟨h, isCyclic_iff_cycle _ 3 3 (le_refl 3) h⟩, by decide, by decide⟩
